import Mathlib

/-!
# GPU-aware scheduling utilities (`pkg/gpuscheduler/utils.go`)

A shallow embedding of the helper functions of the GPU scheduler extender and
the properties established about them.

Conventions of the embedding:

* a Go `string` is its byte sequence (`GoString := List UInt8`); `len`, slicing
  and `strings.Split` on a one-byte separator act on bytes, as in Go;
* a Go `int` is an `Int` (no arithmetic in this file can overflow 64 bits,
  except `strconv.Atoi`, whose saturation is modelled explicitly);
* a run-time panic (index or slice bound out of range) is the result `none`;
* a Go `map[string]V` is an association list with distinct keys, and a
  `for ... range` over a map visits the entries in the order of that list
  (Go leaves the order unspecified; the list is the order chosen by the run);
* a `[]int` is the list of its elements where the code reads it or builds it
  from nil; for `combineMappings`, whose `append` can write in place into an
  array that other slices share, a slice is a header (array, offset, length,
  capacity) over a heap of arrays.
-/

namespace GpuScheduler

/-! ## Go strings -/

/-- A Go string: an immutable sequence of bytes. -/
abbrev GoString := List UInt8

/-- The bytes of a string literal (Go source text is UTF-8). -/
def goStr (s : String) : GoString := s.data.flatMap String.utf8EncodeChar

/-- Go `strings.HasPrefix`. -/
def hasPrefix (s pre : GoString) : Bool := pre.isPrefixOf s

/-- Go `strings.TrimPrefix`: `s` without the leading `pre`, or `s` itself. -/
def trimPrefix (s pre : GoString) : GoString :=
  if hasPrefix s pre then s.drop pre.length else s

/-- Go `strings.Split(s, sep)` for a separator of one byte: the pieces of `s`
between the occurrences of `sep`; there is always at least one piece. -/
def split (sep : UInt8) : GoString → List GoString
  | [] => [[]]
  | c :: cs =>
    if c = sep then [] :: split sep cs
    else match split sep cs with
      | [] => [[c]]
      | p :: ps => (c :: p) :: ps

/-- Go slice expression `s[n:]`: panics when `n > len(s)`. -/
def sliceFrom (s : GoString) (n : Nat) : Option GoString :=
  if n ≤ s.length then some (s.drop n) else none

/-! ## Integer slices, `containsInt` and `reorderPreferredTilesFirst` -/

/-- The loop of `containsInt`, `index` being the position of the head. -/
def containsIntFrom (index : Int) : List Int → Int → Bool × Int
  | [], _ => (false, -1)
  | v :: rest, value =>
    if v = value then (true, index) else containsIntFrom (index + 1) rest value

/-- Go `containsInt`: whether `value` occurs in `slice`, and the index of its
first occurrence (`-1` when absent). -/
def containsInt (slice : List Int) (value : Int) : Bool × Int :=
  containsIntFrom 0 slice value

/-- Go index expression `s[i]` read: panics outside `0 ≤ i < len(s)`. -/
def indexRead (s : List Int) (i : Int) : Option Int :=
  if 0 ≤ i then s[i.toNat]? else none

/-- Go assignment `s[i] = v`: panics outside `0 ≤ i < len(s)`. -/
def indexWrite (s : List Int) (i : Int) (v : Int) : Option (List Int) :=
  if 0 ≤ i ∧ i.toNat < s.length then some (s.set i.toNat v) else none

/-- The `for _, pref := range preferred` loop of `reorderPreferredTilesFirst`,
with the slice `tiles` and the cursor `indexNow` as explicit state. -/
def reorderLoop : List Int → List Int → Int → Option (List Int)
  | [], tiles, _ => some tiles
  | pref :: rest, tiles, indexNow =>
    match containsInt tiles pref with
    | (true, index) =>
      if index > indexNow then
        match indexRead tiles indexNow with
        | none => none
        | some old =>
          match indexWrite tiles indexNow pref with
          | none => none
          | some tiles1 =>
            match indexWrite tiles1 index old with
            | none => none
            | some tiles2 => reorderLoop rest tiles2 (indexNow + 1)
      else reorderLoop rest tiles (indexNow + 1)
    | (false, _) => reorderLoop rest tiles indexNow

/-- Go `reorderPreferredTilesFirst(tiles, preferred)`; `none` is a panic. -/
def reorderPreferredTilesFirst (tiles preferred : List Int) : Option (List Int) :=
  reorderLoop preferred tiles 0

/-- The slice after the exchange done by one loop iteration: position `n`
receives `p` and position `j` receives the element that was at `n`. -/
def exchanged (tiles : List Int) (n j : Nat) (p : Int) : List Int :=
  (tiles.set n p).set j (tiles.getD n 0)

/-- The values of a list, each once, in the order of their first occurrence. -/
def firstOccurrences : List Int → List Int
  | [] => []
  | x :: xs => x :: (firstOccurrences xs).filter (fun y => y ≠ x)

/-! ## Go maps -/

/-- A Go `map[string]V`: the entries, keys distinct, in the order in which a
`range` loop over the map visits them. -/
abbrev GoMap (V : Type) := List (GoString × V)

/-- The map `m` is well formed: no key occurs twice. -/
def WellFormed {V : Type} (m : GoMap V) : Prop := (m.map Prod.fst).Nodup

instance {V : Type} (m : GoMap V) : Decidable (WellFormed m) := by
  unfold WellFormed
  infer_instance

/-- The two-valued read `v, ok := m[k]`, as an option. -/
def mapGet {V : Type} : GoMap V → GoString → Option V
  | [], _ => none
  | (k1, v) :: rest, k => if k1 = k then some v else mapGet rest k

/-- The assignment `m[k] = v`: overwrites the entry of `k`, or adds one. -/
def mapSet {V : Type} : GoMap V → GoString → V → GoMap V
  | [], k, v => [(k, v)]
  | (k1, v1) :: rest, k, v =>
    if k1 = k then (k, v) :: rest else (k1, v1) :: mapSet rest k v

/-- The keys of a map. -/
def mapKeys {V : Type} (m : GoMap V) : List GoString := m.map Prod.fst

/-- A tile-state mapping (`DisabledTilesMap`, `DescheduledTilesMap`,
`PreferredTilesMap`, all `map[string][]int`). -/
abbrev TilesMap := GoMap (List Int)

/-- The read `m[card]` of a tile-state mapping: the nil slice when absent. -/
def tilesOf (m : TilesMap) (card : GoString) : List Int := (mapGet m card).getD []

/-! ## `combineMappings` and `sanitizeTiles` -/

/-- A Go slice of `int`: the backing array (its index in the heap), the offset
of the first element in that array, the length and the capacity. -/
structure Slice where
  arr : Nat
  off : Nat
  len : Nat
  cap : Nat
  deriving DecidableEq, Repr

/-- The arrays allocated so far, by index. -/
abbrev Heap := List (List Int)

/-- The nil slice, which is what a map read gives for an absent key. -/
def nilSlice : Slice := { arr := 0, off := 0, len := 0, cap := 0 }

/-- The elements of a slice. -/
def sliceContent (h : Heap) (s : Slice) : List Int :=
  ((h.getD s.arr []).drop s.off).take s.len

/-- The heap after the values `vals` are written into the array `arr` from the
position `pos` on. -/
def writeCells (h : Heap) (arr pos : Nat) (vals : List Int) : Heap :=
  h.set arr ((h.getD arr []).take pos ++ vals ++ (h.getD arr []).drop (pos + vals.length))

/-- Go `append(s, t...)`: with nothing to append the result is `s`; when the
capacity of `s` has room, the elements of `t` (read before anything is written)
are written in place behind `s`, in the array of `s`; otherwise a new array is
allocated, of a capacity chosen by the run time (`newCap`, from the old capacity
and the length needed, and never less than that length), and receives the
elements of `s` and of `t`. The result is the new heap and the new slice. -/
def goAppend (newCap : Nat → Nat → Nat) (h : Heap) (s t : Slice) : Heap × Slice :=
  if t.len = 0 then (h, s)
  else if s.len + t.len ≤ s.cap then
    (writeCells h s.arr (s.off + s.len) (sliceContent h t), { s with len := s.len + t.len })
  else
    (h ++ [sliceContent h s ++ sliceContent h t ++
        List.replicate (max (newCap s.cap (s.len + t.len)) (s.len + t.len) - (s.len + t.len)) 0],
      { arr := h.length, off := 0, len := s.len + t.len,
        cap := max (newCap s.cap (s.len + t.len)) (s.len + t.len) })

/-- The loop of `combineMappings` over the entries of `source`:
`dest[card] = append(dest[card], tiles...)`. -/
def combineHeapLoop (newCap : Nat → Nat → Nat) :
    List (GoString × Slice) → Heap → GoMap Slice → Heap × GoMap Slice
  | [], h, dest => (h, dest)
  | (card, tiles) :: rest, h, dest =>
    combineHeapLoop newCap rest
      (goAppend newCap h ((mapGet dest card).getD nilSlice) tiles).1
      (mapSet dest card (goAppend newCap h ((mapGet dest card).getD nilSlice) tiles).2)

/-- Go `combineMappings(source, dest)` on two distinct maps. A map holds slice
headers; the elements are in the heap. `source` is only read (a nil `source` is
ranged over as the empty map, so it is given here as the empty list); `dest` is
`none` when nil, and an assignment into a nil map panics (the result `none`).
The function returns nothing: the result is the heap and `dest` after the
call. -/
def combineMappings (newCap : Nat → Nat → Nat) (h : Heap) (source : GoMap Slice)
    (dest : Option (GoMap Slice)) : Option (Heap × Option (GoMap Slice)) :=
  match source, dest with
  | [], dest => some (h, dest)
  | _ :: _, none => none
  | entry :: rest, some d =>
    some ((combineHeapLoop newCap (entry :: rest) h d).1,
      some (combineHeapLoop newCap (entry :: rest) h d).2)

/-- The loop of `combineMappings` over the entries of `source`, on the contents
of the lists: `dest[card]` becomes its old content followed by `tiles`. This is
what `combineMappings` does to the contents whenever its appends write into no
other list, as on lists that share no array (`combineMappings_contents`,
`combineLoop_realised`). -/
def combineLoop : List (GoString × List Int) → TilesMap → TilesMap
  | [], dest => dest
  | (card, tiles) :: rest, dest =>
    combineLoop rest (mapSet dest card (tilesOf dest card ++ tiles))

/-- The tiles that a map of slices holds under a card (none when absent). -/
def tilesAt (h : Heap) (m : GoMap Slice) (card : GoString) : List Int :=
  ((mapGet m card).map (sliceContent h)).getD []

/-! ## Vocabulary for the statements about storage -/

/-- The slice lies in its array: the length is at most the capacity, and the
capacity ends within the array. -/
def ValidSlice (h : Heap) (s : Slice) : Prop :=
  s.len ≤ s.cap ∧ s.off + s.cap ≤ (h.getD s.arr []).length

/-- `append(d, t...)` writes in place: `t` is not empty and `d` has room. -/
def InPlace (d t : Slice) : Prop := t.len ≠ 0 ∧ d.len + t.len ≤ d.cap

/-- No element of `s` is a cell that `append(d, t...)` writes in place. -/
def WriteFree (d t s : Slice) : Prop :=
  InPlace d t →
    s.arr ≠ d.arr ∨ s.off + s.len ≤ d.off + d.len ∨ d.off + d.len + t.len ≤ s.off ∨ s.len = 0

/-- The cells that `append(d, t...)` and `append(d1, t1...)` write in place are
apart. -/
def WritesApart (d t d1 t1 : Slice) : Prop :=
  InPlace d t → InPlace d1 t1 →
    d.arr ≠ d1.arr ∨ d.off + d.len + t.len ≤ d1.off + d1.len ∨
      d1.off + d1.len + t1.len ≤ d.off + d.len

/-- The appends of `combineMappings(source, dest)` do not write into other
lists: the keys of `source` are distinct and all slices lie in their arrays (as
in any Go map of slices), and the cells that an append writes in place, behind
the list of `dest` under a key of `source`, are not elements of a list of
`source`, not elements of a list of `dest` under another key, and not cells
that the append for another key writes. -/
def AppendsApart (h : Heap) (source dest : GoMap Slice) : Prop :=
  WellFormed source ∧
  (∀ e ∈ source, ValidSlice h e.2) ∧
  (∀ f ∈ dest, ValidSlice h f.2) ∧
  (∀ e ∈ source, ∀ f ∈ dest, f.1 = e.1 →
    (∀ g ∈ source, WriteFree f.2 e.2 g.2) ∧
    (∀ g ∈ dest, g.1 ≠ e.1 → WriteFree f.2 e.2 g.2) ∧
    (∀ e1 ∈ source, ∀ f1 ∈ dest, f1.1 = e1.1 → e1.1 ≠ e.1 →
      WritesApart f.2 e.2 f1.2 e1.2))

instance (h : Heap) (s : Slice) : Decidable (ValidSlice h s) := by
  unfold ValidSlice
  infer_instance

instance (d t : Slice) : Decidable (InPlace d t) := by
  unfold InPlace
  infer_instance

instance (d t s : Slice) : Decidable (WriteFree d t s) := by
  unfold WriteFree
  infer_instance

instance (d t d1 t1 : Slice) : Decidable (WritesApart d t d1 t1) := by
  unfold WritesApart
  infer_instance

instance (h : Heap) (source dest : GoMap Slice) : Decidable (AppendsApart h source dest) := by
  unfold AppendsApart
  infer_instance

/-- The contents of a map of slices: under each key, the elements of its
slice. -/
def contentsOf (h : Heap) (m : GoMap Slice) : TilesMap :=
  m.map (fun e => (e.1, sliceContent h e.2))

/-- The lists of a tile-state mapping stored behind the arrays of `h`, each in
an array of its own of exactly its length. -/
def storeMap : TilesMap → Heap → Heap × GoMap Slice
  | [], h => (h, [])
  | (k, l) :: rest, h =>
    ((storeMap rest (h ++ [l])).1,
      (k, { arr := h.length, off := 0, len := l.length, cap := l.length }) ::
        (storeMap rest (h ++ [l])).2)

/-- Two maps whose lists `[1, 2]` and `[1]` are the slices `arr[0:2]` and
`arr[0:1]` of one array `arr` of three cells. -/
def sharedHeap : Heap := [[1, 2, 0]]

/-- The map `a ↦ arr[0:2]`. -/
def sharedSource : GoMap Slice := [(goStr "a", { arr := 0, off := 0, len := 2, cap := 3 })]

/-- The map `a ↦ arr[0:1]`. -/
def sharedDest : GoMap Slice := [(goStr "a", { arr := 0, off := 0, len := 1, cap := 3 })]

/-- An array `[5, 6]` and an array `[7]`. -/
def sharedDestHeap : Heap := [[5, 6], [7]]

/-- A destination whose lists `[5]` and `[6]` are the slices `arr[0:1]` and
`arr[1:2]` of the first array. -/
def sharedDestDest : GoMap Slice :=
  [(goStr "a", { arr := 0, off := 0, len := 1, cap := 2 }),
   (goStr "b", { arr := 0, off := 1, len := 1, cap := 1 })]

/-- The map `a ↦ [7]`, in the second array. -/
def sharedDestSource : GoMap Slice :=
  [(goStr "a", { arr := 1, off := 0, len := 1, cap := 1 })]

/-- The arrays `[1]` and `[2]`. -/
def sampleHeap : Heap := [[1], [2]]

/-- The map `a ↦ [1]`, in the first array. -/
def sampleSource : GoMap Slice := [(goStr "a", { arr := 0, off := 0, len := 1, cap := 1 })]

/-- The map `a ↦ [2]`, in the second array. -/
def sampleDest : GoMap Slice := [(goStr "a", { arr := 1, off := 0, len := 1, cap := 1 })]

/-- A growth policy for the examples: twice the length needed. -/
def sampleNewCap : Nat → Nat → Nat := fun _ needed => 2 * needed

/-- The inner loop of `sanitizeTiles`: appends to `stiles` the tiles below
`tilesPerGpu` (the other branch only logs a warning). -/
def sanitizeInner (tilesPerGpu : Int) : List Int → List Int → List Int
  | [], stiles => stiles
  | tile :: rest, stiles =>
    if tile < tilesPerGpu then sanitizeInner tilesPerGpu rest (stiles ++ [tile])
    else sanitizeInner tilesPerGpu rest stiles

/-- The outer loop of `sanitizeTiles` over the entries of `tilesMap`. -/
def sanitizeLoop (tilesPerGpu : Int) : List (GoString × List Int) → TilesMap → TilesMap
  | [], sanitized => sanitized
  | (card, tiles) :: rest, sanitized =>
    sanitizeLoop tilesPerGpu rest (mapSet sanitized card (sanitizeInner tilesPerGpu tiles []))

/-- Go `sanitizeTiles(tilesMap, tilesPerGpu)`. -/
def sanitizeTiles (tilesMap : TilesMap) (tilesPerGpu : Int) : TilesMap :=
  sanitizeLoop tilesPerGpu tilesMap []

/-! ## `strconv` -/

/-- The two errors of Go `strconv`. -/
inductive NumError where
  | errSyntax
  | errRange
  deriving DecidableEq, Repr

/-- The byte of an ASCII character. -/
def byte (c : Char) : UInt8 := c.toUInt8

/-- The byte is one of `'0'` ... `'9'`. -/
def isDigit (c : UInt8) : Bool := decide (48 ≤ c.toNat) && decide (c.toNat ≤ 57)

/-- The digit loop of Go `strconv.ParseUint(s, 10, bitSize)`: `n` is the value
read so far. Any byte that is not a decimal digit is a syntax error (in base 10
neither letters nor underscores are accepted); a value above `maxVal` is a range
error, returned with `maxVal`. Over unbounded naturals the two overflow tests of
the library (`n >= cutoff`, and `n1 < n || n1 > maxVal`) are the one test
`n * 10 + d > maxVal`. -/
def parseUintLoop (maxVal : Nat) : GoString → Nat → Nat × Option NumError
  | [], n => (n, none)
  | c :: cs, n =>
    if isDigit c then
      if n * 10 + (c.toNat - 48) > maxVal then (maxVal, some NumError.errRange)
      else parseUintLoop maxVal cs (n * 10 + (c.toNat - 48))
    else (0, some NumError.errSyntax)

/-- Go `strconv.ParseUint(s, 10, bitSize)` for `0 < bitSize ≤ 64`. -/
def parseUint (s : GoString) (bitSize : Nat) : Nat × Option NumError :=
  if s = [] then (0, some NumError.errSyntax)
  else parseUintLoop (2 ^ bitSize - 1) s 0

/-- Go `strconv.ParseInt(s, digitBase, bitSize)` with `digitBase = 10`, for
`0 < bitSize ≤ 64`: an optional sign, then `ParseUint`, then the range test of
the signed type. The pair is the returned value and error (`none` is the nil
error). -/
def parseInt (s : GoString) (bitSize : Nat) : Int × Option NumError :=
  match s with
  | [] => (0, some NumError.errSyntax)
  | c :: cs =>
    let neg : Bool := decide (c = byte '-')
    let body : GoString := if c = byte '+' ∨ c = byte '-' then cs else c :: cs
    match parseUint body bitSize with
    | (_, some NumError.errSyntax) => (0, some NumError.errSyntax)
    | (un, rangeOrNil) =>
      let cutoff : Nat := 2 ^ (bitSize - 1)
      if !neg && decide (un ≥ cutoff) then ((cutoff : Int) - 1, some NumError.errRange)
      else if neg && decide (un > cutoff) then (-(cutoff : Int), some NumError.errRange)
      else match rangeOrNil with
        | some e => (0, some e)
        | none => (if neg then -(un : Int) else (un : Int), none)

/-- Go `strconv.Atoi(s)` on a 64-bit platform, which is `ParseInt(s, 10, 0)`
narrowed to `int` (the fast path for short inputs computes the same pair). -/
def atoi (s : GoString) : Int × Option NumError := parseInt s 64

/-! ## `convertPodTileAnnotationToCardTileMap` -/

/-- Modelled from the spec: the constant `maxLabelParts` is declared outside
the file under study; the specification says a label, and an annotation clause,
must split into exactly two parts. -/
def maxLabelParts : Nat := 2

/-- The constant `desiredIntBits`. -/
def desiredIntBits : Nat := 16

/-- The loop over the `+`-separated tiles of one clause. -/
def tileLoop (cardIndexStr : GoString) : List GoString → GoMap Bool → GoMap Bool
  | [], cardTileIndices => cardTileIndices
  | tile :: rest, cardTileIndices =>
    let tileNoStr := trimPrefix tile (goStr "gt")
    match (parseInt tileNoStr desiredIntBits).2 with
    | none =>
      tileLoop cardIndexStr rest
        (mapSet cardTileIndices (cardIndexStr ++ goStr "." ++ tileNoStr) true)
    | some _ => tileLoop cardIndexStr rest cardTileIndices

/-- The loop over the `,`-separated clauses of one container; `none` is a
panic (an index or slice bound out of range). -/
def cardTileLoop : List GoString → GoMap Bool → Option (GoMap Bool)
  | [], cardTileIndices => some cardTileIndices
  | cardTileCombos :: rest, cardTileIndices =>
    let cardTileSplit := split (byte ':') cardTileCombos
    if cardTileSplit.length ≠ maxLabelParts then cardTileLoop rest cardTileIndices
    else
      match cardTileSplit[0]? with
      | none => none
      | some cardPart =>
        match sliceFrom cardPart (goStr "card").length with
        | none => none
        | some cardIndexStr =>
          match (parseInt cardIndexStr desiredIntBits).2 with
          | some _ => cardTileLoop rest cardTileIndices
          | none =>
            match cardTileSplit[1]? with
            | none => none
            | some tilePart =>
              cardTileLoop rest
                (tileLoop cardIndexStr (split (byte '+') tilePart) cardTileIndices)

/-- The loop over the `|`-separated container parts. -/
def containerLoop : List GoString → GoMap Bool → Option (GoMap Bool)
  | [], cardTileIndices => some cardTileIndices
  | contPart :: rest, cardTileIndices =>
    match cardTileLoop (split (byte ',') contPart) cardTileIndices with
    | none => none
    | some next => containerLoop rest next

/-- Go `convertPodTileAnnotationToCardTileMap`; `none` is a panic. -/
def convertPodTileAnnotationToCardTileMap (s : GoString) : Option (GoMap Bool) :=
  containerLoop (split (byte '|') s) []

/-! ## `createTileMapping` -/

/-- The label constants that `createTileMapping` and `labelWithoutTASNS` use
and that are declared outside the file under study. They are parameters of the
embedding: every statement below holds for any value of them. -/
structure LabelConsts where
  tasNSPrefix : GoString
  tileDisableLabelPrefix : GoString
  tileDeschedLabelPrefix : GoString
  tilePrefLabelPrefix : GoString

/-- Go `labelWithoutTASNS`: the part of the label after the `/` and `true`, or
the empty string and `false`. The index `parts[1]` is in range under the guard
`len(parts) == maxLabelParts`. -/
def labelWithoutTASNS (c : LabelConsts) (label : GoString) : GoString × Bool :=
  if hasPrefix label c.tasNSPrefix then
    let parts := split (byte '/') label
    if parts.length = maxLabelParts then (parts.getD 1 [], true)
    else ([], false)
  else ([], false)

/-- The submatches of the regular expression `regexCardTile`,
`^card([0-9]+)_gt([0-9]+)$`, on `s` (Go `FindStringSubmatch`, without the whole
match): the expression is anchored at both ends and an underscore is not a
digit, so the first group is the longest run of digits after `card`. -/
def findCardTileSubmatch (s : GoString) : Option (GoString × GoString) :=
  if hasPrefix s (goStr "card") then
    let afterCard := s.drop (goStr "card").length
    let digits1 := afterCard.takeWhile isDigit
    let afterDigits := afterCard.dropWhile isDigit
    if digits1 ≠ [] ∧ hasPrefix afterDigits (goStr "_gt") then
      let digits2 := afterDigits.drop (goStr "_gt").length
      if digits2 ≠ [] ∧ digits2.all isDigit then some (digits1, digits2) else none
    else none
  else none

/-- The closure `extractCardAndTile` of `createTileMapping`: `some (card, tile)`
when the error is nil, `none` for `errExtractFail` (the card and tile returned
with the error are not used by any caller). The error of `Atoi` is dropped, as
in the source. -/
def extractCardAndTile (cardTileCombo : GoString) : Option (GoString × Int) :=
  match findCardTileSubmatch cardTileCombo with
  | none => none
  | some (digits1, digits2) => some (goStr "card" ++ digits1, (atoi digits2).1)

/-- The statement `m[card] = append(m[card], tile)`. -/
def appendTile (m : TilesMap) (card : GoString) (tile : Int) : TilesMap :=
  mapSet m card (tilesOf m card ++ [tile])

/-- The body of the `for label, value := range labels` loop of
`createTileMapping`, on the three mappings built so far. -/
def tileMappingStep (c : LabelConsts) (acc : TilesMap × TilesMap × TilesMap)
    (label value : GoString) : TilesMap × TilesMap × TilesMap :=
  let (stripped, ok) := labelWithoutTASNS c label
  if !ok then acc
  else if hasPrefix stripped c.tileDisableLabelPrefix then
    match extractCardAndTile (trimPrefix stripped c.tileDisableLabelPrefix) with
    | some (card, tile) => (appendTile acc.1 card tile, acc.2.1, acc.2.2)
    | none => acc
  else if hasPrefix stripped c.tileDeschedLabelPrefix then
    match extractCardAndTile (trimPrefix stripped c.tileDeschedLabelPrefix) with
    | some (card, tile) => (acc.1, appendTile acc.2.1 card tile, acc.2.2)
    | none => acc
  else if hasPrefix stripped c.tilePrefLabelPrefix then
    match extractCardAndTile
        (trimPrefix stripped c.tilePrefLabelPrefix ++ goStr "_" ++ value) with
    | some (card, tile) => (acc.1, acc.2.1, appendTile acc.2.2 card tile)
    | none => acc
  else acc

/-- The loop of `createTileMapping` over the labels. -/
def tileMappingLoop (c : LabelConsts) :
    List (GoString × GoString) → TilesMap × TilesMap × TilesMap →
      TilesMap × TilesMap × TilesMap
  | [], acc => acc
  | (label, value) :: rest, acc => tileMappingLoop c rest (tileMappingStep c acc label value)

/-- Go `createTileMapping(labels)`: the disabled, descheduled and preferred
mappings. -/
def createTileMapping (c : LabelConsts) (labels : GoMap GoString) :
    TilesMap × TilesMap × TilesMap :=
  tileMappingLoop c labels ([], [], [])

/-! ## The annotation grammar -/

/-- The byte of the decimal digit `d` (`d < 10`). -/
def digitByte (d : Nat) : UInt8 := UInt8.ofNat (48 + d)

/-- The decimal digits of `n`, most significant first; `fuel` bounds their
number. -/
def decimalDigits : Nat → Nat → GoString
  | 0, _ => []
  | fuel + 1, n =>
    if n < 10 then [digitByte n]
    else decimalDigits fuel (n / 10) ++ [digitByte (n % 10)]

/-- The decimal rendering of a non-negative integer, without sign or leading
zeros (what `strconv.Itoa` prints). -/
def renderNat (n : Nat) : GoString := decimalDigits (n + 1) n

/-- Go `strings.Join(parts, sep)` for a separator of one byte. -/
def joinWith (sep : UInt8) : List GoString → GoString
  | [] => []
  | [x] => x
  | x :: y :: rest => x ++ sep :: joinWith sep (y :: rest)

/-- The text `"gt" tileIndex` of the grammar. -/
def renderTile (tileIndex : Nat) : GoString := goStr "gt" ++ renderNat tileIndex

/-- The text of `cardTile := "card" cardIndex ":" "gt" tileIndex ("+" "gt"
tileIndex)*`, for a card index and its tile indices. -/
def renderCardTile (cardTile : Nat × List Nat) : GoString :=
  goStr "card" ++ renderNat cardTile.1 ++
    byte ':' :: joinWith (byte '+') (cardTile.2.map renderTile)

/-- The text of `containerSpec := cardTile ("," cardTile)*`. -/
def renderContainer (cardTiles : List (Nat × List Nat)) : GoString :=
  joinWith (byte ',') (cardTiles.map renderCardTile)

/-- The text of `annotation := containerSpec ("|" containerSpec)*`. -/
def renderAnnotationString (containers : List (List (Nat × List Nat))) : GoString :=
  joinWith (byte '|') (containers.map renderContainer)

/-- The keys `cardIndex + "." + tileIndex` of one card with its tiles. -/
def cardTileKeys (cardTile : Nat × List Nat) : List GoString :=
  cardTile.2.map (fun tileIndex => renderNat cardTile.1 ++ goStr "." ++ renderNat tileIndex)

/-- The keys of all the (card index, tile index) pairs of an annotation. -/
def annotationKeys (containers : List (List (Nat × List Nat))) : List GoString :=
  containers.flatMap (fun cardTiles => cardTiles.flatMap cardTileKeys)

/-! ## Vocabulary for the statements about labels -/

/-- The regular expression `^card([0-9]+)_gt([0-9]+)$` matches `s`: `s` is
`card`, a non-empty run of decimal digits, `_gt`, and a non-empty run of decimal
digits. -/
def MatchesCardTile (s : GoString) : Prop :=
  ∃ digits1 digits2 : GoString,
    digits1 ≠ [] ∧ digits2 ≠ [] ∧
    (∀ b ∈ digits1, isDigit b = true) ∧ (∀ b ∈ digits2, isDigit b = true) ∧
    s = goStr "card" ++ digits1 ++ goStr "_gt" ++ digits2

/-- The second of the segments of a label split on `/`. -/
def labelName (label : GoString) : GoString := (split (byte '/') label).getD 1 []

/-- The label does not start with the namespace prefix, or does not split on
`/` into exactly `maxLabelParts` segments. -/
def OutsideNamespace (c : LabelConsts) (label : GoString) : Prop :=
  hasPrefix label c.tasNSPrefix = false ∨ (split (byte '/') label).length ≠ maxLabelParts

/-- The name of the label is recognized as a tile-disable name, or (not being
one) as a tile-deschedule name, and what follows the sub-prefix does not match
the regular expression. -/
def MalformedDisableOrDeschedule (c : LabelConsts) (label : GoString) : Prop :=
  (hasPrefix (labelName label) c.tileDisableLabelPrefix = true ∧
    ¬ MatchesCardTile (trimPrefix (labelName label) c.tileDisableLabelPrefix)) ∨
  (hasPrefix (labelName label) c.tileDisableLabelPrefix = false ∧
    hasPrefix (labelName label) c.tileDeschedLabelPrefix = true ∧
    ¬ MatchesCardTile (trimPrefix (labelName label) c.tileDeschedLabelPrefix))

/-- The name of the label has none of the three recognized sub-prefixes. -/
def UnrecognizedName (c : LabelConsts) (label : GoString) : Prop :=
  hasPrefix (labelName label) c.tileDisableLabelPrefix = false ∧
  hasPrefix (labelName label) c.tileDeschedLabelPrefix = false ∧
  hasPrefix (labelName label) c.tilePrefLabelPrefix = false

/-- A label that does not qualify, for one of the three reasons above. -/
def NonQualifying (c : LabelConsts) (label : GoString) : Prop :=
  OutsideNamespace c label ∨ MalformedDisableOrDeschedule c label ∨ UnrecognizedName c label

/-- A sample value of the label constants, used as a concrete input only:
the sub-prefixes have the shape shown in the specification of the label
surface (`tile-disable-`, `tile-deschedule-`, `tile-preference-`). -/
def sampleConsts : LabelConsts :=
  { tasNSPrefix := goStr "telemetry.aware.scheduling."
    tileDisableLabelPrefix := goStr "tile-disable-"
    tileDeschedLabelPrefix := goStr "tile-deschedule-"
    tilePrefLabelPrefix := goStr "tile-preference-" }

/-- A sample label map: one label outside the namespace, one tile-disable
label, one namespaced label with an unrecognized name. -/
def sampleLabels : GoMap GoString :=
  [(goStr "kubernetes.io/hostname", goStr "node1"),
   (goStr "telemetry.aware.scheduling.policy/tile-disable-card0_gt3", goStr "true"),
   (goStr "telemetry.aware.scheduling.policy/something-else", goStr "1")]

/-! ## `createDisabledTileMapping` and `createDisabledAndPreferredTileMapping` -/

/-- Go `createDisabledTileMapping(labels)`: the disabled mapping with the
descheduled one combined into it. The three maps of `createTileMapping` are made
by that call and their lists grow from nil by `append`, so no two of the lists
share an array, and `combineMappings(des, dis)` acts on their contents as
`combineLoop` (`combineMappings_contents`). -/
def createDisabledTileMapping (c : LabelConsts) (labels : GoMap GoString) : TilesMap :=
  let r := createTileMapping c labels
  combineLoop r.2.1 r.1

/-- Go `createDisabledAndPreferredTileMapping(labels)`: the disabled mapping
with the descheduled one combined into it (on the lists of `createTileMapping`,
which share no array, `combineMappings(des, dis)` acts on the contents as
`combineLoop`), and the preferred mapping. -/
def createDisabledAndPreferredTileMapping (c : LabelConsts) (labels : GoMap GoString) :
    TilesMap × TilesMap :=
  let r := createTileMapping c labels
  (combineLoop r.2.1 r.1, r.2.2)

/-! ## Pods and `isCompletedPod` -/

/-- A resource quantity (`resource.Quantity` of the Kubernetes API), known to
this file only through `AsInt64`: the value and whether the conversion is
exact. -/
structure Quantity where
  asInt64 : Int × Bool

/-- The fields of a `v1.Container` that this file reads. -/
structure Container where
  name : GoString
  requests : GoMap Quantity

/-- The fields of a (non-nil) `v1.Pod` that this file reads: the deletion
timestamp (a pointer, `none` when nil), the phase (a string type) and the
containers of the pod spec. -/
structure Pod where
  deletionTimestamp : Option Nat
  phase : GoString
  containers : List Container

/-- The constant `v1.PodPending` of the Kubernetes API. -/
def podPending : GoString := goStr "Pending"

/-- The constant `v1.PodRunning` of the Kubernetes API. -/
def podRunning : GoString := goStr "Running"

/-- The constant `v1.PodSucceeded` of the Kubernetes API. -/
def podSucceeded : GoString := goStr "Succeeded"

/-- The constant `v1.PodFailed` of the Kubernetes API. -/
def podFailed : GoString := goStr "Failed"

/-- The constant `v1.PodUnknown` of the Kubernetes API. -/
def podUnknown : GoString := goStr "Unknown"

/-- Go `isCompletedPod(pod)`: the cases of the switch in their order, a
`fallthrough` continuing with the body of the next case. -/
def isCompletedPod (pod : Pod) : Bool :=
  if pod.deletionTimestamp ≠ none then true
  else if pod.phase = podFailed then true
  else if pod.phase = podSucceeded then true
  else if pod.phase = podPending then false
  else if pod.phase = podRunning then false
  else if pod.phase = podUnknown then false
  else false

/-- A sample label map in which one card has a disabled tile and a preferred
tile. -/
def sampleSharedCardLabels : GoMap GoString :=
  [(goStr "telemetry.aware.scheduling.policy/tile-disable-card0_gt0", goStr "true"),
   (goStr "telemetry.aware.scheduling.policy/tile-preference-card0", goStr "gt1")]

/-! ## Vocabulary for the statements about annotation keys -/

/-- A non-empty run of decimal digits. -/
def IsDecimal (x : GoString) : Prop := x ≠ [] ∧ ∀ b ∈ x, isDigit b = true

/-- An optional sign (`+` or `-`) followed by a non-empty run of decimal
digits. -/
def IsSignedDecimal (x : GoString) : Prop :=
  ∃ sign digits : GoString,
    (sign = [] ∨ sign = goStr "+" ∨ sign = goStr "-") ∧ IsDecimal digits ∧ x = sign ++ digits

/-- An optional `-` followed by a non-empty run of decimal digits. -/
def IsMinusDecimal (x : GoString) : Prop :=
  ∃ sign digits : GoString,
    (sign = [] ∨ sign = goStr "-") ∧ IsDecimal digits ∧ x = sign ++ digits

/-! ## `containerRequests` -/

/-- The type `resourceMap` (`map[string]int64`), declared outside the file
under study. -/
abbrev ResourceMap := GoMap Int

/-- A Go `map[int]bool` keyed by container positions (which are never
negative). -/
abbrev IndexMap := List (Nat × Bool)

/-- The two-valued read `v, ok := m[k]` of an `IndexMap`, as an option. -/
def indexGet : IndexMap → Nat → Option Bool
  | [], _ => none
  | (k1, v) :: rest, k => if k1 = k then some v else indexGet rest k

/-- The assignment `m[k] = v` of an `IndexMap`. -/
def indexSet : IndexMap → Nat → Bool → IndexMap
  | [], k, v => [(k, v)]
  | (k1, v1) :: rest, k, v =>
    if k1 = k then (k, v) :: rest else (k1, v1) :: indexSet rest k v

/-- The inner loop of `containerRequests` over the requests of one container:
`rm` receives the resources whose name has the prefix `gpuPrefix` (a constant
declared outside the file under study, a parameter here), with the value of
`AsInt64`, its flag dropped. -/
def requestsLoop (gpuPrefix : GoString) : List (GoString × Quantity) → ResourceMap → ResourceMap
  | [], rm => rm
  | (name, quantity) :: rest, rm =>
    if hasPrefix name gpuPrefix then
      requestsLoop gpuPrefix rest (mapSet rm name quantity.asInt64.1)
    else requestsLoop gpuPrefix rest rm

/-- The read `samegpuContainerNames[name]` of a `map[string]bool`: `false`
when the name is absent. -/
def isFlagged (samegpuContainerNames : GoMap Bool) (name : GoString) : Bool :=
  (mapGet samegpuContainerNames name).getD false

/-- The outer loop of `containerRequests`, `idx` being the position of the
first container of the list. -/
def containersLoop (gpuPrefix : GoString) (samegpuContainerNames : GoMap Bool) :
    List Container → Nat → IndexMap → List ResourceMap → IndexMap × List ResourceMap
  | [], _, samegpuSearchMap, allResources => (samegpuSearchMap, allResources)
  | container :: rest, idx, samegpuSearchMap, allResources =>
    let rm := requestsLoop gpuPrefix container.requests []
    let nextMap :=
      if isFlagged samegpuContainerNames container.name then indexSet samegpuSearchMap idx true
      else samegpuSearchMap
    containersLoop gpuPrefix samegpuContainerNames rest (idx + 1) nextMap (allResources ++ [rm])

/-- Go `containerRequests(pod, samegpuContainerNames)`. -/
def containerRequests (gpuPrefix : GoString) (pod : Pod) (samegpuContainerNames : GoMap Bool) :
    IndexMap × List ResourceMap :=
  containersLoop gpuPrefix samegpuContainerNames pod.containers 0 [] []

/-- A sample pod with three containers, used as a concrete input. -/
def samplePod : Pod :=
  { deletionTimestamp := none
    phase := podRunning
    containers :=
      [{ name := goStr "a", requests := [(goStr "gpu.intel.com/i915", ⟨(1, true)⟩)] },
       { name := goStr "b", requests := [(goStr "cpu", ⟨(2, true)⟩)] },
       { name := goStr "c", requests := [] }] }

/-! ## Node labels, `concatenateSplitLabel`, `getPCIGroup`, `addPCIGroupGPUs` -/

/-- The constant `pciGroupLabel`. -/
def pciGroupLabel : GoString := goStr "gpu.intel.com/pci-groups"

/-- The read `node.Labels[name]` of a label map: the empty string when the
label is absent. -/
def labelValue (labels : GoMap GoString) (name : GoString) : GoString :=
  (mapGet labels name).getD []

/-- The loop of `concatenateSplitLabel`: `postFix` is the running number and
`value` the text gathered so far (`strconv.Itoa` of a positive number is its
decimal rendering). The loop of the source has no bound; `fuel` bounds the
number of iterations here, and `none` means the bound was reached. -/
def splitLabelLoop (labels : GoMap GoString) (labelName : GoString) :
    Nat → Nat → GoString → Option GoString
  | 0, _, _ => none
  | fuel + 1, postFix, value =>
    match mapGet labels (labelName ++ renderNat postFix) with
    | some continuingLabelValue =>
      splitLabelLoop labels labelName fuel (postFix + 1) (value ++ continuingLabelValue)
    | none => some value

/-- Go `concatenateSplitLabel(node, labelName)`, the node being given by its
labels. The loop gets one more iteration than the node has labels, which is
enough for it to end by itself (`concatenateSplitLabel_returns`). -/
def concatenateSplitLabel (labels : GoMap GoString) (labelName : GoString) : Option GoString :=
  splitLabelLoop labels labelName (labels.length + 1) 2 (labelValue labels labelName)

/-- The inner loop of `getPCIGroup`: whether some `gpuNum` of the group has
`"card"+gpuNum == gpuName`. -/
def groupHasGPU : List GoString → GoString → Bool
  | [], _ => false
  | gpuNum :: rest, gpuName =>
    if goStr "card" ++ gpuNum = gpuName then true else groupHasGPU rest gpuName

/-- The outer loop of `getPCIGroup` over the groups: the members of the first
group in which the inner loop finds the GPU; the empty slice when the loop
ends. -/
def groupsLoop : List GoString → GoString → List GoString
  | [], _ => []
  | group :: rest, gpuName =>
    if groupHasGPU (split (byte '.') group) gpuName then split (byte '.') group
    else groupsLoop rest gpuName

/-- Go `getPCIGroup(node, gpuName)`; `none` only if the loop bound of
`concatenateSplitLabel` was reached. -/
def getPCIGroup (labels : GoMap GoString) (gpuName : GoString) : Option (List GoString) :=
  match concatenateSplitLabel labels pciGroupLabel with
  | none => none
  | some pciGroups =>
    if pciGroups ≠ [] then some (groupsLoop (split (byte '_') pciGroups) gpuName)
    else some []

/-- Go `containsString`. -/
def containsString : List GoString → GoString → Bool
  | [], _ => false
  | v :: rest, value => if v = value then true else containsString rest value

/-- The loop of `addPCIGroupGPUs` over the members of the group. -/
def addGroupLoop : List GoString → List GoString → List GoString
  | [], cards => cards
  | gpuNum :: rest, cards =>
    if containsString cards (goStr "card" ++ gpuNum) then addGroupLoop rest cards
    else addGroupLoop rest (cards ++ [goStr "card" ++ gpuNum])

/-- Go `addPCIGroupGPUs(node, card, cards)`. -/
def addPCIGroupGPUs (labels : GoMap GoString) (card : GoString) (cards : List GoString) :
    Option (List GoString) :=
  match getPCIGroup labels card with
  | none => none
  | some pciGroupGPUNums => some (addGroupLoop pciGroupGPUNums cards)

/-! ## Vocabulary for the statements about PCI groups -/

/-- The groups of a label value: the `_`-separated parts, each split at the
dots into its members. -/
def pciGroupsOf (value : GoString) : List (List GoString) :=
  (split (byte '_') value).map (split (byte '.'))

/-- The group has a member `n` with `"card" + n = gpuName`. -/
def hasMember (gpuName : GoString) (group : List GoString) : Bool :=
  group.any (fun n => decide (goStr "card" ++ n = gpuName))

/-- The strings of a list, each once, in the order of their first occurrence. -/
def distinctInOrder : List GoString → List GoString
  | [] => []
  | x :: xs => x :: (distinctInOrder xs).filter (fun y => decide (y ≠ x))

/-- A sample node: the group label, its continuation `2`, and a continuation
`4` that is not reached because `3` is missing. -/
def sampleNodeLabels : GoMap GoString :=
  [(goStr "gpu.intel.com/pci-groups", goStr "0.1_"),
   (goStr "gpu.intel.com/pci-groups2", goStr "2.3"),
   (goStr "gpu.intel.com/pci-groups4", goStr "_4.5")]

/-! ## Vocabulary for the statements about tile labels -/

/-- The number written by a run of decimal digits. -/
def decimalValue (digits : GoString) : Nat :=
  digits.foldl (fun n b => n * 10 + (b.toNat - 48)) 0

/-- The largest `int` of a 64-bit platform. -/
def maxInt : Nat := 2 ^ 63 - 1

/-- The label starts with the namespace prefix and splits on `/` into exactly
`maxLabelParts` segments. -/
def InNamespace (c : LabelConsts) (label : GoString) : Prop :=
  hasPrefix label c.tasNSPrefix = true ∧ (split (byte '/') label).length = maxLabelParts

/-- The text is `card<D1>_gt<D2>` for non-empty runs of digits `D1` and `D2`;
`card` is `card<D1>` and `tile` is the number `D2`, or `maxInt` when `D2` is
larger than that. -/
def CardTileText (text card : GoString) (tile : Int) : Prop :=
  ∃ digits1 digits2 : GoString,
    IsDecimal digits1 ∧ IsDecimal digits2 ∧
    text = goStr "card" ++ digits1 ++ goStr "_gt" ++ digits2 ∧
    card = goStr "card" ++ digits1 ∧
    tile = ((min (decimalValue digits2) maxInt : Nat) : Int)

/-- The label is a tile-disable label for `card` with the tile `tile`: a label
of the namespace whose name is the tile-disable sub-prefix followed by
`card<D1>_gt<D2>`. -/
def DisableEntry (c : LabelConsts) (card label : GoString) (tile : Int) : Prop :=
  InNamespace c label ∧
  ∃ text, labelName label = c.tileDisableLabelPrefix ++ text ∧ CardTileText text card tile

/-- The label is a tile-deschedule label for `card` with the tile `tile`: a
label of the namespace whose name is not recognized as a tile-disable name and
is the tile-deschedule sub-prefix followed by `card<D1>_gt<D2>`. -/
def DeschedEntry (c : LabelConsts) (card label : GoString) (tile : Int) : Prop :=
  InNamespace c label ∧
  hasPrefix (labelName label) c.tileDisableLabelPrefix = false ∧
  ∃ text, labelName label = c.tileDeschedLabelPrefix ++ text ∧ CardTileText text card tile

/-- The entry that the loop body of `createTileMapping` appends to the disabled
mapping for a label, if any (used to state the loop in closed form). -/
def disabledEntry (c : LabelConsts) (label : GoString) : Option (GoString × Int) :=
  if hasPrefix label c.tasNSPrefix = true ∧ (split (byte '/') label).length = maxLabelParts ∧
      hasPrefix (labelName label) c.tileDisableLabelPrefix = true
  then extractCardAndTile (trimPrefix (labelName label) c.tileDisableLabelPrefix)
  else none

/-- The entry that the loop body appends to the descheduled mapping, if any. -/
def deschedEntry (c : LabelConsts) (label : GoString) : Option (GoString × Int) :=
  if hasPrefix label c.tasNSPrefix = true ∧ (split (byte '/') label).length = maxLabelParts ∧
      hasPrefix (labelName label) c.tileDisableLabelPrefix = false ∧
      hasPrefix (labelName label) c.tileDeschedLabelPrefix = true
  then extractCardAndTile (trimPrefix (labelName label) c.tileDeschedLabelPrefix)
  else none

/-- The entry that the loop body appends to the preferred mapping, if any. -/
def preferredEntry (c : LabelConsts) (label value : GoString) : Option (GoString × Int) :=
  if hasPrefix label c.tasNSPrefix = true ∧ (split (byte '/') label).length = maxLabelParts ∧
      hasPrefix (labelName label) c.tileDisableLabelPrefix = false ∧
      hasPrefix (labelName label) c.tileDeschedLabelPrefix = false ∧
      hasPrefix (labelName label) c.tilePrefLabelPrefix = true
  then extractCardAndTile
    (trimPrefix (labelName label) c.tilePrefLabelPrefix ++ goStr "_" ++ value)
  else none

/-- A mapping with an optional entry appended. -/
def addEntry (m : TilesMap) : Option (GoString × Int) → TilesMap
  | none => m
  | some (card, tile) => appendTile m card tile

/-- The tiles that an optional entry brings to `card`. -/
def entryTiles (card : GoString) : Option (GoString × Int) → List Int
  | none => []
  | some (card1, tile) => if card1 = card then [tile] else []

/-- A sample label map with two tile-disable labels and one tile-deschedule
label for `card0`, and a tile-disable label for `card1`. -/
def sampleTileLabels : GoMap GoString :=
  [(goStr "telemetry.aware.scheduling.policy/tile-disable-card0_gt3", goStr "true"),
   (goStr "telemetry.aware.scheduling.policy/tile-deschedule-card0_gt2", goStr "true"),
   (goStr "telemetry.aware.scheduling.policy/tile-disable-card1_gt0", goStr "true"),
   (goStr "telemetry.aware.scheduling.other/tile-disable-card0_gt1", goStr "true")]

/-- A sample label map with a tile index above the largest `int`. -/
def sampleHugeTileLabels : GoMap GoString :=
  [(goStr "telemetry.aware.scheduling.policy/tile-disable-card0_gt9223372036854775808",
    goStr "true")]

/-- A sample label map with a preference whose tile index is above the largest
`int`. -/
def sampleHugePreferenceLabels : GoMap GoString :=
  [(goStr "telemetry.aware.scheduling.policy/tile-preference-card0",
    goStr "gt9223372036854775808")]

/-- The label is recognized as a tile-preference label: a label of the
namespace whose name is not recognized as a tile-disable or tile-deschedule name
and has the tile-preference sub-prefix. -/
def PreferenceLabel (c : LabelConsts) (label : GoString) : Prop :=
  (hasPrefix label c.tasNSPrefix = true ∧ (split (byte '/') label).length = maxLabelParts) ∧
  hasPrefix (labelName label) c.tileDisableLabelPrefix = false ∧
  hasPrefix (labelName label) c.tileDeschedLabelPrefix = false ∧
  hasPrefix (labelName label) c.tilePrefLabelPrefix = true

instance (c : LabelConsts) (label : GoString) : Decidable (PreferenceLabel c label) := by
  unfold PreferenceLabel
  infer_instance

/-- The label, with its value, is a tile-preference label for `card` with the
tile `tile`: it is recognized as a tile-preference label, its name is the
sub-prefix followed by `r`, `r + "_" + value` matches the regular expression,
`card` is `r`, and `tile` is the number written by the digits of the value (which
is `gt` and digits), or `maxInt` when that number is larger. -/
def PreferenceEntry (c : LabelConsts) (card label value : GoString) (tile : Int) : Prop :=
  PreferenceLabel c label ∧
  ∃ r digits : GoString,
    labelName label = c.tilePrefLabelPrefix ++ r ∧
    MatchesCardTile (r ++ goStr "_" ++ value) ∧ card = r ∧
    IsDecimal digits ∧ value = goStr "gt" ++ digits ∧
    tile = ((min (decimalValue digits) maxInt : Nat) : Int)

/-- A sample label map with two preference labels for `card1` (under two
namespace suffixes), one for `card0`, a preference label whose value is not a
tile, and a tile-disable label. -/
def samplePreferenceLabels : GoMap GoString :=
  [(goStr "telemetry.aware.scheduling.policy/tile-preference-card1", goStr "gt2"),
   (goStr "telemetry.aware.scheduling.policy/tile-preference-card0", goStr "gt1"),
   (goStr "telemetry.aware.scheduling.policy/tile-disable-card1_gt0", goStr "true"),
   (goStr "telemetry.aware.scheduling.other/tile-preference-card1", goStr "gt3"),
   (goStr "telemetry.aware.scheduling.policy/tile-preference-card2", goStr "tile3")]

/-! # Lemmas -/

/-! ## Lemmas on `containsInt` and the reorder loop -/

theorem containsIntFrom_eq (s : List Int) (v : Int) (i : Int) :
    containsIntFrom i s v =
      if v ∈ s then (true, i + (s.indexOf v : Int)) else (false, -1) := by
  induction s generalizing i with
  | nil => simp [containsIntFrom]
  | cons x xs ih =>
    by_cases hx : x = v
    · subst hx
      simp [containsIntFrom, List.indexOf_cons_self]
    · have hx2 : ¬ v = x := fun h => hx h.symm
      rw [containsIntFrom, if_neg hx, ih, List.indexOf_cons_ne _ hx]
      by_cases hm : v ∈ xs
      · simp only [hm, List.mem_cons, or_true, if_true]
        congr 1
        push_cast
        ring
      · simp [hm, hx2]

theorem containsInt_eq (s : List Int) (v : Int) :
    containsInt s v = if v ∈ s then (true, (s.indexOf v : Int)) else (false, -1) := by
  simp [containsInt, containsIntFrom_eq]

theorem reorderLoop_cons_mem (pref : Int) (rest tiles : List Int) (n : Nat)
    (hm : pref ∈ tiles) :
    reorderLoop (pref :: rest) tiles n =
      if n < tiles.indexOf pref
      then reorderLoop rest (exchanged tiles n (tiles.indexOf pref) pref) (n + 1 : Nat)
      else reorderLoop rest tiles (n + 1 : Nat) := by
  have hj : tiles.indexOf pref < tiles.length := List.indexOf_lt_length.2 hm
  rw [reorderLoop, containsInt_eq, if_pos hm]
  by_cases hlt : n < tiles.indexOf pref
  · have hn : n < tiles.length := lt_trans hlt hj
    have h1 : ((tiles.indexOf pref : Nat) : Int) > (n : Int) := by exact_mod_cast hlt
    simp only [h1, if_true, hlt]
    have hr : indexRead tiles (n : Int) = some (tiles.getD n 0) := by
      simp [indexRead, List.getD_eq_getElem?_getD, List.getElem?_eq_getElem hn]
    have hw1 : indexWrite tiles (n : Int) pref = some (tiles.set n pref) := by
      simp [indexWrite, hn]
    have hw2 : indexWrite (tiles.set n pref) ((tiles.indexOf pref : Nat) : Int)
        (tiles.getD n 0) = some (exchanged tiles n (tiles.indexOf pref) pref) := by
      simp [indexWrite, hj, exchanged]
    rw [hr]
    simp only [hw1, hw2]
    push_cast
    rfl
  · have h1 : ¬ ((tiles.indexOf pref : Nat) : Int) > (n : Int) := by
      intro h
      exact hlt (by exact_mod_cast h)
    simp only [h1, if_false, hlt]
    push_cast
    rfl

theorem reorderLoop_cons_not_mem (pref : Int) (rest tiles : List Int) (i : Int)
    (hm : pref ∉ tiles) :
    reorderLoop (pref :: rest) tiles i = reorderLoop rest tiles i := by
  rw [reorderLoop, containsInt_eq, if_neg hm]

theorem cons_set_perm (a p : Int) :
    ∀ (t : List Int) (j : Nat), t[j]? = some p → (p :: t.set j a).Perm (a :: t)
  | [], j, h => by simp at h
  | x :: t, 0, h => by
    simp at h
    subst h
    simpa using List.Perm.swap a x t
  | x :: t, j + 1, h => by
    simp at h
    have ih := cons_set_perm a p t j h
    simp only [List.set_cons_succ]
    exact ((List.Perm.swap x p _).trans (ih.cons x)).trans (List.Perm.swap a x t)

theorem exchanged_perm :
    ∀ (tiles : List Int) (n j : Nat) (p : Int), n < j → tiles[j]? = some p →
      (exchanged tiles n j p).Perm tiles
  | [], n, j, p, _, h => by simp at h
  | x :: t, 0, 0, p, hlt, _ => by omega
  | x :: t, 0, j + 1, p, _, h => by
    simp at h
    simpa [exchanged] using cons_set_perm x p t j h
  | x :: t, n + 1, 0, p, hlt, _ => by omega
  | x :: t, n + 1, j + 1, p, hlt, h => by
    simp at h
    have ih := exchanged_perm t n j p (by omega) h
    simpa [exchanged] using ih

theorem exchanged_take :
    ∀ (tiles : List Int) (n j : Nat) (p : Int), n < j → j < tiles.length →
      (exchanged tiles n j p).take (n + 1) = tiles.take n ++ [p]
  | [], n, j, p, _, h => by simp at h
  | x :: t, 0, 0, p, hlt, _ => by omega
  | x :: t, 0, j + 1, p, _, _ => by simp [exchanged]
  | x :: t, n + 1, 0, p, hlt, _ => by omega
  | x :: t, n + 1, j + 1, p, hlt, h => by
    have ih := exchanged_take t n j p (by omega) (by simpa using h)
    simpa [exchanged] using ih

theorem not_mem_take_le_indexOf (tiles : List Int) (n : Nat) (p : Int)
    (hm : p ∈ tiles) (h : p ∉ tiles.take n) : n ≤ tiles.indexOf p := by
  by_contra hlt
  push_neg at hlt
  have hj : tiles.indexOf p < tiles.length := List.indexOf_lt_length.2 hm
  apply h
  rw [List.mem_iff_getElem]
  refine ⟨tiles.indexOf p, by simp [List.length_take]; omega, ?_⟩
  rw [List.getElem_take]
  exact List.getElem_indexOf hj

/-- One iteration on a value present in the slice: the slice that the loop
continues with is a permutation of `tiles`, and when the first occurrence of `p`
is not before the cursor `n`, position `n` now holds `p`. -/
theorem reorder_step (tiles : List Int) (n : Nat) (p : Int) (hm : p ∈ tiles)
    (rest : List Int) :
    ∃ tiles1 : List Int,
      reorderLoop (p :: rest) tiles n = reorderLoop rest tiles1 (n + 1 : Nat) ∧
      tiles1.Perm tiles ∧
      (n ≤ tiles.indexOf p → tiles1.take (n + 1) = tiles.take n ++ [p]) := by
  have hj : tiles.indexOf p < tiles.length := List.indexOf_lt_length.2 hm
  have hget : tiles[tiles.indexOf p]? = some p := by
    rw [List.getElem?_eq_getElem hj, List.getElem_indexOf hj]
  by_cases hlt : n < tiles.indexOf p
  · refine ⟨exchanged tiles n (tiles.indexOf p) p, ?_, ?_, ?_⟩
    · rw [reorderLoop_cons_mem _ _ _ _ hm, if_pos hlt]
    · exact exchanged_perm tiles n _ p hlt hget
    · intro _
      exact exchanged_take tiles n _ p hlt hj
  · refine ⟨tiles, ?_, List.Perm.refl _, ?_⟩
    · rw [reorderLoop_cons_mem _ _ _ _ hm, if_neg hlt]
    · intro hle
      have hnj : n = tiles.indexOf p := by omega
      rw [List.take_succ, hnj, hget]
      rfl

/-- The loop never panics and returns a permutation of the slice it got. -/
theorem reorderLoop_perm :
    ∀ (preferred tiles : List Int) (n : Nat),
      ∃ r, reorderLoop preferred tiles n = some r ∧ r.Perm tiles
  | [], tiles, n => ⟨tiles, rfl, List.Perm.refl _⟩
  | p :: rest, tiles, n => by
    by_cases hm : p ∈ tiles
    · obtain ⟨tiles1, heq, hperm, _⟩ := reorder_step tiles n p hm rest
      obtain ⟨r, hr, hrp⟩ := reorderLoop_perm rest tiles1 (n + 1)
      exact ⟨r, by rw [heq, hr], hrp.trans hperm⟩
    · rw [reorderLoop_cons_not_mem _ _ _ _ hm]
      exact reorderLoop_perm rest tiles n

/-- Invariant of the loop when the preferred values that are available have no
repeats: the first `n` positions are final, and the available preferred values
are laid down after them in their order. -/
theorem reorderLoop_front :
    ∀ (preferred tiles : List Int) (n : Nat),
      (preferred.filter (fun p => p ∈ tiles)).Nodup →
      (∀ p ∈ preferred, p ∈ tiles → p ∉ tiles.take n) →
      ∃ r, reorderLoop preferred tiles n = some r ∧
        r.take (n + (preferred.filter (fun p => p ∈ tiles)).length) =
          tiles.take n ++ preferred.filter (fun p => p ∈ tiles)
  | [], tiles, n, _, _ => ⟨tiles, rfl, by simp⟩
  | p :: rest, tiles, n, hnd, hfresh => by
    by_cases hm : p ∈ tiles
    · obtain ⟨tiles1, heq, hperm, htake⟩ := reorder_step tiles n p hm rest
      have hfilter : rest.filter (fun q => q ∈ tiles1) = rest.filter (fun q => q ∈ tiles) := by
        apply List.filter_congr
        intro q _
        simp [hperm.mem_iff]
      have hnd0 : (p :: rest.filter (fun q => q ∈ tiles)).Nodup := by
        simpa [List.filter_cons, hm] using hnd
      have hle : n ≤ tiles.indexOf p :=
        not_mem_take_le_indexOf tiles n p hm (hfresh p (List.mem_cons_self _ _) hm)
      have htk := htake hle
      have hfresh1 : ∀ q ∈ rest, q ∈ tiles1 → q ∉ tiles1.take (n + 1) := by
        intro q hq hq1
        have hqt : q ∈ tiles := hperm.mem_iff.1 hq1
        rw [htk]
        intro hmem
        rcases List.mem_append.1 hmem with h | h
        · exact hfresh q (List.mem_cons_of_mem _ hq) hqt h
        · have hqp : q = p := by simpa using h
          subst hqp
          exact (List.nodup_cons.1 hnd0).1 (List.mem_filter.2 ⟨hq, by simpa using hqt⟩)
      obtain ⟨r, hr, hrt⟩ := reorderLoop_front rest tiles1 (n + 1)
        (by rw [hfilter]; exact (List.nodup_cons.1 hnd0).2) hfresh1
      refine ⟨r, by rw [heq, hr], ?_⟩
      rw [hfilter, htk] at hrt
      have hfc : (p :: rest).filter (fun q => q ∈ tiles) =
          p :: rest.filter (fun q => q ∈ tiles) := by
        simp [List.filter_cons, hm]
      rw [hfc, List.length_cons]
      have harith : n + ((rest.filter (fun q => q ∈ tiles)).length + 1) =
          n + 1 + (rest.filter (fun q => q ∈ tiles)).length := by omega
      rw [harith, hrt]
      simp
    · have hfc : (p :: rest).filter (fun q => q ∈ tiles) =
          rest.filter (fun q => q ∈ tiles) := by
        simp [List.filter_cons, hm]
      rw [reorderLoop_cons_not_mem _ _ _ _ hm, hfc]
      rw [hfc] at hnd
      exact reorderLoop_front rest tiles n hnd
        (fun q hq => hfresh q (List.mem_cons_of_mem _ hq))

theorem reorderLoop_none_available :
    ∀ (preferred tiles : List Int) (i : Int), (∀ p ∈ preferred, p ∉ tiles) →
      reorderLoop preferred tiles i = some tiles
  | [], _, _, _ => rfl
  | p :: rest, tiles, i, h => by
    rw [reorderLoop_cons_not_mem _ _ _ _ (h p (List.mem_cons_self _ _))]
    exact reorderLoop_none_available rest tiles i
      (fun q hq => h q (List.mem_cons_of_mem _ hq))

/-! ## Lemmas on maps, `combineMappings` and `sanitizeTiles` -/

theorem mapGet_mapSet {V : Type} (m : GoMap V) (k : GoString) (v : V) (k1 : GoString) :
    mapGet (mapSet m k v) k1 = if k = k1 then some v else mapGet m k1 := by
  induction m with
  | nil => simp [mapSet, mapGet]
  | cons e rest ih =>
    obtain ⟨k0, v0⟩ := e
    by_cases h0 : k0 = k
    · subst h0
      by_cases h1 : k0 = k1 <;> simp [mapSet, mapGet, h1]
    · by_cases h1 : k0 = k1
      · subst h1
        have hk : ¬ k = k0 := fun h => h0 h.symm
        simp [mapSet, mapGet, h0, hk]
      · simp [mapSet, mapGet, h0, h1, ih]

theorem mapGet_eq_none_iff {V : Type} (m : GoMap V) (k : GoString) :
    mapGet m k = none ↔ k ∉ mapKeys m := by
  induction m with
  | nil => simp [mapGet, mapKeys]
  | cons e rest ih =>
    obtain ⟨k0, v0⟩ := e
    by_cases h0 : k0 = k
    · subst h0
      simp [mapGet, mapKeys]
    · have hk : ¬ k = k0 := fun h => h0 h.symm
      simp only [mapKeys] at ih
      simp [mapGet, mapKeys, h0, hk, ih]

theorem mem_mapKeys_iff {V : Type} (m : GoMap V) (k : GoString) :
    k ∈ mapKeys m ↔ ∃ v, mapGet m k = some v := by
  rw [← not_iff_not, ← mapGet_eq_none_iff]
  cases h : mapGet m k <;> simp

theorem mem_mapKeys_mapSet {V : Type} (m : GoMap V) (k : GoString) (v : V) (k1 : GoString) :
    k1 ∈ mapKeys (mapSet m k v) ↔ k1 = k ∨ k1 ∈ mapKeys m := by
  rw [mem_mapKeys_iff, mem_mapKeys_iff, mapGet_mapSet]
  by_cases h : k = k1
  · subst h
    simp
  · have hk : ¬ k1 = k := fun h1 => h h1.symm
    simp [h, hk]

theorem wellFormed_mapSet {V : Type} (m : GoMap V) (k : GoString) (v : V)
    (h : WellFormed m) : WellFormed (mapSet m k v) := by
  induction m with
  | nil => simp [mapSet, WellFormed]
  | cons e rest ih =>
    obtain ⟨k0, v0⟩ := e
    have hcons : k0 ∉ mapKeys rest ∧ WellFormed rest := by
      simpa [WellFormed, mapKeys] using h
    by_cases h0 : k0 = k
    · subst h0
      simpa [mapSet, WellFormed] using h
    · have hnot : k0 ∉ mapKeys (mapSet rest k v) := by
        rw [mem_mapKeys_mapSet]
        exact fun hor => hor.elim h0 hcons.1
      have ih1 := ih hcons.2
      simp only [WellFormed, mapKeys] at ih1 hnot
      simp [mapSet, h0, WellFormed, ih1, hnot]

theorem tilesOf_mapSet (m : TilesMap) (k : GoString) (v : List Int) (k1 : GoString) :
    tilesOf (mapSet m k v) k1 = if k = k1 then v else tilesOf m k1 := by
  unfold tilesOf
  rw [mapGet_mapSet]
  by_cases h : k = k1 <;> simp [h]

/-- What a key of the destination holds after the loop of `combineMappings`. -/
theorem mapGet_combineLoop :
    ∀ (source : TilesMap) (dest : TilesMap) (k : GoString), WellFormed source →
      mapGet (combineLoop source dest) k =
        match mapGet source k with
        | some tiles => some (tilesOf dest k ++ tiles)
        | none => mapGet dest k
  | [], dest, k, _ => by simp [combineLoop, mapGet]
  | (card, tiles) :: rest, dest, k, h => by
    have hcons : card ∉ mapKeys rest ∧ WellFormed rest := by
      simpa [WellFormed, mapKeys] using h
    rw [combineLoop, mapGet_combineLoop rest _ k hcons.2]
    by_cases hk : card = k
    · subst hk
      have hnone : mapGet rest card = none := (mapGet_eq_none_iff _ _).2 hcons.1
      simp [hnone, mapGet, mapGet_mapSet]
    · simp [mapGet, hk, mapGet_mapSet, tilesOf_mapSet]

theorem sanitizeInner_eq (tilesPerGpu : Int) :
    ∀ (tiles stiles : List Int),
      sanitizeInner tilesPerGpu tiles stiles =
        stiles ++ tiles.filter (fun tile => tile < tilesPerGpu)
  | [], stiles => by simp [sanitizeInner]
  | tile :: rest, stiles => by
    by_cases h : tile < tilesPerGpu
    · simp [sanitizeInner, h, sanitizeInner_eq tilesPerGpu rest]
    · simp [sanitizeInner, h, sanitizeInner_eq tilesPerGpu rest]

/-- What a key holds after the outer loop of `sanitizeTiles`. -/
theorem mapGet_sanitizeLoop (tilesPerGpu : Int) :
    ∀ (entries : TilesMap) (sanitized : TilesMap) (k : GoString), WellFormed entries →
      mapGet (sanitizeLoop tilesPerGpu entries sanitized) k =
        match mapGet entries k with
        | some tiles => some (tiles.filter (fun tile => tile < tilesPerGpu))
        | none => mapGet sanitized k
  | [], sanitized, k, _ => by simp [sanitizeLoop, mapGet]
  | (card, tiles) :: rest, sanitized, k, h => by
    have hcons : card ∉ mapKeys rest ∧ WellFormed rest := by
      simpa [WellFormed, mapKeys] using h
    rw [sanitizeLoop, mapGet_sanitizeLoop tilesPerGpu rest _ k hcons.2]
    by_cases hk : card = k
    · subst hk
      have hnone : mapGet rest card = none := (mapGet_eq_none_iff _ _).2 hcons.1
      simp [hnone, mapGet, mapGet_mapSet, sanitizeInner_eq]
    · simp [mapGet, hk, mapGet_mapSet]

/-! ## Lemmas on slices, their storage and `combineMappings` -/

theorem getElem?_cells (a : List Int) (off len i : Nat) :
    ((a.drop off).take len)[i]? = if i < len then a[off + i]? else none := by
  rw [List.getElem?_take, List.getElem?_drop]

theorem getElem?_written (a vals : List Int) (pos j : Nat) :
    (a.take pos ++ vals ++ a.drop (pos + vals.length))[j]? =
      if j < pos ⊓ a.length then a[j]?
      else if j - pos ⊓ a.length < vals.length then vals[j - pos ⊓ a.length]?
      else a[pos + vals.length + (j - pos ⊓ a.length - vals.length)]? := by
  rw [List.append_assoc, List.getElem?_append, List.length_take]
  by_cases h1 : j < pos ⊓ a.length
  · have h2 : j < pos := lt_of_lt_of_le h1 (min_le_left _ _)
    rw [if_pos h1, if_pos h1, List.getElem?_take, if_pos h2]
  · rw [if_neg h1, if_neg h1, List.getElem?_append, List.getElem?_drop]

theorem cells_written_apart (a vals : List Int) (pos off len : Nat)
    (hfit : pos + vals.length ≤ a.length)
    (h : off + len ≤ pos ∨ pos + vals.length ≤ off ∨ len = 0) :
    ((a.take pos ++ vals ++ a.drop (pos + vals.length)).drop off).take len =
      (a.drop off).take len := by
  apply List.ext_getElem?
  intro i
  rw [getElem?_cells, getElem?_cells]
  by_cases hi : i < len
  · rw [if_pos hi, if_pos hi, getElem?_written]
    have hmin : pos ⊓ a.length = pos := min_eq_left (by omega)
    rw [hmin]
    rcases h with h | h | h
    · rw [if_pos (by omega)]
    · rw [if_neg (by omega), if_neg (by omega)]
      congr 1
      omega
    · omega
  · rw [if_neg hi, if_neg hi]

theorem cells_written_extend (a vals : List Int) (off len : Nat)
    (hfit : off + len + vals.length ≤ a.length) :
    ((a.take (off + len) ++ vals ++ a.drop (off + len + vals.length)).drop off).take
        (len + vals.length) = (a.drop off).take len ++ vals := by
  apply List.ext_getElem?
  intro i
  have hl : ((a.drop off).take len).length = len := by
    rw [List.length_take, List.length_drop]
    exact min_eq_left (by omega)
  have hmin : (off + len) ⊓ a.length = off + len := min_eq_left (by omega)
  rw [getElem?_cells, getElem?_written, List.getElem?_append, hl, getElem?_cells, hmin]
  by_cases h1 : i < len
  · rw [if_pos (by omega), if_pos (by omega), if_pos h1, if_pos h1]
  · rw [if_neg h1]
    by_cases h2 : i < len + vals.length
    · rw [if_pos h2, if_neg (by omega), if_pos (by omega)]
      congr 1
      omega
    · rw [if_neg h2]
      exact (List.getElem?_eq_none (by omega)).symm

theorem length_written (a vals : List Int) (pos : Nat) (hfit : pos + vals.length ≤ a.length) :
    (a.take pos ++ vals ++ a.drop (pos + vals.length)).length = a.length := by
  simp only [List.length_append, List.length_take, List.length_drop]
  have hmin : pos ⊓ a.length = pos := min_eq_left (by omega)
  omega

theorem lt_length_of_getD_ne_nil (h : Heap) (arr : Nat) (hne : 0 < (h.getD arr []).length) :
    arr < h.length := by
  by_contra hlt
  rw [List.getD_eq_getElem?_getD, List.getElem?_eq_none (by omega)] at hne
  simp at hne

theorem getD_writeCells_same (h : Heap) (arr pos : Nat) (vals : List Int)
    (hlt : arr < h.length) :
    (writeCells h arr pos vals).getD arr [] =
      (h.getD arr []).take pos ++ vals ++ (h.getD arr []).drop (pos + vals.length) := by
  rw [writeCells, List.getD_eq_getElem?_getD, List.getElem?_set, if_pos rfl, if_pos hlt]
  rfl

theorem getD_writeCells_other (h : Heap) (arr pos : Nat) (vals : List Int) (a : Nat)
    (hne : a ≠ arr) : (writeCells h arr pos vals).getD a [] = h.getD a [] := by
  rw [writeCells, List.getD_eq_getElem?_getD, List.getElem?_set, if_neg (fun e => hne e.symm),
    List.getD_eq_getElem?_getD]

theorem getD_append_of_lt (h : Heap) (x : List Int) (a : Nat) (hlt : a < h.length) :
    (h ++ [x]).getD a [] = h.getD a [] := by
  rw [List.getD_eq_getElem?_getD, List.getD_eq_getElem?_getD, List.getElem?_append_left hlt]

theorem getD_append_length (h : Heap) (x : List Int) : (h ++ [x]).getD h.length [] = x := by
  rw [List.getD_eq_getElem?_getD, List.getElem?_append_right (le_refl _)]
  simp

theorem sliceContent_length (h : Heap) (s : Slice) (hv : ValidSlice h s) :
    (sliceContent h s).length = s.len := by
  obtain ⟨h1, h2⟩ := hv
  rw [sliceContent, List.length_take, List.length_drop]
  exact min_eq_left (by omega)

theorem sliceContent_eq_of_getD (h1 h : Heap) (s : Slice)
    (e : h1.getD s.arr [] = h.getD s.arr []) : sliceContent h1 s = sliceContent h s := by
  unfold sliceContent
  rw [e]

theorem sliceContent_of_len_zero (h : Heap) (s : Slice) (h0 : s.len = 0) :
    sliceContent h s = [] := by
  rw [sliceContent, h0, List.take_zero]

theorem sliceContent_nilSlice (h : Heap) : sliceContent h nilSlice = [] :=
  sliceContent_of_len_zero h nilSlice rfl

theorem validSlice_nilSlice (h : Heap) : ValidSlice h nilSlice :=
  ⟨Nat.le_refl _, Nat.zero_le _⟩

/-- A slice that lies in its array keeps its elements, and still lies in its
array, when new arrays are allocated. -/
theorem sliceContent_append (h ext : Heap) (s : Slice) (hv : ValidSlice h s) :
    sliceContent (h ++ ext) s = sliceContent h s ∧ ValidSlice (h ++ ext) s := by
  by_cases hlt : s.arr < h.length
  · have hg : (h ++ ext).getD s.arr [] = h.getD s.arr [] := by
      rw [List.getD_eq_getElem?_getD, List.getD_eq_getElem?_getD,
        List.getElem?_append_left hlt]
    exact ⟨sliceContent_eq_of_getD _ _ _ hg, by rw [ValidSlice, hg]; exact hv⟩
  · obtain ⟨h1, h2⟩ := hv
    have h0 : (h.getD s.arr []).length = 0 := by
      rw [List.getD_eq_getElem?_getD, List.getElem?_eq_none (by omega)]
      rfl
    have hlen : s.len = 0 := by omega
    exact ⟨by rw [sliceContent_of_len_zero _ _ hlen, sliceContent_of_len_zero _ _ hlen],
      ⟨h1, by omega⟩⟩

/-- What `append(d, t...)` does to the storage: the result holds the elements of
`d` followed by those of `t`; a slice none of whose elements is a cell written
in place keeps its elements; and a later append that would not write into `d`,
and whose cells are apart from those of this one, does not write into the
result either. -/
theorem goAppend_spec (newCap : Nat → Nat → Nat) (h : Heap) (d t : Slice)
    (hd : ValidSlice h d) (ht : ValidSlice h t) :
    sliceContent (goAppend newCap h d t).1 (goAppend newCap h d t).2 =
        sliceContent h d ++ sliceContent h t ∧
      ValidSlice (goAppend newCap h d t).1 (goAppend newCap h d t).2 ∧
      (∀ s, ValidSlice h s → WriteFree d t s →
        sliceContent (goAppend newCap h d t).1 s = sliceContent h s ∧
          ValidSlice (goAppend newCap h d t).1 s) ∧
      (∀ d2 t2, ValidSlice h d2 → WriteFree d2 t2 d → WritesApart d t d2 t2 →
        WriteFree d2 t2 (goAppend newCap h d t).2) := by
  have hlt : (sliceContent h t).length = t.len := sliceContent_length h t ht
  by_cases h0 : t.len = 0
  · have hg : goAppend newCap h d t = (h, d) := by rw [goAppend, if_pos h0]
    rw [hg]
    refine ⟨?_, hd, fun s hs _ => ⟨rfl, hs⟩, fun d2 t2 _ hw _ => hw⟩
    rw [sliceContent_of_len_zero h t h0, List.append_nil]
  · by_cases hroom : d.len + t.len ≤ d.cap
    · have hg : goAppend newCap h d t =
          (writeCells h d.arr (d.off + d.len) (sliceContent h t),
            { d with len := d.len + t.len }) := by
        rw [goAppend, if_neg h0, if_pos hroom]
      rw [hg]
      dsimp only
      obtain ⟨hd1, hd2⟩ := hd
      have harr : d.arr < h.length := lt_length_of_getD_ne_nil h d.arr (by omega)
      have hsame := getD_writeCells_same h d.arr (d.off + d.len) (sliceContent h t) harr
      have hfit : d.off + d.len + (sliceContent h t).length ≤ (h.getD d.arr []).length := by
        omega
      have hlw := length_written (h.getD d.arr []) (sliceContent h t) (d.off + d.len) hfit
      refine ⟨?_, ?_, ?_, ?_⟩
      · show ((List.getD _ d.arr []).drop d.off).take (d.len + t.len) = _
        rw [hsame, ← hlt, cells_written_extend _ _ _ _ hfit]
        rfl
      · show d.len + t.len ≤ d.cap ∧ d.off + d.cap ≤ (List.getD _ d.arr []).length
        rw [hsame, hlw]
        exact ⟨hroom, hd2⟩
      · intro s hs hw
        by_cases hsa : s.arr = d.arr
        · have hw1 := hw ⟨h0, hroom⟩
          obtain ⟨hs1, hs2⟩ := hs
          constructor
          · show ((List.getD _ s.arr []).drop s.off).take s.len =
              ((List.getD h s.arr []).drop s.off).take s.len
            rw [hsa, hsame]
            apply cells_written_apart _ _ _ _ _ hfit
            rcases hw1 with hw1 | hw1 | hw1 | hw1
            · exact absurd hsa hw1
            · exact Or.inl hw1
            · exact Or.inr (Or.inl (by omega))
            · exact Or.inr (Or.inr hw1)
          · rw [ValidSlice, hsa, hsame, hlw, ← hsa]
            exact ⟨hs1, hs2⟩
        · have hother := getD_writeCells_other h d.arr (d.off + d.len) (sliceContent h t)
            s.arr hsa
          exact ⟨sliceContent_eq_of_getD _ _ _ hother, by rw [ValidSlice, hother]; exact hs⟩
      · intro d2 t2 _ hw hwa hin2
        have hw1 := hw hin2
        have hw2 := hwa ⟨h0, hroom⟩ hin2
        obtain ⟨hin21, hin22⟩ := hin2
        show d.arr ≠ d2.arr ∨ d.off + (d.len + t.len) ≤ d2.off + d2.len ∨
          d2.off + d2.len + t2.len ≤ d.off ∨ d.len + t.len = 0
        rcases hw2 with hw2 | hw2 | hw2
        · exact Or.inl hw2
        · exact Or.inr (Or.inl (by omega))
        · rcases hw1 with hw1 | hw1 | hw1 | hw1
          · exact Or.inl hw1
          · omega
          · exact Or.inr (Or.inr (Or.inl hw1))
          · exact Or.inr (Or.inr (Or.inl (by omega)))
    · have hg : goAppend newCap h d t =
          (h ++ [sliceContent h d ++ sliceContent h t ++
              List.replicate (max (newCap d.cap (d.len + t.len)) (d.len + t.len) -
                (d.len + t.len)) 0],
            { arr := h.length, off := 0, len := d.len + t.len,
              cap := max (newCap d.cap (d.len + t.len)) (d.len + t.len) }) := by
        rw [goAppend, if_neg h0, if_neg hroom]
      rw [hg]
      dsimp only
      have hld : (sliceContent h d).length = d.len := sliceContent_length h d hd
      have hcap : d.len + t.len ≤ max (newCap d.cap (d.len + t.len)) (d.len + t.len) :=
        le_max_right _ _
      refine ⟨?_, ?_, ?_, ?_⟩
      · show ((List.getD _ h.length []).drop 0).take (d.len + t.len) = _
        rw [getD_append_length, List.drop_zero, List.take_left']
        rw [List.length_append, hld, hlt]
      · show d.len + t.len ≤ _ ∧ 0 + _ ≤ (List.getD _ h.length []).length
        rw [getD_append_length]
        refine ⟨hcap, ?_⟩
        simp only [List.length_append, List.length_replicate, hld, hlt]
        omega
      · intro s hs _
        exact sliceContent_append h _ s hs
      · intro d2 t2 hd2 _ _ hin2
        obtain ⟨hin21, hin22⟩ := hin2
        obtain ⟨hv1, hv2⟩ := hd2
        have harr : d2.arr < h.length := lt_length_of_getD_ne_nil h d2.arr (by omega)
        exact Or.inl (by show h.length ≠ d2.arr; omega)

theorem writeFree_nilSlice_left (t s : Slice) : WriteFree nilSlice t s := by
  intro hin
  obtain ⟨h1, h2⟩ := hin
  simp only [nilSlice] at h2
  omega

theorem writeFree_nilSlice_right (d t : Slice) : WriteFree d t nilSlice :=
  fun _ => Or.inr (Or.inr (Or.inr rfl))

theorem writesApart_nilSlice_left (t d1 t1 : Slice) : WritesApart nilSlice t d1 t1 := by
  intro hin _
  obtain ⟨h1, h2⟩ := hin
  simp only [nilSlice] at h2
  omega

theorem mapGet_cons_self {V : Type} (k : GoString) (v : V) (rest : GoMap V) :
    mapGet ((k, v) :: rest) k = some v := by
  simp [mapGet]

theorem mapGet_cons_of_ne {V : Type} (k0 : GoString) (v : V) (rest : GoMap V) (k : GoString)
    (hne : k ≠ k0) : mapGet ((k0, v) :: rest) k = mapGet rest k := by
  have hk : ¬ k0 = k := fun e => hne e.symm
  simp [mapGet, hk]

/-- The loop of `combineMappings` on the storage, from any state: when the cells
written in place are not elements of the slices in `prot` (which include the
lists of the remaining entries), nor of other lists of `dest`, nor cells of
another append, the slices in `prot` keep their elements, and `dest` ends with
its list followed by the list of the entry under each remaining key, and with
its list unchanged under every other key. -/
theorem combineHeapLoop_spec (newCap : Nat → Nat → Nat) :
    ∀ (rest : GoMap Slice) (h : Heap) (dest : GoMap Slice) (prot : List Slice),
      WellFormed rest →
      (∀ k t, mapGet rest k = some t → t ∈ prot) →
      (∀ p ∈ prot, ValidSlice h p) →
      (∀ k d, mapGet dest k = some d → ValidSlice h d) →
      (∀ k t d, mapGet rest k = some t → mapGet dest k = some d →
        ∀ p ∈ prot, WriteFree d t p) →
      (∀ k t d k1 d1, mapGet rest k = some t → mapGet dest k = some d → k1 ≠ k →
        mapGet dest k1 = some d1 → WriteFree d t d1) →
      (∀ k t d k1 t1 d1, k ≠ k1 → mapGet rest k = some t → mapGet dest k = some d →
        mapGet rest k1 = some t1 → mapGet dest k1 = some d1 → WritesApart d t d1 t1) →
      (∀ p ∈ prot, sliceContent (combineHeapLoop newCap rest h dest).1 p = sliceContent h p) ∧
      (∀ k, (mapGet (combineHeapLoop newCap rest h dest).2 k).map
            (sliceContent (combineHeapLoop newCap rest h dest).1) =
          match mapGet rest k with
          | some t => some (tilesAt h dest k ++ sliceContent h t)
          | none => (mapGet dest k).map (sliceContent h)) := by
  intro rest
  induction rest with
  | nil =>
    intro h dest prot _ _ _ _ _ _ _
    exact ⟨fun _ _ => rfl, fun _ => rfl⟩
  | cons e rest ih =>
    obtain ⟨k0, t0⟩ := e
    intro h dest prot hwf hmem hvp hvd hpf hdf hap
    have hwf2 : k0 ∉ mapKeys rest ∧ WellFormed rest := by
      have := hwf
      simp only [WellFormed, List.map_cons, List.nodup_cons] at this
      exact this
    obtain ⟨hk0, hwf1⟩ := hwf2
    have hnone0 : mapGet rest k0 = none := (mapGet_eq_none_iff rest k0).2 hk0
    have hget0 : mapGet ((k0, t0) :: rest) k0 = some t0 := mapGet_cons_self k0 t0 rest
    have hrest : ∀ k t, mapGet rest k = some t →
        k ≠ k0 ∧ mapGet ((k0, t0) :: rest) k = some t := by
      intro k t hk
      have hne : k ≠ k0 := by
        intro e
        rw [e, hnone0] at hk
        exact Option.noConfusion hk
      exact ⟨hne, by rw [mapGet_cons_of_ne k0 t0 rest k hne]; exact hk⟩
    obtain ⟨d0, hd0def⟩ : ∃ d0, d0 = (mapGet dest k0).getD nilSlice := ⟨_, rfl⟩
    have hd0 : (mapGet dest k0 = none ∧ d0 = nilSlice) ∨ mapGet dest k0 = some d0 := by
      cases hx : mapGet dest k0 with
      | none => rw [hx] at hd0def; exact Or.inl ⟨rfl, hd0def⟩
      | some d => rw [hx] at hd0def; exact Or.inr (by rw [hd0def]; rfl)
    have hvd0 : ValidSlice h d0 := by
      rcases hd0 with ⟨_, hn⟩ | hs
      · rw [hn]; exact validSlice_nilSlice h
      · exact hvd k0 d0 hs
    have hvt0 : ValidSlice h t0 := hvp t0 (hmem k0 t0 hget0)
    have hwfp : ∀ p ∈ prot, WriteFree d0 t0 p := by
      intro p hp
      rcases hd0 with ⟨_, hn⟩ | hs
      · rw [hn]; exact writeFree_nilSlice_left t0 p
      · exact hpf k0 t0 d0 hget0 hs p hp
    have hwfd : ∀ k d, k ≠ k0 → mapGet dest k = some d → WriteFree d0 t0 d := by
      intro k d hne hk
      rcases hd0 with ⟨_, hn⟩ | hs
      · rw [hn]; exact writeFree_nilSlice_left t0 d
      · exact hdf k0 t0 d0 k d hget0 hs hne hk
    have htiles0 : tilesAt h dest k0 = sliceContent h d0 := by
      rcases hd0 with ⟨hx, hn⟩ | hs
      · rw [tilesAt, hx, hn, sliceContent_nilSlice]; rfl
      · rw [tilesAt, hs]; rfl
    have hstep : combineHeapLoop newCap ((k0, t0) :: rest) h dest =
        combineHeapLoop newCap rest (goAppend newCap h d0 t0).1
          (mapSet dest k0 (goAppend newCap h d0 t0).2) := by
      rw [hd0def]; rfl
    rw [hstep]
    obtain ⟨hc, hv1, hkeep, hnext⟩ := goAppend_spec newCap h d0 t0 hvd0 hvt0
    generalize goAppend newCap h d0 t0 = r at hc hv1 hkeep hnext ⊢
    obtain ⟨h1, d1⟩ := r
    dsimp only at hc hv1 hkeep hnext ⊢
    have hdest1 : ∀ k d, k ≠ k0 → mapGet (mapSet dest k0 d1) k = some d →
        mapGet dest k = some d := by
      intro k d hne hk
      rw [mapGet_mapSet, if_neg (fun e => hne e.symm)] at hk
      exact hk
    have hmapeq : ∀ k, k ≠ k0 →
        (mapGet (mapSet dest k0 d1) k).map (sliceContent h1) =
          (mapGet dest k).map (sliceContent h) := by
      intro k hne
      rw [mapGet_mapSet, if_neg (fun e => hne e.symm)]
      cases hdk : mapGet dest k with
      | none => rfl
      | some d =>
        show some (sliceContent h1 d) = some (sliceContent h d)
        rw [(hkeep d (hvd k d hdk) (hwfd k d hne hdk)).1]
    obtain ⟨ih1, ih2⟩ := ih h1 (mapSet dest k0 d1) prot hwf1
      (fun k t hk => hmem k t (hrest k t hk).2)
      (fun p hp => (hkeep p (hvp p hp) (hwfp p hp)).2)
      (by
        intro k d hk
        by_cases hne : k = k0
        · rw [hne, mapGet_mapSet, if_pos rfl] at hk
          cases hk
          exact hv1
        · have hk1 := hdest1 k d hne hk
          exact (hkeep d (hvd k d hk1) (hwfd k d hne hk1)).2)
      (fun k t d hk hd p hp =>
        hpf k t d (hrest k t hk).2 (hdest1 k d (hrest k t hk).1 hd) p hp)
      (by
        intro k t d k1 dd hk hd hne1 hd1
        have hkne := (hrest k t hk).1
        have hd2 := hdest1 k d hkne hd
        by_cases hk1 : k1 = k0
        · rw [hk1, mapGet_mapSet, if_pos rfl] at hd1
          cases hd1
          apply hnext d t (hvd k d hd2)
          · rcases hd0 with ⟨_, hn⟩ | hs
            · rw [hn]; exact writeFree_nilSlice_right d t
            · exact hdf k t d k0 d0 (hrest k t hk).2 hd2 (fun e => hkne e.symm) hs
          · rcases hd0 with ⟨_, hn⟩ | hs
            · rw [hn]; exact writesApart_nilSlice_left t0 d t
            · exact hap k0 t0 d0 k t d (fun e => hkne e.symm) hget0 hs (hrest k t hk).2 hd2
        · exact hdf k t d k1 dd (hrest k t hk).2 hd2 hne1 (hdest1 k1 dd hk1 hd1))
      (fun k t d k1 t1 dd hne hk hd hk1 hd1 =>
        hap k t d k1 t1 dd hne (hrest k t hk).2 (hdest1 k d (hrest k t hk).1 hd)
          (hrest k1 t1 hk1).2 (hdest1 k1 dd (hrest k1 t1 hk1).1 hd1))
    constructor
    · intro p hp
      rw [ih1 p hp]
      exact (hkeep p (hvp p hp) (hwfp p hp)).1
    · intro k
      rw [ih2 k]
      by_cases hk : k = k0
      · rw [hk, hnone0, hget0]
        dsimp only
        rw [mapGet_mapSet, if_pos rfl, htiles0]
        show some (sliceContent h1 d1) = _
        rw [hc]
      · rw [mapGet_cons_of_ne k0 t0 rest k hk]
        cases hrk : mapGet rest k with
        | none => exact hmapeq k hk
        | some t =>
          dsimp only
          have ht : sliceContent h1 t = sliceContent h t :=
            (hkeep t (hvp t (hmem k t (hrest k t hrk).2))
              (hwfp t (hmem k t (hrest k t hrk).2))).1
          have hta : tilesAt h1 (mapSet dest k0 d1) k = tilesAt h dest k := by
            rw [tilesAt, tilesAt, hmapeq k hk]
          rw [ht, hta]

theorem mem_of_mapGet {V : Type} (m : GoMap V) (k : GoString) (v : V)
    (h : mapGet m k = some v) : (k, v) ∈ m := by
  induction m with
  | nil => simp [mapGet] at h
  | cons e rest ih =>
    obtain ⟨k0, v0⟩ := e
    by_cases h0 : k0 = k
    · simp only [mapGet, h0, if_true, Option.some.injEq] at h
      rw [h0, h]
      exact List.mem_cons_self _ _
    · simp only [mapGet, h0, if_false] at h
      exact List.mem_cons_of_mem _ (ih h)

theorem mapGet_contentsOf (h : Heap) (m : GoMap Slice) (k : GoString) :
    mapGet (contentsOf h m) k = (mapGet m k).map (sliceContent h) := by
  induction m with
  | nil => rfl
  | cons e rest ih =>
    obtain ⟨k0, v0⟩ := e
    by_cases h0 : k0 = k
    · simp [contentsOf, mapGet, h0]
    · simp only [contentsOf] at ih
      simp [contentsOf, mapGet, h0, ih]

theorem tilesOf_contentsOf (h : Heap) (m : GoMap Slice) (k : GoString) :
    tilesOf (contentsOf h m) k = tilesAt h m k := by
  rw [tilesOf, tilesAt, mapGet_contentsOf]

theorem wellFormed_contentsOf (h : Heap) (m : GoMap Slice) (hm : WellFormed m) :
    WellFormed (contentsOf h m) := by
  have e : (contentsOf h m).map Prod.fst = m.map Prod.fst := by
    simp [contentsOf, List.map_map, Function.comp_def]
  rw [WellFormed, e]
  exact hm

/-- The storage after `combineMappings(source, dest)` when the appends write
into no other list: the call returns; `dest` holds, under each key of `source`,
its old list followed by the list of `source`, and under every other key its old
list; and each list of `source` has its old elements. -/
theorem combineMappings_storage (newCap : Nat → Nat → Nat) (h : Heap)
    (source dest : GoMap Slice) (hap : AppendsApart h source dest) :
    ∃ h1 dest1, combineMappings newCap h source (some dest) = some (h1, some dest1) ∧
      (∀ card, (mapGet dest1 card).map (sliceContent h1) =
        match mapGet source card with
        | some t => some (tilesAt h dest card ++ sliceContent h t)
        | none => (mapGet dest card).map (sliceContent h)) ∧
      (∀ e ∈ source, sliceContent h1 e.2 = sliceContent h e.2) := by
  obtain ⟨hwf, hvs, hvd, hrest⟩ := hap
  have hspec := combineHeapLoop_spec newCap source h dest (source.map Prod.snd) hwf
    (fun k t hk => List.mem_map.2 ⟨(k, t), mem_of_mapGet source k t hk, rfl⟩)
    (by
      intro p hp
      obtain ⟨e, he, hep⟩ := List.mem_map.1 hp
      rw [← hep]
      exact hvs e he)
    (fun k d hk => hvd (k, d) (mem_of_mapGet dest k d hk))
    (by
      intro k t d hk hd p hp
      obtain ⟨g, hg, hgp⟩ := List.mem_map.1 hp
      rw [← hgp]
      exact (hrest (k, t) (mem_of_mapGet source k t hk) (k, d) (mem_of_mapGet dest k d hd)
        rfl).1 g hg)
    (fun k t d k1 d1 hk hd hne hd1 =>
      (hrest (k, t) (mem_of_mapGet source k t hk) (k, d) (mem_of_mapGet dest k d hd)
        rfl).2.1 (k1, d1) (mem_of_mapGet dest k1 d1 hd1) hne)
    (fun k t d k1 t1 d1 hne hk hd hk1 hd1 =>
      (hrest (k, t) (mem_of_mapGet source k t hk) (k, d) (mem_of_mapGet dest k d hd)
        rfl).2.2 (k1, t1) (mem_of_mapGet source k1 t1 hk1) (k1, d1)
        (mem_of_mapGet dest k1 d1 hd1) rfl (fun e => hne e.symm))
  have hsrc : ∀ e ∈ source,
      sliceContent (combineHeapLoop newCap source h dest).1 e.2 = sliceContent h e.2 :=
    fun e he => hspec.1 e.2 (List.mem_map.2 ⟨e, he, rfl⟩)
  cases source with
  | nil => exact ⟨h, dest, rfl, fun _ => rfl, fun _ he => absurd he (List.not_mem_nil _)⟩
  | cons e rest => exact ⟨_, _, rfl, hspec.2, hsrc⟩

/-- On the contents of the lists, `combineMappings` is `combineLoop` when the
appends write into no other list: the call returns, `dest` then holds under
every key what `combineLoop` gives on the contents, and the contents of `source`
are the old ones. -/
theorem combineMappings_contents (newCap : Nat → Nat → Nat) (h : Heap)
    (source dest : GoMap Slice) (hap : AppendsApart h source dest) :
    ∃ h1 dest1, combineMappings newCap h source (some dest) = some (h1, some dest1) ∧
      (∀ card, mapGet (contentsOf h1 dest1) card =
        mapGet (combineLoop (contentsOf h source) (contentsOf h dest)) card) ∧
      contentsOf h1 source = contentsOf h source := by
  obtain ⟨h1, dest1, hrun, hdest, hsrc⟩ := combineMappings_storage newCap h source dest hap
  refine ⟨h1, dest1, hrun, ?_, ?_⟩
  · intro card
    rw [mapGet_contentsOf, hdest card,
      mapGet_combineLoop _ _ card (wellFormed_contentsOf h source hap.1), mapGet_contentsOf,
      mapGet_contentsOf, tilesOf_contentsOf]
    cases mapGet source card <;> rfl
  · exact List.map_congr_left (fun e he => by rw [hsrc e he])

/-- No two lists in one array is enough: when the lists of `source` lie in
other arrays than the lists of `dest` with room to append, and the lists of
`dest` under different keys lie in different arrays, the appends of
`combineMappings` write into no other list. -/
theorem appendsApart_of_unshared (h : Heap) (source dest : GoMap Slice)
    (hk : WellFormed source)
    (hvs : ∀ e ∈ source, ValidSlice h e.2) (hvd : ∀ f ∈ dest, ValidSlice h f.2)
    (hsd : ∀ e ∈ source, ∀ f ∈ dest, e.2.cap ≠ 0 → f.2.cap ≠ 0 → e.2.arr ≠ f.2.arr)
    (hdd : ∀ f ∈ dest, ∀ g ∈ dest, f.1 ≠ g.1 → f.2.cap ≠ 0 → g.2.cap ≠ 0 →
      f.2.arr ≠ g.2.arr) :
    AppendsApart h source dest := by
  refine ⟨hk, hvs, hvd, ?_⟩
  intro e he f hf hfe
  refine ⟨?_, ?_, ?_⟩
  · intro g hg hin
    obtain ⟨hin1, hin2⟩ := hin
    by_cases hlen : g.2.len = 0
    · exact Or.inr (Or.inr (Or.inr hlen))
    · have hvg := (hvs g hg).1
      exact Or.inl (hsd g hg f hf (by omega) (by omega))
  · intro g hg hne hin
    obtain ⟨hin1, hin2⟩ := hin
    by_cases hlen : g.2.len = 0
    · exact Or.inr (Or.inr (Or.inr hlen))
    · have hvg := (hvd g hg).1
      exact Or.inl (hdd g hg f hf (by rw [hfe]; exact hne) (by omega) (by omega))
  · intro e1 he1 f1 hf1 hfe1 hne hin hin1
    obtain ⟨ha, hb⟩ := hin
    obtain ⟨ha1, hb1⟩ := hin1
    exact Or.inl (hdd f hf f1 hf1 (by rw [hfe, hfe1]; exact fun x => hne x.symm) (by omega)
      (by omega))

theorem appendsApart_of_full (h : Heap) (source dest : GoMap Slice)
    (hk : WellFormed source)
    (hvs : ∀ e ∈ source, ValidSlice h e.2) (hvd : ∀ f ∈ dest, ValidSlice h f.2)
    (hfull : ∀ f ∈ dest, f.2.cap ≤ f.2.len) :
    AppendsApart h source dest := by
  have hno : ∀ f ∈ dest, ∀ t : Slice, ¬ InPlace f.2 t := by
    intro f hf t hin
    obtain ⟨h1, h2⟩ := hin
    have := hfull f hf
    omega
  refine ⟨hk, hvs, hvd, ?_⟩
  intro e _ f hf _
  exact ⟨fun g _ hin => absurd hin (hno f hf _), fun g _ _ hin => absurd hin (hno f hf _),
    fun e1 _ f1 _ _ _ hin => absurd hin (hno f hf _)⟩

/-- The storage made by `storeMap`: the old arrays stay, the keys are those of
the mapping, each slice lies in its array and fills it, and the contents are the
mapping. -/
theorem storeMap_spec :
    ∀ (m : TilesMap) (h : Heap),
      (∃ ext, (storeMap m h).1 = h ++ ext) ∧
      (storeMap m h).2.map Prod.fst = m.map Prod.fst ∧
      (∀ e ∈ (storeMap m h).2, ValidSlice (storeMap m h).1 e.2 ∧ e.2.cap ≤ e.2.len) ∧
      contentsOf (storeMap m h).1 (storeMap m h).2 = m := by
  intro m
  induction m with
  | nil =>
    intro h
    exact ⟨⟨[], (List.append_nil h).symm⟩, rfl, fun e he => absurd he (List.not_mem_nil _), rfl⟩
  | cons e rest ih =>
    obtain ⟨k, l⟩ := e
    intro h
    obtain ⟨⟨ext, hext⟩, hkeys, hvalid, hcont⟩ := ih (h ++ [l])
    have hv0 : ValidSlice (h ++ [l]) ⟨h.length, 0, l.length, l.length⟩ := by
      show l.length ≤ l.length ∧ 0 + l.length ≤ (List.getD (h ++ [l]) h.length []).length
      rw [getD_append_length]
      omega
    have hc0 : sliceContent (h ++ [l]) ⟨h.length, 0, l.length, l.length⟩ = l := by
      show ((List.getD (h ++ [l]) h.length []).drop 0).take l.length = l
      rw [getD_append_length, List.drop_zero, List.take_length]
    have hhead := sliceContent_append (h ++ [l]) ext _ hv0
    rw [← hext, hc0] at hhead
    refine ⟨⟨[l] ++ ext, by rw [← List.append_assoc]; exact hext⟩, ?_, ?_, ?_⟩
    · show k :: (storeMap rest (h ++ [l])).2.map Prod.fst = k :: rest.map Prod.fst
      rw [hkeys]
    · intro e he
      rcases List.mem_cons.1 he with he | he
      · rw [he]
        exact ⟨hhead.2, Nat.le_refl _⟩
      · exact hvalid e he
    · show (k, sliceContent (storeMap rest (h ++ [l])).1 _) ::
          contentsOf (storeMap rest (h ++ [l])).1 (storeMap rest (h ++ [l])).2 = (k, l) :: rest
      rw [hhead.1, hcont]

/-- Every pair of tile-state mappings has a storage on which `combineMappings`
runs as `combineLoop`: with the lists of `a` and `b` in arrays of their own, the
call returns, `dest` then holds under every key what `combineLoop a b` holds,
and `source` still holds `a`. -/
theorem combineLoop_realised (newCap : Nat → Nat → Nat) (a b : TilesMap) (ha : WellFormed a) :
    ∃ (h : Heap) (source dest : GoMap Slice),
      contentsOf h source = a ∧ contentsOf h dest = b ∧ AppendsApart h source dest ∧
      ∃ h1 dest1, combineMappings newCap h source (some dest) = some (h1, some dest1) ∧
        (∀ card, mapGet (contentsOf h1 dest1) card = mapGet (combineLoop a b) card) ∧
        contentsOf h1 source = a := by
  obtain ⟨_, hkeysa, hvalida, hconta⟩ := storeMap_spec a []
  obtain ⟨⟨ext, hext⟩, _, hvalidb, hcontb⟩ := storeMap_spec b (storeMap a []).1
  have hva : ∀ e ∈ (storeMap a []).2,
      sliceContent ((storeMap a []).1 ++ ext) e.2 = sliceContent (storeMap a []).1 e.2 ∧
        ValidSlice ((storeMap a []).1 ++ ext) e.2 :=
    fun e he => sliceContent_append _ ext e.2 (hvalida e he).1
  rw [← hext] at hva
  have hca : contentsOf (storeMap b (storeMap a []).1).1 (storeMap a []).2 = a :=
    Eq.trans (List.map_congr_left (fun e he => by rw [(hva e he).1])) hconta
  have hap : AppendsApart (storeMap b (storeMap a []).1).1 (storeMap a []).2
      (storeMap b (storeMap a []).1).2 :=
    appendsApart_of_full _ _ _ (by rw [WellFormed, hkeysa]; exact ha)
      (fun e he => (hva e he).2) (fun f hf => (hvalidb f hf).1) (fun f hf => (hvalidb f hf).2)
  obtain ⟨h1, dest1, hrun, hdest, hsrc⟩ := combineMappings_contents newCap _ _ _ hap
  rw [hca, hcontb] at hdest
  rw [hca] at hsrc
  exact ⟨_, _, _, hca, hcontb, hap, h1, dest1, hrun, hdest, hsrc⟩

/-- Commutativity in content on the storage: when neither call writes into
another list, the destination after `combineMappings(a, b)` and the destination
after `combineMappings(b, a)`, both from the heap `h`, hold under every key the
same tiles up to order, and have the same keys. -/
theorem combineMappings_comm_storage (newCap : Nat → Nat → Nat) (h : Heap)
    (a b : GoMap Slice) (hab : AppendsApart h a b) (hba : AppendsApart h b a) :
    ∃ h1 b1 h2 a1, combineMappings newCap h a (some b) = some (h1, some b1) ∧
      combineMappings newCap h b (some a) = some (h2, some a1) ∧
      ∀ card, (tilesAt h1 b1 card).Perm (tilesAt h2 a1 card) ∧
        (card ∈ mapKeys b1 ↔ card ∈ mapKeys a1) := by
  obtain ⟨h1, b1, hrun1, hd1, _⟩ := combineMappings_storage newCap h a b hab
  obtain ⟨h2, a1, hrun2, hd2, _⟩ := combineMappings_storage newCap h b a hba
  refine ⟨h1, b1, h2, a1, hrun1, hrun2, ?_⟩
  intro card
  have e1 := hd1 card
  have e2 := hd2 card
  have k1 : card ∈ mapKeys b1 ↔ mapGet b1 card ≠ none := by
    rw [Ne, mapGet_eq_none_iff, not_not]
  have k2 : card ∈ mapKeys a1 ↔ mapGet a1 card ≠ none := by
    rw [Ne, mapGet_eq_none_iff, not_not]
  rw [k1, k2, tilesAt, tilesAt, e1, e2]
  have n1 : mapGet b1 card ≠ none ↔ (mapGet b1 card).map (sliceContent h1) ≠ none := by
    cases mapGet b1 card <;> simp
  have n2 : mapGet a1 card ≠ none ↔ (mapGet a1 card).map (sliceContent h2) ≠ none := by
    cases mapGet a1 card <;> simp
  rw [n1, n2, e1, e2]
  cases hx : mapGet a card <;> cases hy : mapGet b card <;>
    simp [tilesAt, hx, hy, List.perm_append_comm]

/-! ## Lemmas on decimal digits and `strconv` -/

theorem digitByte_spec (d : Nat) (h : d < 10) :
    isDigit (digitByte d) = true ∧ (digitByte d).toNat - 48 = d := by
  interval_cases d <;> decide

theorem isDigit_of_mem_decimalDigits :
    ∀ (fuel n : Nat) (b : UInt8), b ∈ decimalDigits fuel n → isDigit b = true
  | 0, _, b, h => by simp [decimalDigits] at h
  | fuel + 1, n, b, h => by
    rw [decimalDigits] at h
    by_cases hn : n < 10
    · rw [if_pos hn] at h
      rw [List.mem_singleton.1 h]
      exact (digitByte_spec n hn).1
    · rw [if_neg hn] at h
      rcases List.mem_append.1 h with h1 | h1
      · exact isDigit_of_mem_decimalDigits fuel (n / 10) b h1
      · rw [List.mem_singleton.1 h1]
        exact (digitByte_spec (n % 10) (Nat.mod_lt _ (by decide))).1

theorem decimalDigits_ne_nil (fuel n : Nat) : decimalDigits (fuel + 1) n ≠ [] := by
  rw [decimalDigits]
  by_cases hn : n < 10 <;> simp [hn]

theorem parseUintLoop_append (maxVal : Nat) :
    ∀ (a b : GoString) (n : Nat),
      parseUintLoop maxVal (a ++ b) n =
        match parseUintLoop maxVal a n with
        | (v, none) => parseUintLoop maxVal b v
        | (v, some e) => (v, some e)
  | [], b, n => by simp [parseUintLoop]
  | c :: cs, b, n => by
    simp only [List.cons_append, parseUintLoop]
    by_cases hc : isDigit c = true
    · by_cases hr : n * 10 + (c.toNat - 48) > maxVal
      · simp [hc, hr]
      · simp only [hc, hr, if_true, if_false]
        exact parseUintLoop_append maxVal cs b _
    · simp [hc]

theorem parseUintLoop_decimalDigits (maxVal : Nat) :
    ∀ (fuel n : Nat), n < fuel → n ≤ maxVal →
      parseUintLoop maxVal (decimalDigits fuel n) 0 = (n, none)
  | 0, n, h, _ => by omega
  | fuel + 1, n, h, hmax => by
    rw [decimalDigits]
    by_cases hn : n < 10
    · have hd := digitByte_spec n hn
      have hle : ¬ n > maxVal := by omega
      simp [hn, parseUintLoop, hd.1, hd.2, hle]
    · have hd := digitByte_spec (n % 10) (Nat.mod_lt _ (by decide))
      have hdiv : n / 10 < fuel := by omega
      have hdivmax : n / 10 ≤ maxVal := by omega
      have hsum : n / 10 * 10 + n % 10 = n := by omega
      have hle : ¬ n > maxVal := by omega
      rw [if_neg hn, parseUintLoop_append,
        parseUintLoop_decimalDigits maxVal fuel (n / 10) hdiv hdivmax]
      simp [parseUintLoop, hd.1, hd.2, hsum, hle]

theorem isDigit_ne_sign (c : UInt8) (h : isDigit c = true) :
    c ≠ byte '+' ∧ c ≠ byte '-' := by
  constructor <;>
  · intro hc
    rw [hc] at h
    revert h
    decide

/-- `ParseInt` accepts the decimal rendering of any `n` below `2 ^ 15`. -/
theorem parseInt_renderNat (n : Nat) (h : n < 2 ^ 15) :
    parseInt (renderNat n) desiredIntBits = ((n : Int), none) := by
  have hloop := parseUintLoop_decimalDigits (2 ^ desiredIntBits - 1) (n + 1) n
    (Nat.lt_succ_self n) (by simp only [desiredIntBits]; omega)
  have hne := decimalDigits_ne_nil n n
  have hdig := isDigit_of_mem_decimalDigits (n + 1) n
  unfold renderNat
  cases hs : decimalDigits (n + 1) n with
  | nil => exact absurd hs hne
  | cons c cs =>
    rw [hs] at hloop hdig
    have hc := isDigit_ne_sign c (hdig c (List.mem_cons_self _ _))
    have hu : parseUint (c :: cs) desiredIntBits = (n, none) := by
      simp [parseUint, hloop]
    have hcut : ¬ n ≥ 2 ^ (desiredIntBits - 1) := by
      simp only [desiredIntBits]
      omega
    simp [parseInt, hc.1, hc.2, hu, hcut]

/-! ## Lemmas on `split` and `joinWith` -/

theorem split_ne_nil (sep : UInt8) : ∀ s : GoString, split sep s ≠ []
  | [] => by simp [split]
  | c :: cs => by
    rw [split]
    by_cases h : c = sep
    · simp [h]
    · rw [if_neg h]
      cases split sep cs <;> simp

theorem split_of_not_mem (sep : UInt8) :
    ∀ s : GoString, sep ∉ s → split sep s = [s]
  | [], _ => rfl
  | c :: cs, h => by
    have hc : ¬ c = sep := fun e => h (by simp [e])
    have hcs : sep ∉ cs := fun e => h (List.mem_cons_of_mem _ e)
    rw [split, if_neg hc, split_of_not_mem sep cs hcs]

theorem split_append_sep (sep : UInt8) :
    ∀ (a b : GoString), sep ∉ a → split sep (a ++ sep :: b) = a :: split sep b
  | [], b, _ => by simp [split]
  | c :: cs, b, h => by
    have hc : ¬ c = sep := fun e => h (by simp [e])
    have hcs : sep ∉ cs := fun e => h (List.mem_cons_of_mem _ e)
    rw [List.cons_append, split, if_neg hc, split_append_sep sep cs b hcs]

theorem split_joinWith (sep : UInt8) :
    ∀ parts : List GoString, parts ≠ [] → (∀ x ∈ parts, sep ∉ x) →
      split sep (joinWith sep parts) = parts
  | [], h, _ => absurd rfl h
  | [x], _, hx => by
    rw [joinWith]
    exact split_of_not_mem sep x (hx x (List.mem_singleton.2 rfl))
  | x :: y :: rest, _, hx => by
    rw [joinWith, split_append_sep sep x _ (hx x (List.mem_cons_self _ _)),
      split_joinWith sep (y :: rest) (by simp)
        (fun z hz => hx z (List.mem_cons_of_mem _ hz))]

theorem mem_joinWith (sep : UInt8) (b : UInt8) :
    ∀ parts : List GoString, b ∈ joinWith sep parts → b = sep ∨ ∃ x ∈ parts, b ∈ x
  | [], h => by simp [joinWith] at h
  | [x], h => by
    rw [joinWith] at h
    exact Or.inr ⟨x, List.mem_singleton.2 rfl, h⟩
  | x :: y :: rest, h => by
    rw [joinWith] at h
    rcases List.mem_append.1 h with h1 | h1
    · exact Or.inr ⟨x, List.mem_cons_self _ _, h1⟩
    · rcases List.mem_cons.1 h1 with h2 | h2
      · exact Or.inl h2
      · rcases mem_joinWith sep b (y :: rest) h2 with h3 | ⟨z, hz, hbz⟩
        · exact Or.inl h3
        · exact Or.inr ⟨z, List.mem_cons_of_mem _ hz, hbz⟩

/-! ## Lemmas on the rendered annotation and its decoding -/

theorem isDigit_of_mem_renderNat (n : Nat) (b : UInt8) (h : b ∈ renderNat n) :
    isDigit b = true :=
  isDigit_of_mem_decimalDigits (n + 1) n b h

theorem mem_renderTile (t : Nat) (b : UInt8) (h : b ∈ renderTile t) :
    b ∈ goStr "gt" ∨ isDigit b = true := by
  rcases List.mem_append.1 h with h1 | h1
  · exact Or.inl h1
  · exact Or.inr (isDigit_of_mem_renderNat t b h1)

theorem mem_tilesText (ts : List Nat) (b : UInt8)
    (h : b ∈ joinWith (byte '+') (ts.map renderTile)) :
    b = byte '+' ∨ b ∈ goStr "gt" ∨ isDigit b = true := by
  rcases mem_joinWith _ _ _ h with h1 | ⟨x, hx, hb⟩
  · exact Or.inl h1
  · obtain ⟨t, _, rfl⟩ := List.mem_map.1 hx
    exact Or.inr (mem_renderTile t b hb)

theorem mem_renderCardTile (ct : Nat × List Nat) (b : UInt8) (h : b ∈ renderCardTile ct) :
    b ∈ goStr "card:+gt" ∨ isDigit b = true := by
  unfold renderCardTile at h
  rcases List.mem_append.1 h with h1 | h1
  · rcases List.mem_append.1 h1 with h2 | h2
    · have hsub : ∀ x ∈ goStr "card", x ∈ goStr "card:+gt" := by decide
      exact Or.inl (hsub b h2)
    · exact Or.inr (isDigit_of_mem_renderNat _ b h2)
  · rcases List.mem_cons.1 h1 with h2 | h2
    · left
      rw [h2]
      decide
    · rcases mem_tilesText _ _ h2 with h3 | h3 | h3
      · left
        rw [h3]
        decide
      · have hsub : ∀ x ∈ goStr "gt", x ∈ goStr "card:+gt" := by decide
        exact Or.inl (hsub b h3)
      · exact Or.inr h3

theorem mem_renderContainer (cts : List (Nat × List Nat)) (b : UInt8)
    (h : b ∈ renderContainer cts) :
    b = byte ',' ∨ b ∈ goStr "card:+gt" ∨ isDigit b = true := by
  rcases mem_joinWith _ _ _ h with h1 | ⟨x, hx, hb⟩
  · exact Or.inl h1
  · obtain ⟨ct, _, rfl⟩ := List.mem_map.1 hx
    exact Or.inr (mem_renderCardTile ct b hb)

theorem plus_not_mem_renderTile (t : Nat) : byte '+' ∉ renderTile t := by
  intro h
  rcases mem_renderTile t _ h with h1 | h1 <;> revert h1 <;> decide

theorem colon_not_mem_cardPart (n : Nat) : byte ':' ∉ goStr "card" ++ renderNat n := by
  intro h
  rcases List.mem_append.1 h with h1 | h1
  · revert h1
    decide
  · have := isDigit_of_mem_renderNat n _ h1
    revert this
    decide

theorem colon_not_mem_tilesText (ts : List Nat) :
    byte ':' ∉ joinWith (byte '+') (ts.map renderTile) := by
  intro h
  rcases mem_tilesText ts _ h with h1 | h1 | h1 <;> revert h1 <;> decide

theorem comma_not_mem_renderCardTile (ct : Nat × List Nat) :
    byte ',' ∉ renderCardTile ct := by
  intro h
  rcases mem_renderCardTile ct _ h with h1 | h1 <;> revert h1 <;> decide

theorem bar_not_mem_renderContainer (cts : List (Nat × List Nat)) :
    byte '|' ∉ renderContainer cts := by
  intro h
  rcases mem_renderContainer cts _ h with h1 | h1 | h1 <;> revert h1 <;> decide

theorem trimPrefix_append (pre s : GoString) : trimPrefix (pre ++ s) pre = s := by
  have hp : hasPrefix (pre ++ s) pre = true :=
    List.isPrefixOf_iff_prefix.2 (List.prefix_append pre s)
  simp [trimPrefix, hp]

/-- The tile loop on the rendered tiles of one card records exactly their keys. -/
theorem mapGet_tileLoop_rendered (cardIndexStr : GoString) :
    ∀ (ts : List Nat) (m : GoMap Bool) (k : GoString), (∀ t ∈ ts, t < 2 ^ 15) →
      mapGet (tileLoop cardIndexStr (ts.map renderTile) m) k =
        if k ∈ ts.map (fun t => cardIndexStr ++ goStr "." ++ renderNat t)
        then some true else mapGet m k
  | [], m, k, _ => by simp [tileLoop]
  | t :: rest, m, k, h => by
    have ht : t < 2 ^ 15 := h t (List.mem_cons_self _ _)
    have hrest : ∀ u ∈ rest, u < 2 ^ 15 := fun u hu => h u (List.mem_cons_of_mem _ hu)
    have htrim : trimPrefix (renderTile t) (goStr "gt") = renderNat t :=
      trimPrefix_append _ _
    rw [List.map_cons, tileLoop]
    simp only [htrim, parseInt_renderNat t ht]
    rw [mapGet_tileLoop_rendered cardIndexStr rest _ k hrest, mapGet_mapSet]
    have hmem : k ∈ (t :: rest).map (fun t => cardIndexStr ++ goStr "." ++ renderNat t) ↔
        k = cardIndexStr ++ goStr "." ++ renderNat t ∨
          k ∈ rest.map (fun t => cardIndexStr ++ goStr "." ++ renderNat t) := by
      rw [List.map_cons, List.mem_cons]
    by_cases h1 : k ∈ rest.map (fun t => cardIndexStr ++ goStr "." ++ renderNat t)
    · rw [if_pos h1, if_pos (hmem.2 (Or.inr h1))]
    · rw [if_neg h1]
      by_cases h2 : cardIndexStr ++ goStr "." ++ renderNat t = k
      · rw [if_pos h2, if_pos (hmem.2 (Or.inl h2.symm))]
      · have h3 : ¬ k ∈ (t :: rest).map
            (fun t => cardIndexStr ++ goStr "." ++ renderNat t) := by
          rw [hmem]
          exact fun hor => hor.elim (fun e => h2 e.symm) h1
        rw [if_neg h2, if_neg h3]

theorem mapGet_tileLoop_tilesText (cardIndexStr : GoString) (ts : List Nat)
    (m : GoMap Bool) (k : GoString) (h : ∀ t ∈ ts, t < 2 ^ 15) :
    mapGet (tileLoop cardIndexStr
        (split (byte '+') (joinWith (byte '+') (ts.map renderTile))) m) k =
      if k ∈ ts.map (fun t => cardIndexStr ++ goStr "." ++ renderNat t)
      then some true else mapGet m k := by
  cases ts with
  | nil => rfl
  | cons t rest =>
    rw [split_joinWith _ _ (by simp)]
    · exact mapGet_tileLoop_rendered cardIndexStr (t :: rest) m k h
    · intro x hx
      obtain ⟨u, _, rfl⟩ := List.mem_map.1 hx
      exact plus_not_mem_renderTile u

theorem split_renderCardTile (ct : Nat × List Nat) :
    split (byte ':') (renderCardTile ct) =
      [goStr "card" ++ renderNat ct.1, joinWith (byte '+') (ct.2.map renderTile)] := by
  unfold renderCardTile
  rw [split_append_sep _ _ _ (colon_not_mem_cardPart _),
    split_of_not_mem _ _ (colon_not_mem_tilesText _)]

theorem sliceFrom_append (pre s : GoString) : sliceFrom (pre ++ s) pre.length = some s := by
  simp [sliceFrom]

/-- One iteration of the clause loop on a rendered clause: the clause is
accepted and its tiles are handed to the tile loop. -/
theorem cardTileLoop_cons_rendered (ct : Nat × List Nat) (rest : List GoString)
    (m : GoMap Bool) (h : ct.1 < 2 ^ 15) :
    cardTileLoop (renderCardTile ct :: rest) m =
      cardTileLoop rest (tileLoop (renderNat ct.1)
        (split (byte '+') (joinWith (byte '+') (ct.2.map renderTile))) m) := by
  rw [cardTileLoop]
  simp only [split_renderCardTile, List.length_cons, List.length_nil, maxLabelParts,
    ne_eq, not_true_eq_false, if_false, List.getElem?_cons_zero, List.getElem?_cons_succ,
    sliceFrom_append, parseInt_renderNat ct.1 h]

theorem if_mem_append (a b : List GoString) (k : GoString) (x : Option Bool) :
    (if k ∈ b then some true else if k ∈ a then some true else x) =
      if k ∈ a ++ b then some true else x := by
  by_cases ha : k ∈ a <;> by_cases hb : k ∈ b <;> simp [ha, hb]

theorem cardTileLoop_rendered :
    ∀ (cts : List (Nat × List Nat)) (m : GoMap Bool),
      (∀ ct ∈ cts, ct.1 < 2 ^ 15 ∧ ∀ t ∈ ct.2, t < 2 ^ 15) →
      ∃ m1, cardTileLoop (cts.map renderCardTile) m = some m1 ∧
        ∀ k, mapGet m1 k =
          if k ∈ cts.flatMap cardTileKeys then some true else mapGet m k
  | [], m, _ => ⟨m, rfl, fun k => by simp⟩
  | ct :: rest, m, h => by
    have hct := h ct (List.mem_cons_self _ _)
    obtain ⟨m1, hm1, hk⟩ := cardTileLoop_rendered rest
      (tileLoop (renderNat ct.1)
        (split (byte '+') (joinWith (byte '+') (ct.2.map renderTile))) m)
      (fun x hx => h x (List.mem_cons_of_mem _ hx))
    refine ⟨m1, ?_, ?_⟩
    · rw [List.map_cons, cardTileLoop_cons_rendered ct _ m hct.1]
      exact hm1
    · intro k
      rw [hk k, mapGet_tileLoop_tilesText _ _ _ _ hct.2, List.flatMap_cons]
      exact if_mem_append (cardTileKeys ct) _ k _

theorem cardTileLoop_container (cts : List (Nat × List Nat)) (m : GoMap Bool)
    (h : ∀ ct ∈ cts, ct.1 < 2 ^ 15 ∧ ∀ t ∈ ct.2, t < 2 ^ 15) :
    ∃ m1, cardTileLoop (split (byte ',') (renderContainer cts)) m = some m1 ∧
      ∀ k, mapGet m1 k =
        if k ∈ cts.flatMap cardTileKeys then some true else mapGet m k := by
  cases cts with
  | nil => exact ⟨m, rfl, fun k => by simp⟩
  | cons ct rest =>
    unfold renderContainer
    rw [split_joinWith _ _ (by simp)]
    · exact cardTileLoop_rendered (ct :: rest) m h
    · intro x hx
      obtain ⟨u, _, rfl⟩ := List.mem_map.1 hx
      exact comma_not_mem_renderCardTile u

theorem containerLoop_rendered :
    ∀ (containers : List (List (Nat × List Nat))) (m : GoMap Bool),
      (∀ cts ∈ containers, ∀ ct ∈ cts, ct.1 < 2 ^ 15 ∧ ∀ t ∈ ct.2, t < 2 ^ 15) →
      ∃ m1, containerLoop (containers.map renderContainer) m = some m1 ∧
        ∀ k, mapGet m1 k =
          if k ∈ annotationKeys containers then some true else mapGet m k
  | [], m, _ => ⟨m, rfl, fun k => by simp [annotationKeys]⟩
  | cts :: rest, m, h => by
    obtain ⟨m0, hm0, hk0⟩ := cardTileLoop_container cts m (h cts (List.mem_cons_self _ _))
    obtain ⟨m1, hm1, hk1⟩ := containerLoop_rendered rest m0
      (fun x hx => h x (List.mem_cons_of_mem _ hx))
    refine ⟨m1, ?_, ?_⟩
    · rw [List.map_cons, containerLoop, hm0]
      exact hm1
    · intro k
      rw [hk1 k, hk0 k]
      simp only [annotationKeys, List.flatMap_cons]
      exact if_mem_append _ _ k _

/-- Decoding a rendered annotation whose indices are all below `2 ^ 15`. -/
theorem convert_rendered (containers : List (List (Nat × List Nat)))
    (h : ∀ cts ∈ containers, ∀ ct ∈ cts, ct.1 < 2 ^ 15 ∧ ∀ t ∈ ct.2, t < 2 ^ 15) :
    ∃ m, convertPodTileAnnotationToCardTileMap (renderAnnotationString containers) = some m ∧
      ∀ k, mapGet m k = if k ∈ annotationKeys containers then some true else none := by
  cases containers with
  | nil => exact ⟨[], rfl, fun k => by simp [annotationKeys, mapGet]⟩
  | cons cts rest =>
    unfold convertPodTileAnnotationToCardTileMap renderAnnotationString
    rw [split_joinWith _ _ (by simp)]
    · exact containerLoop_rendered (cts :: rest) [] h
    · intro x hx
      obtain ⟨u, _, rfl⟩ := List.mem_map.1 hx
      exact bar_not_mem_renderContainer u

/-! ## Lemmas on `createTileMapping` -/

theorem hasPrefix_eq_append (s pre : GoString) (h : hasPrefix s pre = true) :
    s = pre ++ s.drop pre.length := by
  have hp : pre <+: s := List.isPrefixOf_iff_prefix.1 h
  exact (List.prefix_iff_eq_append.1 hp).symm

/-- Soundness of the matcher: a submatch is a decomposition of the input
according to the regular expression. -/
theorem findCardTileSubmatch_some (s digits1 digits2 : GoString)
    (h : findCardTileSubmatch s = some (digits1, digits2)) :
    digits1 ≠ [] ∧ digits2 ≠ [] ∧
    (∀ b ∈ digits1, isDigit b = true) ∧ (∀ b ∈ digits2, isDigit b = true) ∧
    s = goStr "card" ++ digits1 ++ goStr "_gt" ++ digits2 := by
  by_cases h1 : hasPrefix s (goStr "card") = true
  swap
  · simp [findCardTileSubmatch, h1] at h
  by_cases h2 : (s.drop (goStr "card").length).takeWhile isDigit ≠ [] ∧
      hasPrefix ((s.drop (goStr "card").length).dropWhile isDigit) (goStr "_gt") = true
  swap
  · rw [findCardTileSubmatch, if_pos h1] at h
    simp only [] at h
    rw [if_neg h2] at h
    cases h
  by_cases h3 : (((s.drop (goStr "card").length).dropWhile isDigit).drop
        (goStr "_gt").length) ≠ [] ∧
      (((s.drop (goStr "card").length).dropWhile isDigit).drop
        (goStr "_gt").length).all isDigit = true
  swap
  · rw [findCardTileSubmatch, if_pos h1] at h
    simp only [] at h
    rw [if_pos h2, if_neg h3] at h
    cases h
  rw [findCardTileSubmatch, if_pos h1] at h
  simp only [] at h
  rw [if_pos h2, if_pos h3] at h
  simp only [Option.some.injEq, Prod.mk.injEq] at h
  obtain ⟨hd1, hd2⟩ := h
  have e1 := hasPrefix_eq_append _ _ h1
  have e2 := hasPrefix_eq_append _ _ h2.2
  have e3 := List.takeWhile_append_dropWhile isDigit (s.drop (goStr "card").length)
  refine ⟨?_, ?_, ?_, ?_, ?_⟩
  · rw [← hd1]; exact h2.1
  · rw [← hd2]; exact h3.1
  · intro b hb
    rw [← hd1] at hb
    exact List.mem_takeWhile_imp hb
  · intro b hb
    rw [← hd2] at hb
    exact List.all_eq_true.1 h3.2 b hb
  · rw [← hd1, ← hd2]
    calc s = goStr "card" ++ s.drop (goStr "card").length := e1
      _ = goStr "card" ++ ((s.drop (goStr "card").length).takeWhile isDigit ++
            (s.drop (goStr "card").length).dropWhile isDigit) := by rw [e3]
      _ = goStr "card" ++ ((s.drop (goStr "card").length).takeWhile isDigit ++
            (goStr "_gt" ++ ((s.drop (goStr "card").length).dropWhile isDigit).drop
              (goStr "_gt").length)) := by rw [← e2]
      _ = _ := by simp only [List.append_assoc]

theorem extractCardAndTile_none_of_not_matches (s : GoString) (h : ¬ MatchesCardTile s) :
    extractCardAndTile s = none := by
  unfold extractCardAndTile
  cases hf : findCardTileSubmatch s with
  | none => rfl
  | some p =>
    obtain ⟨d1, d2⟩ := p
    exact absurd ⟨d1, d2, findCardTileSubmatch_some s d1 d2 hf⟩ h

theorem labelWithoutTASNS_eq (c : LabelConsts) (label : GoString) :
    labelWithoutTASNS c label =
      if hasPrefix label c.tasNSPrefix = true ∧ (split (byte '/') label).length = maxLabelParts
      then (labelName label, true) else ([], false) := by
  unfold labelWithoutTASNS labelName
  by_cases h1 : hasPrefix label c.tasNSPrefix = true
  · by_cases h2 : (split (byte '/') label).length = maxLabelParts <;> simp [h1, h2]
  · simp [h1]

/-- A label that does not qualify leaves the three mappings as they are. -/
theorem tileMappingStep_non_qualifying (c : LabelConsts)
    (acc : TilesMap × TilesMap × TilesMap) (label value : GoString)
    (h : NonQualifying c label) : tileMappingStep c acc label value = acc := by
  unfold tileMappingStep
  rw [labelWithoutTASNS_eq]
  by_cases hns : hasPrefix label c.tasNSPrefix = true ∧
      (split (byte '/') label).length = maxLabelParts
  · rw [if_pos hns]
    rcases h with h | h | h
    · rcases h with h | h
      · rw [hns.1] at h
        cases h
      · exact absurd hns.2 h
    · rcases h with ⟨hd, hno⟩ | ⟨hd, hs, hno⟩
      · simp [hd, extractCardAndTile_none_of_not_matches _ hno]
      · simp [hd, hs, extractCardAndTile_none_of_not_matches _ hno]
    · obtain ⟨hd, hs, hp⟩ := h
      simp [hd, hs, hp]
  · rw [if_neg hns]
    simp

theorem tileMappingLoop_filter (c : LabelConsts) (keep : GoString × GoString → Bool) :
    ∀ (labels : List (GoString × GoString)) (acc : TilesMap × TilesMap × TilesMap),
      (∀ lv ∈ labels, keep lv = false → NonQualifying c lv.1) →
      tileMappingLoop c (labels.filter keep) acc = tileMappingLoop c labels acc
  | [], _, _ => rfl
  | (label, value) :: rest, acc, h => by
    have hrest : ∀ lv ∈ rest, keep lv = false → NonQualifying c lv.1 :=
      fun lv hlv => h lv (List.mem_cons_of_mem _ hlv)
    by_cases hk : keep (label, value) = true
    · rw [List.filter_cons_of_pos hk, tileMappingLoop, tileMappingLoop,
        tileMappingLoop_filter c keep rest _ hrest]
    · have hk2 : keep (label, value) = false := by simpa using hk
      rw [List.filter_cons_of_neg hk, tileMappingLoop,
        tileMappingStep_non_qualifying c acc label value
          (h (label, value) (List.mem_cons_self _ _) hk2)]
      exact tileMappingLoop_filter c keep rest acc hrest

/-! ## Lemmas on the mappings returned by `createTileMapping` -/

theorem wellFormed_tileMappingStep (c : LabelConsts)
    (acc : TilesMap × TilesMap × TilesMap) (label value : GoString)
    (h : WellFormed acc.1 ∧ WellFormed acc.2.1 ∧ WellFormed acc.2.2) :
    WellFormed (tileMappingStep c acc label value).1 ∧
    WellFormed (tileMappingStep c acc label value).2.1 ∧
    WellFormed (tileMappingStep c acc label value).2.2 := by
  unfold tileMappingStep
  cases labelWithoutTASNS c label with
  | mk stripped ok =>
    simp only []
    split_ifs
    · exact h
    · cases extractCardAndTile (trimPrefix stripped c.tileDisableLabelPrefix) with
      | none => exact h
      | some p => exact ⟨wellFormed_mapSet _ _ _ h.1, h.2.1, h.2.2⟩
    · cases extractCardAndTile (trimPrefix stripped c.tileDeschedLabelPrefix) with
      | none => exact h
      | some p => exact ⟨h.1, wellFormed_mapSet _ _ _ h.2.1, h.2.2⟩
    · cases extractCardAndTile
          (trimPrefix stripped c.tilePrefLabelPrefix ++ goStr "_" ++ value) with
      | none => exact h
      | some p => exact ⟨h.1, h.2.1, wellFormed_mapSet _ _ _ h.2.2⟩
    · exact h

theorem wellFormed_tileMappingLoop (c : LabelConsts) :
    ∀ (labels : List (GoString × GoString)) (acc : TilesMap × TilesMap × TilesMap),
      WellFormed acc.1 ∧ WellFormed acc.2.1 ∧ WellFormed acc.2.2 →
      WellFormed (tileMappingLoop c labels acc).1 ∧
      WellFormed (tileMappingLoop c labels acc).2.1 ∧
      WellFormed (tileMappingLoop c labels acc).2.2
  | [], _, h => h
  | (label, value) :: rest, acc, h => by
    rw [tileMappingLoop]
    exact wellFormed_tileMappingLoop c rest _ (wellFormed_tileMappingStep c acc label value h)

theorem wellFormed_createTileMapping (c : LabelConsts) (labels : GoMap GoString) :
    WellFormed (createTileMapping c labels).1 ∧
    WellFormed (createTileMapping c labels).2.1 ∧
    WellFormed (createTileMapping c labels).2.2 :=
  wellFormed_tileMappingLoop c labels _ ⟨by decide, by decide, by decide⟩

/-! ## Lemmas on the keys recorded by the annotation decoder -/

theorem parseUintLoop_ok_digits (maxVal : Nat) :
    ∀ (s : GoString) (n v : Nat), parseUintLoop maxVal s n = (v, none) →
      ∀ b ∈ s, isDigit b = true
  | [], _, _, _ => by simp
  | c :: cs, n, v, h => by
    rw [parseUintLoop] at h
    by_cases hc : isDigit c = true
    · rw [if_pos hc] at h
      by_cases hr : n * 10 + (c.toNat - 48) > maxVal
      · rw [if_pos hr] at h
        simp at h
      · rw [if_neg hr] at h
        intro b hb
        rcases List.mem_cons.1 hb with rfl | hb1
        · exact hc
        · exact parseUintLoop_ok_digits maxVal cs _ v h b hb1
    · rw [if_neg hc] at h
      simp at h

theorem parseUint_ok_decimal (s : GoString) (bitSize v : Nat)
    (h : parseUint s bitSize = (v, none)) : IsDecimal s := by
  unfold parseUint at h
  by_cases hs : s = []
  · rw [if_pos hs] at h
    simp at h
  · rw [if_neg hs] at h
    exact ⟨hs, parseUintLoop_ok_digits _ s 0 v h⟩

/-- What `ParseInt` accepts is an optional sign and a non-empty run of digits. -/
theorem parseInt_ok_signed (x : GoString) (bitSize : Nat)
    (h : (parseInt x bitSize).2 = none) : IsSignedDecimal x := by
  cases x with
  | nil => simp [parseInt] at h
  | cons c cs =>
    have hbody : ∃ v, parseUint (if c = byte '+' ∨ c = byte '-' then cs else c :: cs)
        bitSize = (v, none) := by
      cases hp : parseUint (if c = byte '+' ∨ c = byte '-' then cs else c :: cs) bitSize with
      | mk un e =>
        cases e with
        | none => exact ⟨un, rfl⟩
        | some err =>
          exfalso
          cases err with
          | errSyntax => simp [parseInt, hp] at h
          | errRange =>
            simp only [parseInt, hp] at h
            split_ifs at h
    obtain ⟨v, hv⟩ := hbody
    have hdec := parseUint_ok_decimal _ _ _ hv
    by_cases hsign : c = byte '+' ∨ c = byte '-'
    · rw [if_pos hsign] at hdec
      refine ⟨[c], cs, ?_, hdec, rfl⟩
      rcases hsign with h1 | h1
      · exact Or.inr (Or.inl (by rw [h1]; decide))
      · exact Or.inr (Or.inr (by rw [h1]; decide))
    · rw [if_neg hsign] at hdec
      exact ⟨[], c :: cs, Or.inl rfl, hdec, rfl⟩

theorem not_mem_of_mem_split (sep : UInt8) :
    ∀ (s piece : GoString), piece ∈ split sep s → sep ∉ piece
  | [], piece, h => by
    simp only [split, List.mem_singleton] at h
    rw [h]
    simp
  | c :: cs, piece, h => by
    rw [split] at h
    by_cases hc : c = sep
    · rw [if_pos hc] at h
      rcases List.mem_cons.1 h with h1 | h1
      · rw [h1]
        simp
      · exact not_mem_of_mem_split sep cs piece h1
    · rw [if_neg hc] at h
      cases hs : split sep cs with
      | nil => exact absurd hs (split_ne_nil sep cs)
      | cons p ps =>
        rw [hs] at h
        simp only [] at h
        have hp : sep ∉ p := not_mem_of_mem_split sep cs p (by rw [hs]; exact List.mem_cons_self _ _)
        rcases List.mem_cons.1 h with h1 | h1
        · rw [h1]
          intro hm
          rcases List.mem_cons.1 hm with h2 | h2
          · exact hc h2.symm
          · exact hp h2
        · exact not_mem_of_mem_split sep cs piece (by rw [hs]; exact List.mem_cons_of_mem _ h1)

theorem mem_of_mem_trimPrefix (s pre : GoString) (b : UInt8) (h : b ∈ trimPrefix s pre) :
    b ∈ s := by
  unfold trimPrefix at h
  split_ifs at h
  · exact List.mem_of_mem_drop h
  · exact h

/-- What `ParseInt` accepts, when it has no `+`, is an optional `-` and a
non-empty run of digits. -/
theorem parseInt_ok_minus (x : GoString) (bitSize : Nat)
    (h : (parseInt x bitSize).2 = none) (hplus : byte '+' ∉ x) : IsMinusDecimal x := by
  obtain ⟨sign, digits, hsign, hdec, hx⟩ := parseInt_ok_signed x bitSize h
  refine ⟨sign, digits, ?_, hdec, hx⟩
  rcases hsign with h1 | h1 | h1
  · exact Or.inl h1
  · exfalso
    apply hplus
    rw [hx, h1]
    exact List.mem_append_left _ (by decide)
  · exact Or.inr h1

/-- The keys recorded by the tile loop, the tiles being pieces without `+`. -/
theorem tileLoop_keys (P : GoString → Prop) (cardIndexStr : GoString)
    (hP : ∀ tileNoStr, byte '+' ∉ tileNoStr →
      (parseInt tileNoStr desiredIntBits).2 = none →
      P (cardIndexStr ++ goStr "." ++ tileNoStr)) :
    ∀ (tiles : List GoString) (m : GoMap Bool), (∀ tile ∈ tiles, byte '+' ∉ tile) →
      (∀ k ∈ mapKeys m, P k) → ∀ k ∈ mapKeys (tileLoop cardIndexStr tiles m), P k
  | [], m, _, hm => hm
  | tile :: rest, m, hplus, hm => by
    have hrest : ∀ t ∈ rest, byte '+' ∉ t := fun t ht => hplus t (List.mem_cons_of_mem _ ht)
    have htile : byte '+' ∉ trimPrefix tile (goStr "gt") := fun hmem =>
      hplus tile (List.mem_cons_self _ _) (mem_of_mem_trimPrefix _ _ _ hmem)
    rw [tileLoop]
    cases hp : (parseInt (trimPrefix tile (goStr "gt")) desiredIntBits).2 with
    | none =>
      simp only []
      apply tileLoop_keys P cardIndexStr hP rest _ hrest
      intro k hk
      rcases (mem_mapKeys_mapSet _ _ _ _).1 hk with rfl | hk1
      · exact hP _ htile hp
      · exact hm k hk1
    | some e =>
      simp only []
      exact tileLoop_keys P cardIndexStr hP rest m hrest hm

theorem cardTileLoop_keys (P : GoString → Prop)
    (hP : ∀ a b, (parseInt a desiredIntBits).2 = none → byte '+' ∉ b →
      (parseInt b desiredIntBits).2 = none → P (a ++ goStr "." ++ b)) :
    ∀ (clauses : List GoString) (m m1 : GoMap Bool), cardTileLoop clauses m = some m1 →
      (∀ k ∈ mapKeys m, P k) → ∀ k ∈ mapKeys m1, P k
  | [], m, m1, h, hm => by
    simp only [cardTileLoop, Option.some.injEq] at h
    rw [← h]
    exact hm
  | clause :: rest, m, m1, h, hm => by
    rw [cardTileLoop] at h
    split_ifs at h with hlen
    · exact cardTileLoop_keys P hP rest m m1 h hm
    · cases h0 : (split (byte ':') clause)[0]? with
      | none => simp [h0] at h
      | some cardPart =>
        cases h1 : sliceFrom cardPart (goStr "card").length with
        | none => simp [h0, h1] at h
        | some cardIndexStr =>
          cases h2 : (parseInt cardIndexStr desiredIntBits).2 with
          | some e =>
            simp only [h0, h1, h2] at h
            exact cardTileLoop_keys P hP rest m m1 h hm
          | none =>
            cases h3 : (split (byte ':') clause)[1]? with
            | none => simp [h0, h1, h2, h3] at h
            | some tilePart =>
              simp only [h0, h1, h2, h3] at h
              exact cardTileLoop_keys P hP rest _ m1 h
                (tileLoop_keys P cardIndexStr (fun b hb1 hb2 => hP cardIndexStr b h2 hb1 hb2)
                  _ m (fun t ht => not_mem_of_mem_split _ _ t ht) hm)

theorem containerLoop_keys (P : GoString → Prop)
    (hP : ∀ a b, (parseInt a desiredIntBits).2 = none → byte '+' ∉ b →
      (parseInt b desiredIntBits).2 = none → P (a ++ goStr "." ++ b)) :
    ∀ (parts : List GoString) (m m1 : GoMap Bool), containerLoop parts m = some m1 →
      (∀ k ∈ mapKeys m, P k) → ∀ k ∈ mapKeys m1, P k
  | [], m, m1, h, hm => by
    simp only [containerLoop, Option.some.injEq] at h
    rw [← h]
    exact hm
  | part :: rest, m, m1, h, hm => by
    rw [containerLoop] at h
    cases hc : cardTileLoop (split (byte ',') part) m with
    | none => simp [hc] at h
    | some next =>
      simp only [hc] at h
      exact containerLoop_keys P hP rest next m1 h
        (cardTileLoop_keys P hP _ m next hc hm)

/-! ## Lemmas on `containerRequests` -/

theorem indexGet_indexSet (m : IndexMap) (k : Nat) (v : Bool) (k1 : Nat) :
    indexGet (indexSet m k v) k1 = if k = k1 then some v else indexGet m k1 := by
  induction m with
  | nil => simp [indexSet, indexGet]
  | cons e rest ih =>
    obtain ⟨k0, v0⟩ := e
    by_cases h0 : k0 = k
    · subst h0
      by_cases h1 : k0 = k1 <;> simp [indexSet, indexGet, h1]
    · by_cases h1 : k0 = k1
      · subst h1
        have hk : ¬ k = k0 := fun h => h0 h.symm
        simp [indexSet, indexGet, h0, hk]
      · simp [indexSet, indexGet, h0, h1, ih]

theorem length_indexSet_of_absent (m : IndexMap) (k : Nat) (v : Bool)
    (h : indexGet m k = none) : (indexSet m k v).length = m.length + 1 := by
  induction m with
  | nil => simp [indexSet]
  | cons e rest ih =>
    obtain ⟨k0, v0⟩ := e
    by_cases h0 : k0 = k
    · simp [indexGet, h0] at h
    · simp only [indexGet, h0, if_false] at h
      simp [indexSet, h0, ih h]

/-- Invariant of the outer loop of `containerRequests`. -/
theorem containersLoop_spec (gpuPrefix : GoString) (names : GoMap Bool) :
    ∀ (cs : List Container) (idx : Nat) (sm : IndexMap) (all : List ResourceMap),
      (∀ k, idx ≤ k → indexGet sm k = none) →
      (containersLoop gpuPrefix names cs idx sm all).2 =
        all ++ cs.map (fun c => requestsLoop gpuPrefix c.requests []) ∧
      (∀ k, indexGet (containersLoop gpuPrefix names cs idx sm all).1 k =
        if idx ≤ k ∧ ((cs[k - idx]?).map (fun c => isFlagged names c.name)).getD false = true
        then some true else indexGet sm k) ∧
      (containersLoop gpuPrefix names cs idx sm all).1.length =
        sm.length + (cs.filter (fun c => isFlagged names c.name)).length
  | [], idx, sm, all, _ => by simp [containersLoop]
  | c :: rest, idx, sm, all, hsm => by
    rw [containersLoop]
    have hnext : ∀ k, idx + 1 ≤ k →
        indexGet (if isFlagged names c.name = true then indexSet sm idx true else sm) k =
          none := by
      intro k hk
      by_cases hf : isFlagged names c.name = true
      · rw [if_pos hf, indexGet_indexSet, if_neg (by omega)]
        exact hsm k (by omega)
      · rw [if_neg hf]
        exact hsm k (by omega)
    obtain ⟨h1, h2, h3⟩ := containersLoop_spec gpuPrefix names rest (idx + 1) _
      (all ++ [requestsLoop gpuPrefix c.requests []]) hnext
    refine ⟨?_, ?_, ?_⟩
    · rw [h1]
      simp
    · intro k
      rw [h2 k]
      by_cases hk : idx + 1 ≤ k
      · have e1 : k - idx = (k - (idx + 1)) + 1 := by omega
        have hle : idx ≤ k := by omega
        have hne : ¬ idx = k := by omega
        have hsame : indexGet
            (if isFlagged names c.name = true then indexSet sm idx true else sm) k =
            indexGet sm k := by
          by_cases hf : isFlagged names c.name = true
          · rw [if_pos hf, indexGet_indexSet, if_neg hne]
          · rw [if_neg hf]
        rw [e1, List.getElem?_cons_succ, hsame]
        simp only [hk, hle, true_and]
      · simp only [hk, false_and, if_false]
        by_cases hke : idx = k
        · subst hke
          by_cases hf : isFlagged names c.name = true
          · simp [hf, indexGet_indexSet]
          · simp [hf, hsm idx (le_refl _)]
        · have hlt : ¬ idx ≤ k := by omega
          simp only [hlt, false_and, if_false]
          by_cases hf : isFlagged names c.name = true
          · rw [if_pos hf, indexGet_indexSet, if_neg hke]
          · rw [if_neg hf]
    · rw [h3]
      by_cases hf : isFlagged names c.name = true
      · rw [if_pos hf, length_indexSet_of_absent _ _ _ (hsm idx (le_refl _))]
        simp [List.filter_cons, hf]
        omega
      · rw [if_neg hf]
        simp [List.filter_cons, hf]

/-! ## Lemmas on `concatenateSplitLabel` -/

theorem renderNat_injective : Function.Injective renderNat := by
  intro a b h
  have ha := parseUintLoop_decimalDigits (a + b) (a + 1) a (Nat.lt_succ_self a) (by omega)
  have hb := parseUintLoop_decimalDigits (a + b) (b + 1) b (Nat.lt_succ_self b) (by omega)
  unfold renderNat at h
  rw [h, hb] at ha
  exact ((Prod.mk.inj ha).1).symm

/-- Labels with consecutive running numbers that are all present are no more
than the labels of the node. -/
theorem present_run_le_length (labels : GoMap GoString) (labelName : GoString) (p n : Nat)
    (h : ∀ i, p ≤ i → i < p + n → mapGet labels (labelName ++ renderNat i) ≠ none) :
    n ≤ labels.length := by
  have hnd : ((List.range' p n).map (fun i => labelName ++ renderNat i)).Nodup := by
    apply List.Nodup.map _ (List.nodup_range' p n)
    intro a b hab
    exact renderNat_injective (List.append_cancel_left hab)
  have hsub : (List.range' p n).map (fun i => labelName ++ renderNat i) ⊆ mapKeys labels := by
    intro k hk
    obtain ⟨i, hi, rfl⟩ := List.mem_map.1 hk
    have hi2 := List.mem_range'_1.1 hi
    by_contra hmem
    exact h i hi2.1 hi2.2 ((mapGet_eq_none_iff _ _).2 hmem)
  have hle := (hnd.subperm hsub).length_le
  simpa [mapKeys] using hle

theorem splitLabelLoop_none (labels : GoMap GoString) (labelName : GoString) :
    ∀ (fuel p : Nat) (value : GoString),
      splitLabelLoop labels labelName fuel p value = none →
      ∀ i, p ≤ i → i < p + fuel → mapGet labels (labelName ++ renderNat i) ≠ none
  | 0, p, _, _ => by
    intro i h1 h2
    omega
  | fuel + 1, p, value, h => by
    rw [splitLabelLoop] at h
    cases hg : mapGet labels (labelName ++ renderNat p) with
    | none => simp [hg] at h
    | some v =>
      simp only [hg] at h
      intro i h1 h2
      by_cases hip : i = p
      · rw [hip, hg]
        simp
      · exact splitLabelLoop_none labels labelName fuel (p + 1) _ h i (by omega) (by omega)

/-- The loop bound of `concatenateSplitLabel` is never reached. -/
theorem concatenateSplitLabel_returns (labels : GoMap GoString) (labelName : GoString) :
    ∃ v, concatenateSplitLabel labels labelName = some v := by
  cases h : concatenateSplitLabel labels labelName with
  | some v => exact ⟨v, rfl⟩
  | none =>
    exfalso
    have hrun := splitLabelLoop_none labels labelName _ _ _ h
    have := present_run_le_length labels labelName 2 (labels.length + 1) hrun
    omega

/-- The loop gathers the values of the running numbers `p`, ..., `p + n - 1`
when those labels are present and the label `p + n` is missing. -/
theorem splitLabelLoop_some (labels : GoMap GoString) (labelName : GoString) :
    ∀ (n fuel p : Nat) (value : GoString), n < fuel →
      (∀ i, p ≤ i → i < p + n → mapGet labels (labelName ++ renderNat i) ≠ none) →
      mapGet labels (labelName ++ renderNat (p + n)) = none →
      splitLabelLoop labels labelName fuel p value =
        some (value ++ ((List.range' p n).map
          (fun i => labelValue labels (labelName ++ renderNat i))).flatten)
  | _, 0, _, _, hf, _, _ => by omega
  | 0, fuel + 1, p, value, _, _, habs => by
    rw [splitLabelLoop]
    simp only [Nat.add_zero] at habs
    simp [habs]
  | n + 1, fuel + 1, p, value, hf, hpres, habs => by
    rw [splitLabelLoop]
    cases hg : mapGet labels (labelName ++ renderNat p) with
    | none => exact absurd hg (hpres p (le_refl _) (by omega))
    | some v =>
      simp only []
      rw [splitLabelLoop_some labels labelName n fuel (p + 1) _ (by omega)
        (fun i h1 h2 => hpres i (by omega) (by omega))
        (by rw [show p + 1 + n = p + (n + 1) by omega]; exact habs)]
      simp [List.range'_succ, labelValue, hg]

/-! ## Lemmas on `getPCIGroup` and `addPCIGroupGPUs` -/

theorem groupHasGPU_eq (gpuName : GoString) :
    ∀ group : List GoString, groupHasGPU group gpuName = hasMember gpuName group
  | [] => rfl
  | n :: rest => by
    by_cases h : goStr "card" ++ n = gpuName
    · simp [groupHasGPU, hasMember, h]
    · have ih := groupHasGPU_eq gpuName rest
      simp only [hasMember] at ih
      simp [groupHasGPU, hasMember, h, ih]

theorem groupsLoop_eq (gpuName : GoString) :
    ∀ groups : List GoString,
      groupsLoop groups gpuName =
        (((groups.map (split (byte '.'))).find? (hasMember gpuName)).getD [])
  | [] => rfl
  | group :: rest => by
    rw [groupsLoop, groupHasGPU_eq, List.map_cons, List.find?_cons]
    by_cases h : hasMember gpuName (split (byte '.') group) = true
    · simp [h]
    · have h2 : hasMember gpuName (split (byte '.') group) = false := by simpa using h
      simp only [h2, groupsLoop_eq gpuName rest]
      simp

theorem containsString_eq (value : GoString) :
    ∀ slice : List GoString, containsString slice value = decide (value ∈ slice)
  | [] => by simp [containsString]
  | v :: rest => by
    by_cases h : v = value
    · simp [containsString, h]
    · have h2 : ¬ value = v := fun e => h e.symm
      simp [containsString, h, h2, containsString_eq value rest]

theorem distinctInOrder_filter (p : GoString → Bool) :
    ∀ l : List GoString, distinctInOrder (l.filter p) = (distinctInOrder l).filter p
  | [] => rfl
  | a :: l => by
    by_cases hp : p a = true
    · rw [List.filter_cons_of_pos hp, distinctInOrder, distinctInOrder,
        List.filter_cons_of_pos hp, distinctInOrder_filter p l, List.filter_filter,
        List.filter_filter]
      congr 1
      apply List.filter_congr
      intro x _
      exact Bool.and_comm _ _
    · rw [List.filter_cons_of_neg hp, distinctInOrder, List.filter_cons_of_neg hp,
        distinctInOrder_filter p l, List.filter_filter]
      apply List.filter_congr
      intro x _
      by_cases hx : x = a
      · subst hx
        simp [hp]
      · simp [hx]

theorem mem_distinctInOrder (x : GoString) :
    ∀ l : List GoString, x ∈ distinctInOrder l ↔ x ∈ l
  | [] => by simp [distinctInOrder]
  | a :: l => by
    rw [distinctInOrder, List.mem_cons, List.mem_cons, List.mem_filter,
      mem_distinctInOrder x l]
    by_cases h : x = a <;> simp [h]

theorem nodup_distinctInOrder : ∀ l : List GoString, (distinctInOrder l).Nodup
  | [] => by simp [distinctInOrder]
  | a :: l => by
    rw [distinctInOrder, List.nodup_cons]
    refine ⟨?_, (nodup_distinctInOrder l).filter _⟩
    simp [List.mem_filter]

theorem sublist_distinctInOrder : ∀ l : List GoString, (distinctInOrder l).Sublist l
  | [] => by simp [distinctInOrder]
  | a :: l => by
    rw [distinctInOrder]
    exact ((List.filter_sublist _).trans (sublist_distinctInOrder l)).cons₂ a

/-- The loop of `addPCIGroupGPUs` appends the new cards of the group, each
once, in the order of the group. -/
theorem addGroupLoop_eq :
    ∀ (gpuNums cards : List GoString),
      addGroupLoop gpuNums cards = cards ++ distinctInOrder
        ((gpuNums.map (fun n => goStr "card" ++ n)).filter (fun x => decide (x ∉ cards)))
  | [], cards => by simp [addGroupLoop, distinctInOrder]
  | n :: rest, cards => by
    rw [addGroupLoop, containsString_eq]
    by_cases h : goStr "card" ++ n ∈ cards
    · simp only [h, decide_True, if_true, List.map_cons]
      rw [addGroupLoop_eq rest cards, List.filter_cons_of_neg (by simpa using h)]
    · simp only [h, decide_False, Bool.false_eq_true, if_false, List.map_cons]
      rw [addGroupLoop_eq rest (cards ++ [goStr "card" ++ n]),
        List.filter_cons_of_pos (by simpa using h), distinctInOrder,
        ← distinctInOrder_filter, List.filter_filter, List.append_assoc]
      congr 2
      simp only [List.singleton_append]
      congr 2
      apply List.filter_congr
      intro x _
      by_cases hx : x = goStr "card" ++ n <;> by_cases hc : x ∈ cards <;> simp [hx, hc, h]

/-- The loop bound is not reached in `getPCIGroup` either: it returns. -/
theorem getPCIGroup_returns (labels : GoMap GoString) (gpuName : GoString) :
    ∃ group, getPCIGroup labels gpuName = some group := by
  obtain ⟨value, hv⟩ := concatenateSplitLabel_returns labels pciGroupLabel
  by_cases hval : value = []
  · exact ⟨[], by simp [getPCIGroup, hv, hval]⟩
  · exact ⟨groupsLoop (split (byte '_') value) gpuName,
      by simp only [getPCIGroup, hv, hval, ne_eq, not_false_eq_true, if_true]⟩

/-! ## Lemmas on `Atoi` and on the card-tile matcher -/

theorem le_foldl_digits :
    ∀ (s : GoString) (n : Nat), n ≤ s.foldl (fun n b => n * 10 + (b.toNat - 48)) n
  | [], n => le_refl n
  | c :: cs, n => by
    rw [List.foldl_cons]
    exact le_trans (by omega) (le_foldl_digits cs _)

/-- The digit loop on a run of digits: the number read, or a range error. -/
theorem parseUintLoop_digits (maxVal : Nat) :
    ∀ (s : GoString) (n : Nat), (∀ b ∈ s, isDigit b = true) →
      parseUintLoop maxVal s n =
        if s.foldl (fun n b => n * 10 + (b.toNat - 48)) n ≤ maxVal ∨ s = []
        then (s.foldl (fun n b => n * 10 + (b.toNat - 48)) n, none)
        else (maxVal, some NumError.errRange)
  | [], n, _ => by simp [parseUintLoop]
  | c :: cs, n, h => by
    have hc : isDigit c = true := h c (List.mem_cons_self _ _)
    have hcs : ∀ b ∈ cs, isDigit b = true := fun b hb => h b (List.mem_cons_of_mem _ hb)
    have hge := le_foldl_digits cs (n * 10 + (c.toNat - 48))
    rw [parseUintLoop, if_pos hc, List.foldl_cons]
    by_cases hr : n * 10 + (c.toNat - 48) > maxVal
    · rw [if_pos hr, if_neg]
      simp only [List.cons_ne_nil, or_false, not_le]
      omega
    · rw [if_neg hr, parseUintLoop_digits maxVal cs _ hcs]
      by_cases hnil : cs = []
      · subst hnil
        have : n * 10 + (c.toNat - 48) ≤ maxVal := by omega
        simp [this]
      · simp [hnil]

theorem parseInt_unsigned (c : UInt8) (cs : GoString) (bitSize un : Nat)
    (e : Option NumError) (hc : c ≠ byte '+' ∧ c ≠ byte '-')
    (hu : parseUint (c :: cs) bitSize = (un, e)) (he : e ≠ some NumError.errSyntax) :
    (parseInt (c :: cs) bitSize).1 =
      if un ≥ 2 ^ (bitSize - 1) then ((2 ^ (bitSize - 1) : Nat) : Int) - 1
      else match e with
        | some _ => 0
        | none => (un : Int) := by
  have hsign : ¬ (c = byte '+' ∨ c = byte '-') := fun h => h.elim hc.1 hc.2
  have hneg : decide (c = byte '-') = false := by simp [hc.2]
  rw [parseInt]
  simp only [hsign, if_false, hneg, hu]
  cases e with
  | none =>
    by_cases hcut : un ≥ 2 ^ (bitSize - 1)
    · simp [hcut]
    · simp [hcut]
  | some err =>
    cases err with
    | errSyntax => exact absurd rfl he
    | errRange =>
      by_cases hcut : un ≥ 2 ^ (bitSize - 1)
      · simp [hcut]
      · simp [hcut]

/-- `Atoi` on a non-empty run of digits: the number, capped at `maxInt`. -/
theorem atoi_digits (digits : GoString) (h : IsDecimal digits) :
    (atoi digits).1 = ((min (decimalValue digits) maxInt : Nat) : Int) := by
  obtain ⟨hne, hdig⟩ := h
  cases hs : digits with
  | nil => exact absurd hs hne
  | cons c cs =>
    rw [hs] at hdig
    have hc := isDigit_ne_sign c (hdig c (List.mem_cons_self _ _))
    have hloop := parseUintLoop_digits (2 ^ 64 - 1) (c :: cs) 0 hdig
    simp only [List.cons_ne_nil, or_false] at hloop
    have hval : decimalValue (c :: cs) =
        (c :: cs).foldl (fun n b => n * 10 + (b.toNat - 48)) 0 := rfl
    rw [← hval] at hloop
    have hpu : parseUint (c :: cs) 64 = parseUintLoop (2 ^ 64 - 1) (c :: cs) 0 := by
      rw [parseUint, if_neg (List.cons_ne_nil _ _)]
    have hpow : (2 : Nat) ^ (64 - 1) = maxInt + 1 := by
      simp only [maxInt]
      norm_num
    have hpow2 : (2 : Nat) ^ 64 - 1 = 2 * maxInt + 1 := by
      simp only [maxInt]
      norm_num
    rw [hpow2] at hloop hpu
    generalize decimalValue (c :: cs) = v at hloop ⊢
    generalize maxInt = mx at hloop hpu hpow ⊢
    by_cases hfit : v ≤ 2 * mx + 1
    · rw [if_pos hfit] at hloop
      rw [atoi, parseInt_unsigned c cs 64 v none hc (hpu.trans hloop) (by simp), hpow]
      by_cases hcut : v ≥ mx + 1
      · rw [if_pos hcut, min_eq_right (by omega)]
        push_cast
        ring
      · rw [if_neg hcut, min_eq_left (by omega)]
    · rw [if_neg hfit] at hloop
      rw [atoi, parseInt_unsigned c cs 64 (2 * mx + 1) (some NumError.errRange) hc
        (hpu.trans hloop) (by simp), hpow, if_pos (by omega), min_eq_right (by omega)]
      push_cast
      ring

/-- Completeness of the matcher: a text of the form `card<D1>_gt<D2>` has the
submatches `D1` and `D2`. -/
theorem findCardTileSubmatch_of_form (digits1 digits2 : GoString)
    (h1 : IsDecimal digits1) (h2 : IsDecimal digits2) :
    findCardTileSubmatch (goStr "card" ++ digits1 ++ goStr "_gt" ++ digits2) =
      some (digits1, digits2) := by
  have hassoc : goStr "card" ++ digits1 ++ goStr "_gt" ++ digits2 =
      goStr "card" ++ (digits1 ++ (goStr "_gt" ++ digits2)) := by
    simp only [List.append_assoc]
  have hpre : hasPrefix (goStr "card" ++ (digits1 ++ (goStr "_gt" ++ digits2)))
      (goStr "card") = true :=
    List.isPrefixOf_iff_prefix.2 (List.prefix_append _ _)
  have hcons : goStr "_gt" ++ digits2 = byte '_' :: (goStr "gt" ++ digits2) := by
    rw [show goStr "_gt" = byte '_' :: goStr "gt" by decide]
    rfl
  have hund : ¬ isDigit (byte '_') = true := by decide
  have htake : (digits1 ++ (goStr "_gt" ++ digits2)).takeWhile isDigit = digits1 := by
    rw [List.takeWhile_append_of_pos h1.2, hcons, List.takeWhile_cons_of_neg hund,
      List.append_nil]
  have hdrop : (digits1 ++ (goStr "_gt" ++ digits2)).dropWhile isDigit =
      goStr "_gt" ++ digits2 := by
    rw [List.dropWhile_append_of_pos h1.2, hcons, List.dropWhile_cons_of_neg hund]
  have hpre2 : hasPrefix (goStr "_gt" ++ digits2) (goStr "_gt") = true :=
    List.isPrefixOf_iff_prefix.2 (List.prefix_append _ _)
  have hall : digits2.all isDigit = true := List.all_eq_true.2 h2.2
  rw [hassoc, findCardTileSubmatch, if_pos hpre]
  simp only [List.drop_left, htake, hdrop]
  rw [if_pos ⟨h1.1, hpre2⟩, if_pos ⟨h2.1, hall⟩]

theorem extractCardAndTile_iff (text card : GoString) (tile : Int) :
    extractCardAndTile text = some (card, tile) ↔ CardTileText text card tile := by
  constructor
  · intro h
    unfold extractCardAndTile at h
    cases hf : findCardTileSubmatch text with
    | none => simp [hf] at h
    | some p =>
      obtain ⟨d1, d2⟩ := p
      simp only [hf, Option.some.injEq, Prod.mk.injEq] at h
      obtain ⟨hn1, hn2, hd1, hd2, htext⟩ := findCardTileSubmatch_some text d1 d2 hf
      exact ⟨d1, d2, ⟨hn1, hd1⟩, ⟨hn2, hd2⟩, htext, h.1.symm,
        by rw [← h.2, atoi_digits d2 ⟨hn2, hd2⟩]⟩
  · rintro ⟨d1, d2, h1, h2, rfl, rfl, rfl⟩
    unfold extractCardAndTile
    rw [findCardTileSubmatch_of_form d1 d2 h1 h2]
    simp only [atoi_digits d2 h2]

/-! ## The loop of `createTileMapping` in closed form -/

theorem tileMappingStep_eq (c : LabelConsts) (acc : TilesMap × TilesMap × TilesMap)
    (label value : GoString) :
    tileMappingStep c acc label value =
      (addEntry acc.1 (disabledEntry c label), addEntry acc.2.1 (deschedEntry c label),
        addEntry acc.2.2 (preferredEntry c label value)) := by
  unfold tileMappingStep
  rw [labelWithoutTASNS_eq]
  by_cases hns : hasPrefix label c.tasNSPrefix = true ∧
      (split (byte '/') label).length = maxLabelParts
  · rw [if_pos hns]
    by_cases hd : hasPrefix (labelName label) c.tileDisableLabelPrefix = true
    · cases he : extractCardAndTile (trimPrefix (labelName label) c.tileDisableLabelPrefix) <;>
        simp [disabledEntry, deschedEntry, preferredEntry, addEntry, hns.1, hns.2, hd, he]
    · by_cases hs : hasPrefix (labelName label) c.tileDeschedLabelPrefix = true
      · cases he : extractCardAndTile
            (trimPrefix (labelName label) c.tileDeschedLabelPrefix) <;>
          simp [disabledEntry, deschedEntry, preferredEntry, addEntry, hns.1, hns.2, hd, hs, he]
      · by_cases hp : hasPrefix (labelName label) c.tilePrefLabelPrefix = true
        · cases he : extractCardAndTile
              (trimPrefix (labelName label) c.tilePrefLabelPrefix ++ (goStr "_" ++ value)) <;>
            simp [disabledEntry, deschedEntry, preferredEntry, addEntry, hns.1, hns.2, hd, hs,
              hp, he]
        · simp [disabledEntry, deschedEntry, preferredEntry, addEntry, hns.1, hns.2, hd, hs, hp]
  · rw [if_neg hns]
    have h1 : ¬ (hasPrefix label c.tasNSPrefix = true ∧
        (split (byte '/') label).length = maxLabelParts ∧
        hasPrefix (labelName label) c.tileDisableLabelPrefix = true) :=
      fun h => hns ⟨h.1, h.2.1⟩
    have h2 : ¬ (hasPrefix label c.tasNSPrefix = true ∧
        (split (byte '/') label).length = maxLabelParts ∧
        hasPrefix (labelName label) c.tileDisableLabelPrefix = false ∧
        hasPrefix (labelName label) c.tileDeschedLabelPrefix = true) :=
      fun h => hns ⟨h.1, h.2.1⟩
    have h3 : ¬ (hasPrefix label c.tasNSPrefix = true ∧
        (split (byte '/') label).length = maxLabelParts ∧
        hasPrefix (labelName label) c.tileDisableLabelPrefix = false ∧
        hasPrefix (labelName label) c.tileDeschedLabelPrefix = false ∧
        hasPrefix (labelName label) c.tilePrefLabelPrefix = true) :=
      fun h => hns ⟨h.1, h.2.1⟩
    simp only [disabledEntry, deschedEntry, preferredEntry, if_neg h1, if_neg h2, if_neg h3,
      addEntry]
    simp

theorem tilesOf_addEntry (m : TilesMap) (e : Option (GoString × Int)) (card : GoString) :
    tilesOf (addEntry m e) card = tilesOf m card ++ entryTiles card e := by
  cases e with
  | none => simp [addEntry, entryTiles]
  | some p =>
    obtain ⟨card1, tile⟩ := p
    by_cases h : card1 = card
    · subst h
      simp [addEntry, entryTiles, appendTile, tilesOf_mapSet]
    · simp [addEntry, entryTiles, appendTile, tilesOf_mapSet, h]

/-- What the three mappings hold under a card after the loop. -/
theorem tilesOf_tileMappingLoop (c : LabelConsts) (card : GoString) :
    ∀ (labels : List (GoString × GoString)) (acc : TilesMap × TilesMap × TilesMap),
      tilesOf (tileMappingLoop c labels acc).1 card =
        tilesOf acc.1 card ++
          labels.flatMap (fun lv => entryTiles card (disabledEntry c lv.1)) ∧
      tilesOf (tileMappingLoop c labels acc).2.1 card =
        tilesOf acc.2.1 card ++
          labels.flatMap (fun lv => entryTiles card (deschedEntry c lv.1)) ∧
      tilesOf (tileMappingLoop c labels acc).2.2 card =
        tilesOf acc.2.2 card ++
          labels.flatMap (fun lv => entryTiles card (preferredEntry c lv.1 lv.2))
  | [], acc => by simp [tileMappingLoop]
  | (label, value) :: rest, acc => by
    obtain ⟨h1, h2, h3⟩ := tilesOf_tileMappingLoop c card rest (tileMappingStep c acc label value)
    rw [tileMappingLoop, h1, h2, h3, tileMappingStep_eq]
    simp only [tilesOf_addEntry, List.flatMap_cons, List.append_assoc, and_self]

/-- Pairing the labels that contribute with the tiles they contribute. -/
theorem forall₂_filter_flatMap (R : GoString × GoString → Int → Prop)
    (g : GoString × GoString → List Int) (keep : GoString × GoString → Bool) :
    ∀ labels : List (GoString × GoString),
      (∀ lv ∈ labels, keep lv = true → ∃ tile, g lv = [tile] ∧ R lv tile) →
      (∀ lv ∈ labels, keep lv = false → g lv = []) →
      List.Forall₂ R (labels.filter keep) (labels.flatMap g)
  | [], _, _ => by simp
  | lv :: rest, h1, h2 => by
    have ih := forall₂_filter_flatMap R g keep rest
      (fun x hx => h1 x (List.mem_cons_of_mem _ hx))
      (fun x hx => h2 x (List.mem_cons_of_mem _ hx))
    by_cases hk : keep lv = true
    · obtain ⟨tile, hg, hr⟩ := h1 lv (List.mem_cons_self _ _) hk
      rw [List.filter_cons_of_pos hk, List.flatMap_cons, hg]
      exact List.Forall₂.cons hr ih
    · have hk2 : keep lv = false := by simpa using hk
      rw [List.filter_cons_of_neg hk, List.flatMap_cons, h2 lv (List.mem_cons_self _ _) hk2]
      exact ih

theorem trimPrefix_of_eq_append (name pre text : GoString) (h : name = pre ++ text) :
    hasPrefix name pre = true ∧ trimPrefix name pre = text := by
  subst h
  exact ⟨List.isPrefixOf_iff_prefix.2 (List.prefix_append _ _), trimPrefix_append pre text⟩

theorem eq_append_trimPrefix (name pre : GoString) (h : hasPrefix name pre = true) :
    name = pre ++ trimPrefix name pre := by
  have := hasPrefix_eq_append name pre h
  simpa [trimPrefix, h] using this

theorem disabledEntry_iff (c : LabelConsts) (card label : GoString) (tile : Int) :
    disabledEntry c label = some (card, tile) ↔ DisableEntry c card label tile := by
  unfold disabledEntry DisableEntry InNamespace
  constructor
  · intro h
    split_ifs at h with hc
    exact ⟨⟨hc.1, hc.2.1⟩, _, eq_append_trimPrefix _ _ hc.2.2,
      (extractCardAndTile_iff _ _ _).1 h⟩
  · rintro ⟨⟨h1, h2⟩, text, hname, htext⟩
    obtain ⟨hp, ht⟩ := trimPrefix_of_eq_append _ _ _ hname
    rw [if_pos ⟨h1, h2, hp⟩, ht]
    exact (extractCardAndTile_iff _ _ _).2 htext

theorem deschedEntry_iff (c : LabelConsts) (card label : GoString) (tile : Int) :
    deschedEntry c label = some (card, tile) ↔ DeschedEntry c card label tile := by
  unfold deschedEntry DeschedEntry InNamespace
  constructor
  · intro h
    split_ifs at h with hc
    exact ⟨⟨hc.1, hc.2.1⟩, hc.2.2.1, _, eq_append_trimPrefix _ _ hc.2.2.2,
      (extractCardAndTile_iff _ _ _).1 h⟩
  · rintro ⟨⟨h1, h2⟩, hnd, text, hname, htext⟩
    obtain ⟨hp, ht⟩ := trimPrefix_of_eq_append _ _ _ hname
    rw [if_pos ⟨h1, h2, hnd, hp⟩, ht]
    exact (extractCardAndTile_iff _ _ _).2 htext

/-- From the closed form of the loop to the pairing of labels and tiles. -/
theorem forall₂_of_entry_iff (entry : GoString → Option (GoString × Int))
    (E : GoString → GoString → Int → Prop) (card : GoString)
    (hiff : ∀ label card1 tile, entry label = some (card1, tile) ↔ E card1 label tile)
    (labels : List (GoString × GoString)) (keep : GoString × GoString → Bool)
    (hkeep : ∀ lv ∈ labels, keep lv = true ↔ ∃ tile, E card lv.1 tile) :
    List.Forall₂ (fun lv tile => E card lv.1 tile) (labels.filter keep)
      (labels.flatMap (fun lv => entryTiles card (entry lv.1))) := by
  apply forall₂_filter_flatMap
  · intro lv hlv hk
    obtain ⟨tile, ht⟩ := (hkeep lv hlv).1 hk
    refine ⟨tile, ?_, ht⟩
    rw [(hiff _ _ _).2 ht]
    simp [entryTiles]
  · intro lv hlv hk
    cases he : entry lv.1 with
    | none => rfl
    | some p =>
      obtain ⟨card1, tile⟩ := p
      by_cases hc : card1 = card
      · subst hc
        have := (hkeep lv hlv).2 ⟨tile, (hiff _ _ _).1 he⟩
        rw [hk] at this
        cases this
      · simp [entryTiles, hc]

theorem exists_entry_iff (entry : GoString → Option (GoString × Int))
    (E : GoString → GoString → Int → Prop)
    (hiff : ∀ label card1 tile, entry label = some (card1, tile) ↔ E card1 label tile)
    (card label : GoString) :
    decide (entryTiles card (entry label) ≠ []) = true ↔ ∃ tile, E card label tile := by
  cases he : entry label with
  | none =>
    simp only [entryTiles, ne_eq, not_true_eq_false, decide_False, Bool.false_eq_true,
      false_iff]
    rintro ⟨tile, ht⟩
    rw [(hiff _ _ _).2 ht] at he
    cases he
  | some p =>
    obtain ⟨card1, tile⟩ := p
    by_cases hc : card1 = card
    · subst hc
      simp only [entryTiles, if_true, ne_eq, List.cons_ne_nil, not_false_eq_true, decide_True,
        true_iff]
      exact ⟨tile, (hiff _ _ _).1 he⟩
    · simp only [entryTiles, hc, if_false, ne_eq, not_true_eq_false, decide_False,
        Bool.false_eq_true, false_iff]
      rintro ⟨tile1, ht⟩
      rw [(hiff _ _ _).2 ht] at he
      exact hc (Prod.mk.inj (Option.some.inj he)).1.symm

theorem eq_of_append_underscore :
    ∀ (r a v b : GoString), byte '_' ∉ a → byte '_' ∉ b →
      r ++ byte '_' :: v = a ++ byte '_' :: b → r = a ∧ v = b
  | [], [], v, b, _, _, h => by
    simp only [List.nil_append, List.cons.injEq, true_and] at h
    exact ⟨rfl, h⟩
  | [], y :: a, v, b, ha, _, h => by
    simp only [List.nil_append, List.cons_append, List.cons.injEq] at h
    exact absurd (by rw [h.1]; exact List.mem_cons_self _ _) ha
  | x :: r, [], v, b, _, hb, h => by
    simp only [List.nil_append, List.cons_append, List.cons.injEq] at h
    exact absurd (by rw [← h.2]; simp) hb
  | x :: r, y :: a, v, b, ha, hb, h => by
    simp only [List.cons_append, List.cons.injEq] at h
    obtain ⟨h1, h2⟩ := eq_of_append_underscore r a v b
      (fun hm => ha (List.mem_cons_of_mem _ hm)) hb h.2
    exact ⟨by rw [h.1, h1], h2⟩

theorem underscore_not_mem_of_digits (pre digits : GoString) (hpre : byte '_' ∉ pre)
    (h : ∀ b ∈ digits, isDigit b = true) : byte '_' ∉ pre ++ digits := by
  intro hm
  rcases List.mem_append.1 hm with h1 | h1
  · exact hpre h1
  · have := h _ h1
    revert this
    decide

/-- A preference name `r` and a value `v` with `r + "_" + v` of the form
`card<D1>_gt<D2>` are `card<D1>` and `gt<D2>`. -/
theorem preference_text_iff (r value card : GoString) (tile : Int) :
    CardTileText (r ++ goStr "_" ++ value) card tile ↔
      ∃ digits1 digits2 : GoString, IsDecimal digits1 ∧ IsDecimal digits2 ∧
        r = goStr "card" ++ digits1 ∧ value = goStr "gt" ++ digits2 ∧ card = r ∧
        tile = ((min (decimalValue digits2) maxInt : Nat) : Int) := by
  have hu : ∀ x : GoString, goStr "_" ++ x = byte '_' :: x := fun _ => rfl
  have hgt : ∀ x : GoString, goStr "_gt" ++ x = byte '_' :: (goStr "gt" ++ x) := fun _ => rfl
  constructor
  · rintro ⟨d1, d2, h1, h2, htext, hcard, htile⟩
    rw [List.append_assoc, List.append_assoc, hu, hgt] at htext
    obtain ⟨hr, hv⟩ := eq_of_append_underscore r (goStr "card" ++ d1) value (goStr "gt" ++ d2)
      (underscore_not_mem_of_digits _ _ (by decide) h1.2)
      (underscore_not_mem_of_digits _ _ (by decide) h2.2) htext
    exact ⟨d1, d2, h1, h2, hr, hv, by rw [hcard, hr], htile⟩
  · rintro ⟨d1, d2, h1, h2, hr, hv, hcard, htile⟩
    refine ⟨d1, d2, h1, h2, ?_, by rw [hcard, hr], htile⟩
    rw [hr, hv, List.append_assoc, List.append_assoc, hu, List.append_assoc,
      List.append_assoc, hgt]

theorem matchesCardTile_iff (text : GoString) :
    MatchesCardTile text ↔ ∃ card tile, CardTileText text card tile := by
  constructor
  · rintro ⟨d1, d2, hn1, hn2, hd1, hd2, htext⟩
    exact ⟨_, _, d1, d2, ⟨hn1, hd1⟩, ⟨hn2, hd2⟩, htext, rfl, rfl⟩
  · rintro ⟨_, _, d1, d2, h1, h2, htext, _, _⟩
    exact ⟨d1, d2, h1.1, h2.1, h1.2, h2.2, htext⟩

/-! ## Lemmas on the preferred mapping -/

theorem preferredEntry_iff (c : LabelConsts) (card label value : GoString) (tile : Int) :
    preferredEntry c label value = some (card, tile) ↔
      PreferenceEntry c card label value tile := by
  unfold preferredEntry PreferenceEntry PreferenceLabel
  constructor
  · intro h
    split_ifs at h with hc
    have hname := eq_append_trimPrefix _ _ hc.2.2.2.2
    have htext := (extractCardAndTile_iff _ _ _).1 h
    obtain ⟨d1, d2, h1, h2, hr, hv, hcard, htile⟩ :=
      (preference_text_iff _ value card tile).1 htext
    exact ⟨⟨⟨hc.1, hc.2.1⟩, hc.2.2.1, hc.2.2.2.1, hc.2.2.2.2⟩, _, d2, hname,
      (matchesCardTile_iff _).2 ⟨card, tile, htext⟩, hcard, h2, hv, htile⟩
  · rintro ⟨⟨⟨h1, h2⟩, hd, hs, hp⟩, r, digits, hname, hmatch, hcard, hdec, hv, htile⟩
    obtain ⟨_, ht⟩ := trimPrefix_of_eq_append _ _ _ hname
    rw [if_pos ⟨h1, h2, hd, hs, hp⟩, ht]
    obtain ⟨card1, tile1, htext⟩ := (matchesCardTile_iff _).1 hmatch
    obtain ⟨d1, d2, hd1, _, hr, hv2, _, _⟩ := (preference_text_iff r value card1 tile1).1 htext
    exact (extractCardAndTile_iff _ _ _).2
      ((preference_text_iff r value card tile).2 ⟨d1, digits, hd1, hdec, hr, hv, hcard, htile⟩)

/-- A label recognized as a tile-preference label, with a name `r` after the
sub-prefix, has an entry under `r` exactly when `r + "_" + value` matches. -/
theorem exists_preferenceEntry_iff (c : LabelConsts) (label value r : GoString)
    (hlabel : PreferenceLabel c label) (hname : labelName label = c.tilePrefLabelPrefix ++ r) :
    (∃ tile, PreferenceEntry c r label value tile) ↔
      MatchesCardTile (r ++ goStr "_" ++ value) := by
  constructor
  · rintro ⟨tile, _, r1, digits, hname1, hmatch, hcard, _⟩
    rw [hcard]
    exact hmatch
  · intro hmatch
    obtain ⟨card1, tile1, htext⟩ := (matchesCardTile_iff _).1 hmatch
    obtain ⟨d1, d2, _, hd2, _, hv, _, _⟩ := (preference_text_iff r value card1 tile1).1 htext
    exact ⟨_, hlabel, r, d2, hname, hmatch, rfl, hd2, hv, rfl⟩

theorem matches_preference_text_iff (r value : GoString) :
    MatchesCardTile (r ++ goStr "_" ++ value) ↔
      ∃ digits1 digits2 : GoString, IsDecimal digits1 ∧ IsDecimal digits2 ∧
        r = goStr "card" ++ digits1 ∧ value = goStr "gt" ++ digits2 := by
  rw [matchesCardTile_iff]
  constructor
  · rintro ⟨card, tile, h⟩
    obtain ⟨d1, d2, h1, h2, hr, hv, _, _⟩ := (preference_text_iff r value card tile).1 h
    exact ⟨d1, d2, h1, h2, hr, hv⟩
  · rintro ⟨d1, d2, h1, h2, hr, hv⟩
    exact ⟨r, _, (preference_text_iff r value r _).2 ⟨d1, d2, h1, h2, hr, hv, rfl, rfl⟩⟩

theorem no_other_entry_of_preferenceLabel (c : LabelConsts) (label : GoString)
    (h : PreferenceLabel c label) :
    disabledEntry c label = none ∧ deschedEntry c label = none := by
  obtain ⟨_, hd, hs, _⟩ := h
  constructor
  · simp [disabledEntry, hd]
  · simp [deschedEntry, hs]

/-- Labels that bring no entry to the disabled and descheduled mappings can be
left out without changing these two mappings. -/
theorem tileMappingLoop_filter_first_two (c : LabelConsts)
    (keep : GoString × GoString → Bool) :
    ∀ (labels : List (GoString × GoString)) (acc acc1 : TilesMap × TilesMap × TilesMap),
      acc.1 = acc1.1 → acc.2.1 = acc1.2.1 →
      (∀ lv ∈ labels, keep lv = false →
        disabledEntry c lv.1 = none ∧ deschedEntry c lv.1 = none) →
      (tileMappingLoop c (labels.filter keep) acc).1 = (tileMappingLoop c labels acc1).1 ∧
      (tileMappingLoop c (labels.filter keep) acc).2.1 = (tileMappingLoop c labels acc1).2.1
  | [], acc, acc1, h1, h2, _ => ⟨h1, h2⟩
  | (label, value) :: rest, acc, acc1, h1, h2, h => by
    have hrest : ∀ lv ∈ rest, keep lv = false →
        disabledEntry c lv.1 = none ∧ deschedEntry c lv.1 = none :=
      fun lv hlv => h lv (List.mem_cons_of_mem _ hlv)
    by_cases hk : keep (label, value) = true
    · rw [List.filter_cons_of_pos hk, tileMappingLoop, tileMappingLoop]
      apply tileMappingLoop_filter_first_two c keep rest _ _ _ _ hrest
      · rw [tileMappingStep_eq, tileMappingStep_eq, h1]
      · rw [tileMappingStep_eq, tileMappingStep_eq, h2]
    · have hk2 : keep (label, value) = false := by simpa using hk
      obtain ⟨e1, e2⟩ := h (label, value) (List.mem_cons_self _ _) hk2
      rw [List.filter_cons_of_neg hk, tileMappingLoop]
      apply tileMappingLoop_filter_first_two c keep rest _ _ _ _ hrest
      · rw [tileMappingStep_eq, e1, h1]
        rfl
      · rw [tileMappingStep_eq, e2, h2]
        rfl

theorem exists_pair_entry_iff (entry : GoString × GoString → Option (GoString × Int))
    (E : GoString → GoString × GoString → Int → Prop)
    (hiff : ∀ lv card1 tile, entry lv = some (card1, tile) ↔ E card1 lv tile)
    (card : GoString) (lv : GoString × GoString) :
    decide (entryTiles card (entry lv) ≠ []) = true ↔ ∃ tile, E card lv tile := by
  cases he : entry lv with
  | none =>
    simp only [entryTiles, ne_eq, not_true_eq_false, decide_False, Bool.false_eq_true,
      false_iff]
    rintro ⟨tile, ht⟩
    rw [(hiff _ _ _).2 ht] at he
    cases he
  | some p =>
    obtain ⟨card1, tile⟩ := p
    by_cases hc : card1 = card
    · subst hc
      simp only [entryTiles, if_true, ne_eq, List.cons_ne_nil, not_false_eq_true, decide_True,
        true_iff]
      exact ⟨tile, (hiff _ _ _).1 he⟩
    · simp only [entryTiles, hc, if_false, ne_eq, not_true_eq_false, decide_False,
        Bool.false_eq_true, false_iff]
      rintro ⟨tile1, ht⟩
      rw [(hiff _ _ _).2 ht] at he
      exact hc (Prod.mk.inj (Option.some.inj he)).1.symm

theorem forall₂_of_pair_entry_iff (entry : GoString × GoString → Option (GoString × Int))
    (E : GoString → GoString × GoString → Int → Prop) (card : GoString)
    (hiff : ∀ lv card1 tile, entry lv = some (card1, tile) ↔ E card1 lv tile)
    (labels : List (GoString × GoString)) (keep : GoString × GoString → Bool)
    (hkeep : ∀ lv ∈ labels, keep lv = true ↔ ∃ tile, E card lv tile) :
    List.Forall₂ (fun lv tile => E card lv tile) (labels.filter keep)
      (labels.flatMap (fun lv => entryTiles card (entry lv))) := by
  apply forall₂_filter_flatMap
  · intro lv hlv hk
    obtain ⟨tile, ht⟩ := (hkeep lv hlv).1 hk
    refine ⟨tile, ?_, ht⟩
    rw [(hiff _ _ _).2 ht]
    simp [entryTiles]
  · intro lv hlv hk
    cases he : entry lv with
    | none => rfl
    | some p =>
      obtain ⟨card1, tile⟩ := p
      by_cases hc : card1 = card
      · subst hc
        have := (hkeep lv hlv).2 ⟨tile, (hiff _ _ _).1 he⟩
        rw [hk] at this
        cases this
      · simp [entryTiles, hc]

/-! # Properties of `reorderPreferredTilesFirst` and of the annotation decoder -/

/-- C1 (failing input): on the annotation `c0:gt0` the clause splits into two
parts at the colon, the part before it has only two bytes, and the slice
expression `cardTileSplit[0][len("card"):]` is out of range: the function
panics instead of skipping the clause. -/
theorem convert_short_card_part_panics :
    convertPodTileAnnotationToCardTileMap (goStr "c0:gt0") = none := by
  decide

/-- C2 (as stated, refuted): on tiles `[3,1,2,0]` and preferred `[2,0]` the
function does not return `[2,0,1,3]`. -/
theorem reorder_example_not_as_stated :
    reorderPreferredTilesFirst [3, 1, 2, 0] [2, 0] ≠ some [2, 0, 1, 3] := by
  decide

/-- C2 (amended): on tiles `[3,1,2,0]` and preferred `[2,0]` the function
returns `[2,0,3,1]`: each preferred tile is exchanged with the tile at the
cursor, so `3` goes to where `2` was and `1` to where `0` was. -/
theorem reorder_example :
    reorderPreferredTilesFirst [3, 1, 2, 0] [2, 0] = some [2, 0, 3, 1] := by
  decide

/-- C4 (failing input): on tiles `[1,2,3]` and preferred `[1,1,3]` the
preferred values that occur in `tiles`, each once in order of first occurrence,
are `1` then `3`, but the result is `[1,2,3]`, which does not begin with them:
the second `1` is found before the cursor, nothing is exchanged, and the cursor
advances all the same, so `3` is later taken to be in place behind `2`. -/
theorem reorder_repeated_preferred_not_in_front :
    ∃ r, reorderPreferredTilesFirst [1, 2, 3] [1, 1, 3] = some r ∧
      ¬ (firstOccurrences ([1, 1, 3].filter (fun p => p ∈ [1, 2, 3])) <+: r) :=
  ⟨[1, 2, 3], by decide, by decide⟩

/-- Where the defect on repeated preferred values does not show: for every
`tiles` (repeats allowed) and every `preferred` whose values that occur in
`tiles` are pairwise different, the function returns a list that begins with the
values of `preferred` that occur in `tiles`, in the order of `preferred`. -/
theorem reorder_preferred_in_front (tiles preferred : List Int)
    (hnd : (preferred.filter (fun p => p ∈ tiles)).Nodup) :
    ∃ r, reorderPreferredTilesFirst tiles preferred = some r ∧
      preferred.filter (fun p => p ∈ tiles) <+: r := by
  obtain ⟨r, hr, htake⟩ := reorderLoop_front preferred tiles 0 hnd (by simp)
  refine ⟨r, hr, ?_⟩
  simp only [List.take_zero, List.nil_append, Nat.zero_add, Nat.cast_zero] at htake
  rw [← htake]
  exact List.take_prefix _ _

/-- Witness of `reorder_preferred_in_front`: tiles `[3,1,2,0]`, preferred
`[2,5,0]`. -/
theorem reorder_preferred_in_front_witness :
    ([2, 5, 0].filter (fun p => p ∈ [3, 1, 2, 0])).Nodup ∧
      ∃ r, reorderPreferredTilesFirst [3, 1, 2, 0] [2, 5, 0] = some r ∧
        [2, 5, 0].filter (fun p => p ∈ [3, 1, 2, 0]) <+: r :=
  ⟨by decide, reorder_preferred_in_front [3, 1, 2, 0] [2, 5, 0] (by decide)⟩

/-- C5: when no element of `preferred` occurs in `tiles` (in particular when
either list is empty), the function returns `tiles` unchanged. -/
theorem reorder_none_available (tiles preferred : List Int)
    (h : ∀ p ∈ preferred, p ∉ tiles) :
    reorderPreferredTilesFirst tiles preferred = some tiles :=
  reorderLoop_none_available preferred tiles 0 h

/-- Witness of `reorder_none_available`: tiles `[0,1,2,3]`, preferred `[7,5]`. -/
theorem reorder_none_available_witness :
    (∀ p ∈ [7, 5], p ∉ [0, 1, 2, 3]) ∧
      reorderPreferredTilesFirst [0, 1, 2, 3] [7, 5] = some [0, 1, 2, 3] :=
  ⟨by decide, reorder_none_available [0, 1, 2, 3] [7, 5] (by decide)⟩

/-! # Properties of `sanitizeTiles` and `combineMappings` -/

/-- C7: for every tile-state mapping `m` and every `tilesPerGpu`, the sanitized
mapping has exactly the card keys of `m`; under each card it holds the list of
`m` with precisely the indices `>= tilesPerGpu` removed, the others in their
original order; so every surviving index is below `tilesPerGpu`, and a card
whose tiles are all out of range is kept with the empty list. -/
theorem sanitizeTiles_spec (m : TilesMap) (tilesPerGpu : Int) (hm : WellFormed m) :
    (∀ card, card ∈ mapKeys (sanitizeTiles m tilesPerGpu) ↔ card ∈ mapKeys m) ∧
    (∀ card, mapGet (sanitizeTiles m tilesPerGpu) card =
      (mapGet m card).map (fun tiles => tiles.filter (fun tile => tile < tilesPerGpu))) ∧
    (∀ card tiles, mapGet (sanitizeTiles m tilesPerGpu) card = some tiles →
      ∀ tile ∈ tiles, tile < tilesPerGpu) ∧
    (∀ card tiles, mapGet m card = some tiles → (∀ tile ∈ tiles, tilesPerGpu ≤ tile) →
      mapGet (sanitizeTiles m tilesPerGpu) card = some []) := by
  have hget : ∀ card, mapGet (sanitizeTiles m tilesPerGpu) card =
      (mapGet m card).map (fun tiles => tiles.filter (fun tile => tile < tilesPerGpu)) := by
    intro card
    rw [sanitizeTiles, mapGet_sanitizeLoop tilesPerGpu m [] card hm]
    cases mapGet m card <;> simp [mapGet]
  refine ⟨?_, hget, ?_, ?_⟩
  · intro card
    rw [mem_mapKeys_iff, mem_mapKeys_iff, hget]
    cases mapGet m card <;> simp
  · intro card tiles h tile htile
    rw [hget] at h
    cases hc : mapGet m card with
    | none => simp [hc] at h
    | some l =>
      simp only [hc, Option.map_some', Option.some.injEq] at h
      subst h
      simpa using (List.mem_filter.1 htile).2
  · intro card tiles h hall
    rw [hget, h]
    simp only [Option.map_some', Option.some.injEq, List.filter_eq_nil_iff]
    intro tile htile
    simpa using hall tile htile

/-- Witness of `sanitizeTiles_spec`: `card0 ↦ [0,1,9]` with `tilesPerGpu = 8`
gives `card0 ↦ [0,1]`. -/
theorem sanitizeTiles_spec_witness :
    sanitizeTiles [(goStr "card0", [0, 1, 9])] 8 = [(goStr "card0", [0, 1])] ∧
    mapGet (sanitizeTiles [(goStr "card0", [0, 1, 9])] 8) (goStr "card0") =
      (mapGet [(goStr "card0", [0, 1, 9])] (goStr "card0")).map
        (fun tiles => tiles.filter (fun tile => tile < 8)) :=
  ⟨by decide,
   (sanitizeTiles_spec [(goStr "card0", [0, 1, 9])] 8 (by decide)).2.1 (goStr "card0")⟩

/-- C8 (as stated, refuted): two distinct maps whose lists share an array. With
`source = a ↦ arr[0:2]` and `dest = a ↦ arr[0:1]` over `arr = [1, 2, 0]`, the
append writes `1, 2` into `arr[1:3]`: the call returns with `dest[a] = [1, 1, 2]`
and the list of `source` changed from `[1, 2]` to `[1, 1]`. With `dest` holding
`a ↦ arr[0:1]` and `b ↦ arr[1:2]` over `arr = [5, 6]` and `source = a ↦ [7]`,
the list under `b`, not a key of `source`, changes from `[6]` to `[7]`. And a
nil `dest` with a `source` that has an entry panics. All three whatever
capacity the run time would choose for a new array. -/
theorem combineMappings_shared_storage :
    ((∀ newCap : Nat → Nat → Nat,
        combineMappings newCap sharedHeap sharedSource (some sharedDest) =
          some ([[1, 1, 2]], some [(goStr "a", { arr := 0, off := 0, len := 3, cap := 3 })])) ∧
      tilesAt sharedHeap sharedSource (goStr "a") = [1, 2] ∧
      tilesAt [[1, 1, 2]] sharedSource (goStr "a") = [1, 1]) ∧
    ((∀ newCap : Nat → Nat → Nat,
        combineMappings newCap sharedDestHeap sharedDestSource (some sharedDestDest) =
          some ([[5, 7], [7]], some [(goStr "a", { arr := 0, off := 0, len := 2, cap := 2 }),
            (goStr "b", { arr := 0, off := 1, len := 1, cap := 1 })])) ∧
      mapGet sharedDestSource (goStr "b") = none ∧
      tilesAt sharedDestHeap sharedDestDest (goStr "b") = [6] ∧
      tilesAt [[5, 7], [7]] sharedDestDest (goStr "b") = [7]) ∧
    (∀ newCap : Nat → Nat → Nat,
      combineMappings newCap sampleHeap sampleSource none = none) :=
  ⟨⟨fun _ => rfl, by decide, by decide⟩, ⟨fun _ => rfl, by decide, by decide, by decide⟩,
    fun _ => rfl⟩

/-- C8 (amended): for every pair of distinct maps `source` and `dest` (`dest`
not nil) such that the appends write into no other list (`AppendsApart`: the
cells written in place behind a list of `dest` are not elements of a list of
`source` or of another list of `dest`, nor cells of another append; so whenever
no two lists share an array), `combineMappings(source, dest)` returns, and after
it: for every card key `k` of `source`, `dest[k]` is the old `dest[k]` (empty if
`k` was absent) followed by `source[k]`, with no deduplication; every key of
`dest` that is not a key of `source` keeps its old list, and no other key is
added; and the lists of `source` are unchanged. -/
theorem combineMappings_spec (newCap : Nat → Nat → Nat) (h : Heap)
    (source dest : GoMap Slice) (hap : AppendsApart h source dest) :
    ∃ h1 dest1, combineMappings newCap h source (some dest) = some (h1, some dest1) ∧
      (∀ card t, mapGet source card = some t →
        (mapGet dest1 card).map (sliceContent h1) =
          some (tilesAt h dest card ++ sliceContent h t)) ∧
      (∀ card, mapGet source card = none →
        (mapGet dest1 card).map (sliceContent h1) = (mapGet dest card).map (sliceContent h)) ∧
      contentsOf h1 source = contentsOf h source := by
  obtain ⟨h1, dest1, hrun, hdest, hsrc⟩ := combineMappings_storage newCap h source dest hap
  refine ⟨h1, dest1, hrun, ?_, ?_, ?_⟩
  · intro card t ht
    rw [hdest card, ht]
  · intro card hn
    rw [hdest card, hn]
  · exact List.map_congr_left (fun e he => by rw [hsrc e he])

/-- Witness of `combineMappings_spec`: combining `a ↦ [1]` into `a ↦ [2]`, two
lists in arrays of their own, leaves `dest = a ↦ [2, 1]` and `source = a ↦ [1]`. -/
theorem combineMappings_spec_witness :
    AppendsApart sampleHeap sampleSource sampleDest ∧
    combineMappings sampleNewCap sampleHeap sampleSource (some sampleDest) =
      some ([[1], [2], [2, 1, 0, 0]],
        some [(goStr "a", { arr := 2, off := 0, len := 2, cap := 4 })]) ∧
    contentsOf [[1], [2], [2, 1, 0, 0]]
      [(goStr "a", { arr := 2, off := 0, len := 2, cap := 4 })] = [(goStr "a", [2, 1])] ∧
    contentsOf [[1], [2], [2, 1, 0, 0]] sampleSource = [(goStr "a", [1])] ∧
    ∃ h1 dest1, combineMappings sampleNewCap sampleHeap sampleSource (some sampleDest) =
        some (h1, some dest1) ∧
      (∀ card t, mapGet sampleSource card = some t →
        (mapGet dest1 card).map (sliceContent h1) =
          some (tilesAt sampleHeap sampleDest card ++ sliceContent sampleHeap t)) ∧
      (∀ card, mapGet sampleSource card = none →
        (mapGet dest1 card).map (sliceContent h1) =
          (mapGet sampleDest card).map (sliceContent sampleHeap)) ∧
      contentsOf h1 sampleSource = contentsOf sampleHeap sampleSource :=
  ⟨by decide, by decide, by decide, by decide,
    combineMappings_spec sampleNewCap sampleHeap sampleSource sampleDest (by decide)⟩

/-- C10: labels that do not qualify contribute nothing. For every label map,
visited in any order, removing labels that (i) are outside the namespace (no
`tasNSPrefix`, or not exactly `maxLabelParts` segments), (ii) are recognized as
tile-disable or tile-deschedule names with a remainder that does not match
`^card([0-9]+)_gt([0-9]+)$`, or (iii) have no recognized sub-prefix, whichever
of them `keep` drops (all of them, or some), leaves the three mappings returned
by `createTileMapping` the same; and a label map with only such labels yields
three empty mappings. -/
theorem createTileMapping_ignores_non_qualifying (c : LabelConsts)
    (labels : GoMap GoString) (keep : GoString × GoString → Bool)
    (h : ∀ lv ∈ labels, keep lv = false → NonQualifying c lv.1) :
    createTileMapping c (labels.filter keep) = createTileMapping c labels ∧
    ((∀ lv ∈ labels, NonQualifying c lv.1) → createTileMapping c labels = ([], [], [])) := by
  refine ⟨tileMappingLoop_filter c keep labels _ h, ?_⟩
  intro hall
  have hnone := tileMappingLoop_filter c (fun _ => false) labels ([], [], [])
    (fun lv hlv _ => hall lv hlv)
  simp only [List.filter_false] at hnone
  exact hnone.symm

/-- Witness of `createTileMapping_ignores_non_qualifying`: on the sample label
map, keeping only the tile-disable label gives the same mappings as the whole
map, namely `card0 ↦ [3]` disabled and nothing else. -/
theorem createTileMapping_ignores_non_qualifying_witness :
    createTileMapping sampleConsts sampleLabels = ([(goStr "card0", [3])], [], []) ∧
    createTileMapping sampleConsts (sampleLabels.filter (fun lv => decide
        (lv.1 = goStr "telemetry.aware.scheduling.policy/tile-disable-card0_gt3"))) =
      createTileMapping sampleConsts sampleLabels :=
  ⟨by decide,
   (createTileMapping_ignores_non_qualifying sampleConsts sampleLabels
      (fun lv => decide
        (lv.1 = goStr "telemetry.aware.scheduling.policy/tile-disable-card0_gt3"))
      (by
        intro lv hlv hk
        simp only [sampleLabels, List.mem_cons, List.mem_singleton, List.not_mem_nil,
          or_false] at hlv
        rcases hlv with rfl | rfl | rfl
        · exact Or.inl (Or.inl (by decide))
        · exact absurd hk (by decide)
        · exact Or.inr (Or.inr ⟨by decide, by decide, by decide⟩))).1⟩

/-! # The annotation round trip -/

/-- C6 (as stated, refuted): the pair card 32768, tile 0, rendered by the
grammar as `card32768:gt0`, decodes to the empty set: the key `32768.0` is
missing, because the card index does not parse as a 16-bit integer. -/
theorem roundtrip_fails_above_int16 :
    ∃ m, convertPodTileAnnotationToCardTileMap
        (renderAnnotationString [[(32768, [0])]]) = some m ∧
      ¬ (∀ k, k ∈ mapKeys m ↔ k ∈ annotationKeys [[(32768, [0])]]) :=
  ⟨[], by decide, fun h => by
    have hk := (h (goStr "32768.0")).2 (by decide)
    simp [mapKeys] at hk⟩

/-- C6 (amended): for every annotation rendered by the grammar from (card index,
tile index) pairs whose indices are all between 0 and 32767 (pairs may repeat,
within or across containers), the decoder returns, and what it returns has
exactly the keys `cardIndex + "." + tileIndex` of those pairs, each mapped to
`true`. The statement also covers the degenerate texts with no container, a
container with no clause, or a clause with no tile. -/
theorem convert_roundtrip (containers : List (List (Nat × List Nat)))
    (h : ∀ cts ∈ containers, ∀ ct ∈ cts, ct.1 < 2 ^ 15 ∧ ∀ t ∈ ct.2, t < 2 ^ 15) :
    ∃ m, convertPodTileAnnotationToCardTileMap (renderAnnotationString containers) = some m ∧
      (∀ k, k ∈ mapKeys m ↔ k ∈ annotationKeys containers) ∧
      (∀ k, k ∈ annotationKeys containers → mapGet m k = some true) := by
  obtain ⟨m, hm, hk⟩ := convert_rendered containers h
  refine ⟨m, hm, ?_, ?_⟩
  · intro k
    rw [mem_mapKeys_iff, hk k]
    by_cases hmem : k ∈ annotationKeys containers <;> simp [hmem]
  · intro k hmem
    rw [hk k, if_pos hmem]

/-- Witness of `convert_roundtrip`: the pairs (0,0), (0,1), (1,2) in a first
container and (0,0) again in a second one render as
`card0:gt0+gt1,card1:gt2|card0:gt0`, which decodes to the three keys `0.0`,
`0.1`, `1.2`. -/
theorem convert_roundtrip_witness :
    renderAnnotationString [[(0, [0, 1]), (1, [2])], [(0, [0])]] =
      goStr "card0:gt0+gt1,card1:gt2|card0:gt0" ∧
    convertPodTileAnnotationToCardTileMap (goStr "card0:gt0+gt1,card1:gt2|card0:gt0") =
      some [(goStr "0.0", true), (goStr "0.1", true), (goStr "1.2", true)] ∧
    ∃ m, convertPodTileAnnotationToCardTileMap
        (renderAnnotationString [[(0, [0, 1]), (1, [2])], [(0, [0])]]) = some m ∧
      (∀ k, k ∈ mapKeys m ↔ k ∈ annotationKeys [[(0, [0, 1]), (1, [2])], [(0, [0])]]) ∧
      (∀ k, k ∈ annotationKeys [[(0, [0, 1]), (1, [2])], [(0, [0])]] →
        mapGet m k = some true) :=
  ⟨by decide, by decide,
   convert_roundtrip [[(0, [0, 1]), (1, [2])], [(0, [0])]] (by decide)⟩

/-! # Further properties: permutation, completed pods, combined mappings -/

/-- C19: for all `tiles` and `preferred` (repeats allowed in both) the
function returns without an index out of bounds, and what it returns is a
permutation of `tiles`: the same length, and every tile with the same
multiplicity. -/
theorem reorder_is_permutation (tiles preferred : List Int) :
    ∃ r, reorderPreferredTilesFirst tiles preferred = some r ∧
      r.Perm tiles ∧ r.length = tiles.length ∧ ∀ t, r.count t = tiles.count t := by
  obtain ⟨r, hr, hperm⟩ := reorderLoop_perm preferred tiles 0
  exact ⟨r, hr, hperm, hperm.length_eq, fun t => hperm.count_eq t⟩

/-- C18: a pod is completed exactly when it has a deletion timestamp or its
phase is `Failed` or `Succeeded`; with a deletion timestamp the phase does not
matter, and without one every other phase (`Pending`, `Running`, `Unknown` or
anything else) gives `false`. -/
theorem isCompletedPod_iff (pod : Pod) :
    isCompletedPod pod = true ↔
      pod.deletionTimestamp ≠ none ∨ pod.phase = podFailed ∨ pod.phase = podSucceeded := by
  unfold isCompletedPod
  by_cases h1 : pod.deletionTimestamp ≠ none
  · simp [h1]
  · by_cases h2 : pod.phase = podFailed
    · simp [h1, h2]
    · by_cases h3 : pod.phase = podSucceeded
      · simp [h1, h2, h3]
      · simp only [h1, h2, h3, if_false, or_self, iff_false]
        split_ifs <;> simp

/-- C17 (as stated, refuted): with a tile-disable label and a tile-preference
label for `card0`, the combined disabled mapping and the preferred mapping
returned by `createDisabledAndPreferredTileMapping` both have the key `card0`. -/
theorem combined_mappings_share_a_card :
    goStr "card0" ∈ mapKeys
        (createDisabledAndPreferredTileMapping sampleConsts sampleSharedCardLabels).1 ∧
    goStr "card0" ∈ mapKeys
        (createDisabledAndPreferredTileMapping sampleConsts sampleSharedCardLabels).2 := by
  decide

/-- C17 (amended): for every label map, `createDisabledAndPreferredTileMapping`
returns the preferred mapping of `createTileMapping` as it is, and a disabled
mapping that holds under every card the disabled tiles followed by the
descheduled tiles, its keys being the cards of either; nothing keeps a card of
the preferred mapping out of the disabled one. -/
theorem createDisabledAndPreferredTileMapping_spec (c : LabelConsts)
    (labels : GoMap GoString) :
    (createDisabledAndPreferredTileMapping c labels).2 = (createTileMapping c labels).2.2 ∧
    (∀ card, tilesOf (createDisabledAndPreferredTileMapping c labels).1 card =
      tilesOf (createTileMapping c labels).1 card ++
        tilesOf (createTileMapping c labels).2.1 card) ∧
    (∀ card, card ∈ mapKeys (createDisabledAndPreferredTileMapping c labels).1 ↔
      card ∈ mapKeys (createTileMapping c labels).1 ∨
        card ∈ mapKeys (createTileMapping c labels).2.1) := by
  have hwf := (wellFormed_createTileMapping c labels).2.1
  have hget : ∀ card, mapGet (createDisabledAndPreferredTileMapping c labels).1 card =
      match mapGet (createTileMapping c labels).2.1 card with
      | some tiles => some (tilesOf (createTileMapping c labels).1 card ++ tiles)
      | none => mapGet (createTileMapping c labels).1 card := fun card =>
    mapGet_combineLoop _ _ card hwf
  refine ⟨rfl, ?_, ?_⟩
  · intro card
    simp only [tilesOf, hget card]
    cases mapGet (createTileMapping c labels).2.1 card <;> simp
  · intro card
    rw [mem_mapKeys_iff, mem_mapKeys_iff, mem_mapKeys_iff, hget card]
    cases mapGet (createTileMapping c labels).2.1 card <;> simp

/-! # The form of the annotation keys -/

/-- C20 (as stated, refuted): the annotation `card-1:gt-2` decodes to the one
key `-1.-2`, which is not of the form digits, dot, digits; and `card+1:gt0`
decodes to the key `+1.0`. The card index is accepted with either sign, the
tile index with a minus sign. -/
theorem convert_key_with_sign :
    convertPodTileAnnotationToCardTileMap (goStr "card-1:gt-2") =
      some [(goStr "-1.-2", true)] ∧
    (¬ ∃ a b : GoString,
      goStr "-1.-2" = a ++ goStr "." ++ b ∧ IsDecimal a ∧ IsDecimal b) ∧
    convertPodTileAnnotationToCardTileMap (goStr "card+1:gt0") =
      some [(goStr "+1.0", true)] := by
  refine ⟨by decide, ?_, by decide⟩
  rintro ⟨a, b, heq, ⟨hne, hdig⟩, _⟩
  cases a with
  | nil => exact hne rfl
  | cons x rest =>
    have hx : x = byte '-' := by
      have h1 : goStr "-1.-2" = byte '-' :: goStr "1.-2" := by decide
      rw [h1, List.cons_append, List.cons_append] at heq
      exact (List.cons.inj heq).1.symm
    have hd := hdig x (List.mem_cons_self _ _)
    rw [hx] at hd
    revert hd
    decide

/-- C20 (amended): for every input on which the decoder returns, every key of
the returned set has the form `cardIndex + "." + tileIndex` where `cardIndex` is
an optional sign (`+` or `-`) followed by a non-empty run of decimal digits and
`tileIndex` is an optional `-` followed by a non-empty run of decimal digits (a
tile index never has a `+`, which separates the tiles). -/
theorem convert_keys_form (s : GoString) (m : GoMap Bool)
    (h : convertPodTileAnnotationToCardTileMap s = some m) :
    ∀ k ∈ mapKeys m, ∃ a b : GoString,
      k = a ++ goStr "." ++ b ∧ IsSignedDecimal a ∧ IsMinusDecimal b := by
  refine containerLoop_keys
    (fun k => ∃ a b : GoString, k = a ++ goStr "." ++ b ∧ IsSignedDecimal a ∧ IsMinusDecimal b)
    (fun a b ha hplus hb =>
      ⟨a, b, rfl, parseInt_ok_signed a _ ha, parseInt_ok_minus b _ hb hplus⟩)
    _ [] m h ?_
  intro k hk
  simp [mapKeys] at hk

/-- Witness of `convert_keys_form`: the keys decoded from
`card0:gt0+gt1,card+1:gt-2`. -/
theorem convert_keys_form_witness :
    convertPodTileAnnotationToCardTileMap (goStr "card0:gt0+gt1,card+1:gt-2") =
      some [(goStr "0.0", true), (goStr "0.1", true), (goStr "+1.-2", true)] ∧
    ∀ k ∈ mapKeys [(goStr "0.0", true), (goStr "0.1", true), (goStr "+1.-2", true)],
      ∃ a b : GoString, k = a ++ goStr "." ++ b ∧ IsSignedDecimal a ∧ IsMinusDecimal b :=
  ⟨by decide,
   convert_keys_form (goStr "card0:gt0+gt1,card+1:gt-2")
     [(goStr "0.0", true), (goStr "0.1", true), (goStr "+1.-2", true)] (by decide)⟩

/-! # Properties of `containerRequests` -/

/-- C16: for every pod and every set of flagged container names, the same-GPU
index returned by `containerRequests` holds position `i` (with the value
`true`) exactly when the pod has an `i`-th container and its name is flagged;
every other position is absent; the index has as many entries as the pod has
containers with flagged names; and the second result is one resource map per
container, in declaration order. -/
theorem containerRequests_spec (gpuPrefix : GoString) (pod : Pod) (names : GoMap Bool) :
    (∀ i, indexGet (containerRequests gpuPrefix pod names).1 i = some true ↔
      ∃ c, pod.containers[i]? = some c ∧ isFlagged names c.name = true) ∧
    (∀ i, indexGet (containerRequests gpuPrefix pod names).1 i = none ↔
      ¬ ∃ c, pod.containers[i]? = some c ∧ isFlagged names c.name = true) ∧
    (containerRequests gpuPrefix pod names).1.length =
      (pod.containers.filter (fun c => isFlagged names c.name)).length ∧
    (containerRequests gpuPrefix pod names).2.length = pod.containers.length ∧
    (containerRequests gpuPrefix pod names).2 =
      pod.containers.map (fun c => requestsLoop gpuPrefix c.requests []) := by
  obtain ⟨h1, h2, h3⟩ := containersLoop_spec gpuPrefix names pod.containers 0 [] []
    (fun _ _ => rfl)
  have hget : ∀ i, indexGet (containerRequests gpuPrefix pod names).1 i =
      if ((pod.containers[i]?).map (fun c => isFlagged names c.name)).getD false = true
      then some true else none := by
    intro i
    have := h2 i
    simpa [containerRequests, indexGet] using this
  have hall : (containerRequests gpuPrefix pod names).2 =
      pod.containers.map (fun c => requestsLoop gpuPrefix c.requests []) := by
    simpa [containerRequests] using h1
  refine ⟨?_, ?_, ?_, ?_, hall⟩
  · intro i
    rw [hget i]
    cases pod.containers[i]? with
    | none => simp
    | some c => by_cases hf : isFlagged names c.name = true <;> simp [hf]
  · intro i
    rw [hget i]
    cases pod.containers[i]? with
    | none => simp
    | some c => by_cases hf : isFlagged names c.name = true <;> simp [hf]
  · simpa [containerRequests] using h3
  · rw [hall, List.length_map]

/-- The sample pod with the containers `a` and `c` flagged: the index holds the
positions 0 and 2, and only the GPU resource of `a` is kept. -/
theorem containerRequests_sample :
    containerRequests (goStr "gpu.intel.com/") samplePod
        [(goStr "a", true), (goStr "c", true)] =
      ([(0, true), (2, true)], [[(goStr "gpu.intel.com/i915", 1)], [], []]) := by
  decide

/-! # Properties of `concatenateSplitLabel`, `getPCIGroup` and `addPCIGroupGPUs` -/

/-- C14: when the labels `L2`, ..., `Lm` are all on the node and `L(m+1)` is
not (`m = 1` when `L2` is missing), `concatenateSplitLabel(node, L)` is the value
of `L` followed in order by the values of `L2`, ..., `Lm`; labels with a higher
running number are not read, whether they exist or not. -/
theorem concatenateSplitLabel_spec (labels : GoMap GoString) (labelName : GoString) (m : Nat)
    (hm : 1 ≤ m)
    (hpresent : ∀ i, 2 ≤ i → i ≤ m → mapGet labels (labelName ++ renderNat i) ≠ none)
    (habsent : mapGet labels (labelName ++ renderNat (m + 1)) = none) :
    concatenateSplitLabel labels labelName =
      some (labelValue labels labelName ++ ((List.range' 2 (m - 1)).map
        (fun i => labelValue labels (labelName ++ renderNat i))).flatten) := by
  have hrun : ∀ i, 2 ≤ i → i < 2 + (m - 1) →
      mapGet labels (labelName ++ renderNat i) ≠ none :=
    fun i h1 h2 => hpresent i h1 (by omega)
  have hlen := present_run_le_length labels labelName 2 (m - 1) hrun
  exact splitLabelLoop_some labels labelName (m - 1) _ 2 _ (by omega) hrun
    (by rw [show 2 + (m - 1) = m + 1 by omega]; exact habsent)

/-- Witness of `concatenateSplitLabel_spec`: the sample node has the group label
(`0.1_`), its continuation 2 (`2.3`) and a continuation 4, but no
continuation 3: the result is `0.1_2.3`, without the value of continuation 4. -/
theorem concatenateSplitLabel_spec_witness :
    concatenateSplitLabel sampleNodeLabels pciGroupLabel = some (goStr "0.1_2.3") ∧
    mapGet sampleNodeLabels (pciGroupLabel ++ renderNat 4) = some (goStr "_4.5") ∧
    concatenateSplitLabel sampleNodeLabels pciGroupLabel =
      some (labelValue sampleNodeLabels pciGroupLabel ++ ((List.range' 2 (2 - 1)).map
        (fun i => labelValue sampleNodeLabels (pciGroupLabel ++ renderNat i))).flatten) :=
  ⟨by decide, by decide,
   concatenateSplitLabel_spec sampleNodeLabels pciGroupLabel 2 (by decide)
     (by
       intro i h1 h2
       have hi : i = 2 := by omega
       subst hi
       decide)
     (by decide)⟩

/-- C13 (as stated, refuted): a node without the label
`gpu.intel.com/pci-groups` but with the continuation label
`gpu.intel.com/pci-groups2` of value `0.1` does not give the empty list for
`card0`: the continuation is read even though the group label is missing. -/
theorem getPCIGroup_without_group_label :
    mapGet [(goStr "gpu.intel.com/pci-groups2", goStr "0.1")] pciGroupLabel = none ∧
    getPCIGroup [(goStr "gpu.intel.com/pci-groups2", goStr "0.1")] (goStr "card0") =
      some [goStr "0", goStr "1"] := by
  decide

/-- C13 (amended): for every node and GPU name, with `value` the reassembled
value of the group label: when `value` is not empty, `getPCIGroup` returns the
members of the first `_`-separated group of `value` that has a member `n` with
`"card" + n` equal to the GPU name (so a returned non-empty list holds such an
`n`), and the empty list when no group has one; when `value` is empty it returns
the empty list, which is the case when the node has neither the group label nor
its continuation 2. -/
theorem getPCIGroup_spec (labels : GoMap GoString) (gpuName : GoString) :
    ∃ value, concatenateSplitLabel labels pciGroupLabel = some value ∧
      (value ≠ [] → getPCIGroup labels gpuName =
        some (((pciGroupsOf value).find? (hasMember gpuName)).getD [])) ∧
      (value = [] → getPCIGroup labels gpuName = some []) ∧
      (mapGet labels pciGroupLabel = none →
        mapGet labels (pciGroupLabel ++ renderNat 2) = none → value = []) ∧
      (∀ group, getPCIGroup labels gpuName = some group → group ≠ [] →
        ∃ n ∈ group, goStr "card" ++ n = gpuName) := by
  obtain ⟨value, hv⟩ := concatenateSplitLabel_returns labels pciGroupLabel
  have hfull : value ≠ [] → getPCIGroup labels gpuName =
      some (((pciGroupsOf value).find? (hasMember gpuName)).getD []) := by
    intro hne
    simp only [getPCIGroup, hv, hne, ne_eq, not_false_eq_true, if_true, groupsLoop_eq,
      pciGroupsOf]
  have hempty : value = [] → getPCIGroup labels gpuName = some [] := by
    intro he
    simp [getPCIGroup, hv, he]
  refine ⟨value, hv, hfull, hempty, ?_, ?_⟩
  · intro h1 h2
    have h := splitLabelLoop_some labels pciGroupLabel 0 (labels.length + 1) 2
      (labelValue labels pciGroupLabel) (by omega) (fun i hi1 hi2 => by omega) h2
    rw [concatenateSplitLabel, h] at hv
    simpa [labelValue, h1] using hv.symm
  · intro group hg hne
    by_cases hval : value = []
    · rw [hempty hval] at hg
      exact absurd (Option.some.inj hg).symm hne
    · rw [hfull hval] at hg
      cases hf : (pciGroupsOf value).find? (hasMember gpuName) with
      | none =>
        rw [hf] at hg
        exact absurd (Option.some.inj hg).symm hne
      | some found =>
        rw [hf] at hg
        have hfg : found = group := by simpa using hg
        have hmem := List.find?_some hf
        rw [hfg] at hmem
        simpa [hasMember] using hmem

/-- Witness of `getPCIGroup_spec`: with the group label `0.1_2.3`, the group of
`card1` is `0`, `1` and the group of `card4` is empty. -/
theorem getPCIGroup_spec_witness :
    getPCIGroup [(pciGroupLabel, goStr "0.1_2.3")] (goStr "card1") =
      some [goStr "0", goStr "1"] ∧
    getPCIGroup [(pciGroupLabel, goStr "0.1_2.3")] (goStr "card4") = some [] ∧
    ∃ value, concatenateSplitLabel [(pciGroupLabel, goStr "0.1_2.3")] pciGroupLabel =
        some value ∧
      (value ≠ [] → getPCIGroup [(pciGroupLabel, goStr "0.1_2.3")] (goStr "card1") =
        some (((pciGroupsOf value).find? (hasMember (goStr "card1"))).getD [])) :=
  ⟨by decide, by decide,
   (getPCIGroup_spec [(pciGroupLabel, goStr "0.1_2.3")] (goStr "card1")).imp
     (fun _ h => ⟨h.1, h.2.1⟩)⟩

/-- C15: `addPCIGroupGPUs(node, card, cards)` returns `cards` followed by
`"card" + n` for the members `n` of the PCI group of `card` whose identifier is
not in `cards`, each once and in the order of the group. So `cards` is a prefix
of the result, the result holds the cards of the list and of the group and no
other, a duplicate-free `cards` gives a duplicate-free result, and when `card`
is in no group the result is `cards`. -/
theorem addPCIGroupGPUs_spec (labels : GoMap GoString) (card : GoString)
    (cards : List GoString) :
    ∃ group, getPCIGroup labels card = some group ∧
    ∃ r, addPCIGroupGPUs labels card cards = some r ∧
      r = cards ++ distinctInOrder
        ((group.map (fun n => goStr "card" ++ n)).filter (fun x => decide (x ∉ cards))) ∧
      cards <+: r ∧
      (∀ x, x ∈ r ↔ x ∈ cards ∨ ∃ n ∈ group, x = goStr "card" ++ n) ∧
      (cards.Nodup → r.Nodup) ∧
      (group = [] → r = cards) := by
  obtain ⟨group, hg⟩ := getPCIGroup_returns labels card
  refine ⟨group, hg, addGroupLoop group cards, by simp [addPCIGroupGPUs, hg], ?_⟩
  have heq := addGroupLoop_eq group cards
  refine ⟨heq, ?_, ?_, ?_, ?_⟩
  · rw [heq]
    exact List.prefix_append _ _
  · intro x
    rw [heq, List.mem_append, mem_distinctInOrder, List.mem_filter, List.mem_map]
    constructor
    · rintro (h | ⟨⟨n, hn, rfl⟩, _⟩)
      · exact Or.inl h
      · exact Or.inr ⟨n, hn, rfl⟩
    · rintro (h | ⟨n, hn, rfl⟩)
      · exact Or.inl h
      · by_cases hc : goStr "card" ++ n ∈ cards
        · exact Or.inl hc
        · exact Or.inr ⟨⟨n, hn, rfl⟩, by simpa using hc⟩
  · intro hnd
    rw [heq]
    refine List.Nodup.append hnd (nodup_distinctInOrder _) ?_
    intro x hx1 hx2
    rw [mem_distinctInOrder, List.mem_filter] at hx2
    exact (by simpa using hx2.2 : x ∉ cards) hx1
  · intro hnil
    rw [heq, hnil]
    simp [distinctInOrder]

/-! # Accumulation of tile labels -/

/-- C11 (as stated, refuted): the tile-disable label for `card0` with the tile
digits `9223372036854775808` gives the entry `9223372036854775807`, not the
number those digits write: `Atoi` saturates and its error is dropped. -/
theorem disable_tile_saturates :
    createTileMapping sampleConsts sampleHugeTileLabels =
      ([(goStr "card0", [9223372036854775807])], [], []) ∧
    decimalValue (goStr "9223372036854775808") = 9223372036854775808 := by
  decide

/-- C11 (amended): for every label map (visited in any order) and every card,
the tiles of the disabled mapping under that card correspond one to one, in the
order of the visit, to the labels of the form
`<namespace>/<tile-disable sub-prefix>card<D1>_gt<D2>` with that card as
`card<D1>` (`keepDisable` selects them), each tile being the number `D2`, capped
at the largest `int`; matches are appended, so `k` such labels give a list of
length `k`. The same holds for the descheduled mapping and the labels
recognized as tile-deschedule labels. -/
theorem createTileMapping_accumulates (c : LabelConsts) (labels : GoMap GoString)
    (card : GoString) (keepDisable keepDesched : GoString × GoString → Bool)
    (hdis : ∀ lv ∈ labels, keepDisable lv = true ↔ ∃ tile, DisableEntry c card lv.1 tile)
    (hdes : ∀ lv ∈ labels, keepDesched lv = true ↔ ∃ tile, DeschedEntry c card lv.1 tile) :
    List.Forall₂ (fun lv tile => DisableEntry c card lv.1 tile)
      (labels.filter keepDisable) (tilesOf (createTileMapping c labels).1 card) ∧
    List.Forall₂ (fun lv tile => DeschedEntry c card lv.1 tile)
      (labels.filter keepDesched) (tilesOf (createTileMapping c labels).2.1 card) ∧
    (tilesOf (createTileMapping c labels).1 card).length =
      (labels.filter keepDisable).length ∧
    (tilesOf (createTileMapping c labels).2.1 card).length =
      (labels.filter keepDesched).length := by
  obtain ⟨h1, h2, _⟩ := tilesOf_tileMappingLoop c card labels ([], [], [])
  have e1 : tilesOf (createTileMapping c labels).1 card =
      labels.flatMap (fun lv => entryTiles card (disabledEntry c lv.1)) := by
    rw [createTileMapping, h1]
    rfl
  have e2 : tilesOf (createTileMapping c labels).2.1 card =
      labels.flatMap (fun lv => entryTiles card (deschedEntry c lv.1)) := by
    rw [createTileMapping, h2]
    rfl
  have f1 := forall₂_of_entry_iff (disabledEntry c)
    (fun card1 label tile => DisableEntry c card1 label tile) card
    (fun label card1 tile => disabledEntry_iff c card1 label tile) labels keepDisable hdis
  have f2 := forall₂_of_entry_iff (deschedEntry c)
    (fun card1 label tile => DeschedEntry c card1 label tile) card
    (fun label card1 tile => deschedEntry_iff c card1 label tile) labels keepDesched hdes
  rw [← e1] at f1
  rw [← e2] at f2
  exact ⟨f1, f2, f1.length_eq.symm, f2.length_eq.symm⟩

/-- Witness of `createTileMapping_accumulates`: on the sample labels, `card0`
has the two disabled tiles 3 and 1, one per tile-disable label for it, and the
one descheduled tile 2. -/
theorem createTileMapping_accumulates_witness :
    createTileMapping sampleConsts sampleTileLabels =
      ([(goStr "card0", [3, 1]), (goStr "card1", [0])], [(goStr "card0", [2])], []) ∧
    (tilesOf (createTileMapping sampleConsts sampleTileLabels).1 (goStr "card0")).length =
      (sampleTileLabels.filter (fun lv => decide
        (entryTiles (goStr "card0") (disabledEntry sampleConsts lv.1) ≠ []))).length :=
  ⟨by decide,
   (createTileMapping_accumulates sampleConsts sampleTileLabels (goStr "card0")
      (fun lv => decide (entryTiles (goStr "card0") (disabledEntry sampleConsts lv.1) ≠ []))
      (fun lv => decide (entryTiles (goStr "card0") (deschedEntry sampleConsts lv.1) ≠ []))
      (fun lv _ => exists_entry_iff (disabledEntry sampleConsts)
        (fun card1 label tile => DisableEntry sampleConsts card1 label tile)
        (fun label card1 tile => disabledEntry_iff sampleConsts card1 label tile)
        (goStr "card0") lv.1)
      (fun lv _ => exists_entry_iff (deschedEntry sampleConsts)
        (fun card1 label tile => DeschedEntry sampleConsts card1 label tile)
        (fun label card1 tile => deschedEntry_iff sampleConsts card1 label tile)
        (goStr "card0") lv.1)).2.2.1⟩

/-- C12 (as stated, refuted): the preference label for `card0` with the value
`gt9223372036854775808` gives the preferred tile `9223372036854775807`, not the
number the digits of the value write. -/
theorem preference_tile_saturates :
    createTileMapping sampleConsts sampleHugePreferenceLabels =
      ([], [], [(goStr "card0", [9223372036854775807])]) ∧
    decimalValue (goStr "9223372036854775808") = 9223372036854775808 := by
  decide

/-- The loop body on a tile-preference label: for a label of the namespace
recognized as a tile-preference label, with the name `r` after the sub-prefix
and the value `v`: `r + "_" + v` matches `^card([0-9]+)_gt([0-9]+)$` exactly
when `r` is `card` and digits and `v` is `gt` and digits; then the loop body
appends under the key `r` of the preferred mapping the number written by the
digits of `v`, capped at the largest `int`, and leaves the disabled and
descheduled mappings as they are; otherwise it leaves the three mappings as
they are. -/
theorem preference_label_entry (c : LabelConsts) (acc : TilesMap × TilesMap × TilesMap)
    (label value r : GoString) (hns : InNamespace c label)
    (hd : hasPrefix (labelName label) c.tileDisableLabelPrefix = false)
    (hs : hasPrefix (labelName label) c.tileDeschedLabelPrefix = false)
    (hname : labelName label = c.tilePrefLabelPrefix ++ r) :
    (MatchesCardTile (r ++ goStr "_" ++ value) ↔
      ∃ digits1 digits2 : GoString, IsDecimal digits1 ∧ IsDecimal digits2 ∧
        r = goStr "card" ++ digits1 ∧ value = goStr "gt" ++ digits2) ∧
    (∀ digits1 digits2 : GoString, IsDecimal digits1 → IsDecimal digits2 →
      r = goStr "card" ++ digits1 → value = goStr "gt" ++ digits2 →
      tileMappingStep c acc label value =
        (acc.1, acc.2.1,
          appendTile acc.2.2 r ((min (decimalValue digits2) maxInt : Nat) : Int))) ∧
    (¬ MatchesCardTile (r ++ goStr "_" ++ value) →
      tileMappingStep c acc label value = acc) := by
  obtain ⟨hp, ht⟩ := trimPrefix_of_eq_append _ _ _ hname
  have hdis : disabledEntry c label = none := by simp [disabledEntry, hd]
  have hdes : deschedEntry c label = none := by simp [deschedEntry, hs]
  have hpref : preferredEntry c label value =
      extractCardAndTile (r ++ goStr "_" ++ value) := by
    rw [preferredEntry, if_pos ⟨hns.1, hns.2, hd, hs, hp⟩, ht]
  refine ⟨?_, ?_, ?_⟩
  · rw [matchesCardTile_iff]
    constructor
    · rintro ⟨card, tile, h⟩
      obtain ⟨d1, d2, h1, h2, hr, hv, _, _⟩ := (preference_text_iff r value card tile).1 h
      exact ⟨d1, d2, h1, h2, hr, hv⟩
    · rintro ⟨d1, d2, h1, h2, hr, hv⟩
      exact ⟨r, _, (preference_text_iff r value r _).2 ⟨d1, d2, h1, h2, hr, hv, rfl, rfl⟩⟩
  · intro d1 d2 h1 h2 hr hv
    have hx := (extractCardAndTile_iff _ _ _).2
      ((preference_text_iff r value r _).2 ⟨d1, d2, h1, h2, hr, hv, rfl, rfl⟩)
    rw [tileMappingStep_eq, hdis, hdes, hpref, hx]
    rfl
  · intro hno
    rw [tileMappingStep_eq, hdis, hdes, hpref, extractCardAndTile_none_of_not_matches _ hno]
    rfl

/-- Witness of `preference_label_entry`: the label
`telemetry.aware.scheduling.policy/tile-preference-card1` with the value `gt2`
appends the tile 2 under `card1` in the preferred mapping. -/
theorem preference_label_entry_witness :
    tileMappingStep sampleConsts ([], [], [])
        (goStr "telemetry.aware.scheduling.policy/tile-preference-card1") (goStr "gt2") =
      ([], [], [(goStr "card1", [2])]) ∧
    (MatchesCardTile (goStr "card1" ++ goStr "_" ++ goStr "gt2") ↔
      ∃ digits1 digits2 : GoString, IsDecimal digits1 ∧ IsDecimal digits2 ∧
        goStr "card1" = goStr "card" ++ digits1 ∧ goStr "gt2" = goStr "gt" ++ digits2) :=
  ⟨by decide,
   (preference_label_entry sampleConsts ([], [], [])
      (goStr "telemetry.aware.scheduling.policy/tile-preference-card1") (goStr "gt2")
      (goStr "card1") ⟨by decide, by decide⟩ (by decide) (by decide) (by decide)).1⟩

/-- C12 (amended): for every label map (visited in any order) and every card
`r`, the tiles of the preferred mapping of `createTileMapping` under `r`
correspond one to one, in the order of the visit, to the labels recognized as
tile-preference labels whose name after the sub-prefix is `r` and whose value
`v` makes `r + "_" + v` match `^card([0-9]+)_gt([0-9]+)$` (`keepPreferred`
selects them), each tile being the number written by the digits of `v`, capped
at the largest `int`; such a label has an entry exactly when `r + "_" + v`
matches, which is when `r` is `card` and digits and `v` is `gt` and digits; and
leaving out labels recognized as tile-preference labels (those `isPreference`
marks) changes neither the disabled nor the descheduled mapping. -/
theorem createTileMapping_preferred (c : LabelConsts) (labels : GoMap GoString)
    (card : GoString) (keepPreferred isPreference : GoString × GoString → Bool)
    (hkeep : ∀ lv ∈ labels,
      keepPreferred lv = true ↔ ∃ tile, PreferenceEntry c card lv.1 lv.2 tile)
    (hpref : ∀ lv ∈ labels, isPreference lv = true → PreferenceLabel c lv.1) :
    List.Forall₂ (fun lv tile => PreferenceEntry c card lv.1 lv.2 tile)
      (labels.filter keepPreferred) (tilesOf (createTileMapping c labels).2.2 card) ∧
    (tilesOf (createTileMapping c labels).2.2 card).length =
      (labels.filter keepPreferred).length ∧
    (∀ label value r, PreferenceLabel c label →
      labelName label = c.tilePrefLabelPrefix ++ r →
      ((∃ tile, PreferenceEntry c r label value tile) ↔
        MatchesCardTile (r ++ goStr "_" ++ value))) ∧
    (∀ r value, MatchesCardTile (r ++ goStr "_" ++ value) ↔
      ∃ digits1 digits2 : GoString, IsDecimal digits1 ∧ IsDecimal digits2 ∧
        r = goStr "card" ++ digits1 ∧ value = goStr "gt" ++ digits2) ∧
    (createTileMapping c (labels.filter (fun lv => !isPreference lv))).1 =
      (createTileMapping c labels).1 ∧
    (createTileMapping c (labels.filter (fun lv => !isPreference lv))).2.1 =
      (createTileMapping c labels).2.1 := by
  obtain ⟨_, _, h3⟩ := tilesOf_tileMappingLoop c card labels ([], [], [])
  have e3 : tilesOf (createTileMapping c labels).2.2 card =
      labels.flatMap (fun lv => entryTiles card (preferredEntry c lv.1 lv.2)) := by
    rw [createTileMapping, h3]
    rfl
  have f3 := forall₂_of_pair_entry_iff (fun lv => preferredEntry c lv.1 lv.2)
    (fun card1 lv tile => PreferenceEntry c card1 lv.1 lv.2 tile) card
    (fun lv card1 tile => preferredEntry_iff c card1 lv.1 lv.2 tile) labels keepPreferred hkeep
  rw [← e3] at f3
  have hfilter := tileMappingLoop_filter_first_two c (fun lv => !isPreference lv) labels
    ([], [], []) ([], [], []) rfl rfl
    (fun lv hlv hk => no_other_entry_of_preferenceLabel c lv.1
      (hpref lv hlv (by simpa using hk)))
  exact ⟨f3, f3.length_eq.symm,
    fun label value r hl hn => exists_preferenceEntry_iff c label value r hl hn,
    matches_preference_text_iff, hfilter.1, hfilter.2⟩

/-- Witness of `createTileMapping_preferred`: on the sample labels `card1` has
the two preferred tiles 2 and 3, one per matching preference label for it; the
preference label with the value `tile3` brings nothing; and without the
preference labels the disabled mapping is the same. -/
theorem createTileMapping_preferred_witness :
    createTileMapping sampleConsts samplePreferenceLabels =
      ([(goStr "card1", [0])], [],
        [(goStr "card1", [2, 3]), (goStr "card0", [1])]) ∧
    (tilesOf (createTileMapping sampleConsts samplePreferenceLabels).2.2
        (goStr "card1")).length =
      (samplePreferenceLabels.filter (fun lv => decide
        (entryTiles (goStr "card1") (preferredEntry sampleConsts lv.1 lv.2) ≠ []))).length ∧
    (createTileMapping sampleConsts (samplePreferenceLabels.filter
        (fun lv => !decide (PreferenceLabel sampleConsts lv.1)))).1 =
      (createTileMapping sampleConsts samplePreferenceLabels).1 :=
  ⟨by decide,
   (createTileMapping_preferred sampleConsts samplePreferenceLabels (goStr "card1")
      (fun lv => decide
        (entryTiles (goStr "card1") (preferredEntry sampleConsts lv.1 lv.2) ≠ []))
      (fun lv => decide (PreferenceLabel sampleConsts lv.1))
      (fun lv _ => exists_pair_entry_iff (fun lv => preferredEntry sampleConsts lv.1 lv.2)
        (fun card1 lv tile => PreferenceEntry sampleConsts card1 lv.1 lv.2 tile)
        (fun lv card1 tile => preferredEntry_iff sampleConsts card1 lv.1 lv.2 tile)
        (goStr "card1") lv)
      (fun _ _ h => of_decide_eq_true h)).2.1,
   (createTileMapping_preferred sampleConsts samplePreferenceLabels (goStr "card1")
      (fun lv => decide
        (entryTiles (goStr "card1") (preferredEntry sampleConsts lv.1 lv.2) ≠ []))
      (fun lv => decide (PreferenceLabel sampleConsts lv.1))
      (fun lv _ => exists_pair_entry_iff (fun lv => preferredEntry sampleConsts lv.1 lv.2)
        (fun card1 lv tile => PreferenceEntry sampleConsts card1 lv.1 lv.2 tile)
        (fun lv card1 tile => preferredEntry_iff sampleConsts card1 lv.1 lv.2 tile)
        (goStr "card1") lv)
      (fun _ _ h => of_decide_eq_true h)).2.2.2.2.1⟩

end GpuScheduler
